import Mathlib

/-!
Verification of the swagger-routes spec-normalization module
(src/swaggerSpec.js) against its natural-language specification.

The development has two layers.

Layer 1 (pure values): the schema-assembly helpers of the module are pure
functions over parsed JSON-like values, embedded directly:
applyDefaults (lines 73-76), getOperationProperty (161-163),
createParamGroupSchemas / createParamsSchema (165-189),
createResponseSchemas / createResponseHeadersSchema (191-212), and the
fullPath computation of createPathOperation (112).

Layer 2 (heap machine): resolveRefs / resolveRef (123-159) operate on a
mutable object graph with identity-based memoization (dataCache) and
in-place mutation (delete data.$ref, data[name] = ...).  They are embedded
as a fuel-indexed state machine over an explicit heap of addressed nodes,
so that aliasing, cycles and destructive updates are represented exactly.
-/

namespace SwaggerSpec

/-- JSON-like document values, as the document loader produces them. -/
inductive J where
  | null
  | bool (b : Bool)
  | num (n : Int)
  | str (s : String)
  | arr (xs : List J)
  | obj (fields : List (String × J))
deriving Repr, Inhabited

/-- JavaScript truthiness of a document value. -/
def truthyJ : J → Bool
  | .null => false
  | .bool b => b
  | .num n => n != 0
  | .str s => s != ""
  | .arr _ => true
  | .obj _ => true

/-- Truthiness of a possibly-absent value (an absent value is falsy). -/
def truthyOpt : Option J → Bool
  | none => false
  | some v => truthyJ v

/-- Own-property lookup on an object kept as an association list. -/
def alookup {α : Type} : List (String × α) → String → Option α
  | [], _ => none
  | f :: fs, key => if f.1 == key then some f.2 else alookup fs key

/-- Own-property lookup specialised to document values. -/
def jget (fields : List (String × J)) (key : String) : Option J :=
  alookup fields key

/-- JavaScript property assignment: overwrite the key in place when present,
append it otherwise. -/
def setField : List (String × J) → String → J → List (String × J)
  | [], key, v => [(key, v)]
  | f :: fs, key, v => if f.1 == key then (f.1, v) :: fs else f :: setField fs key v

/-- Embeds applyDefaults (lines 73-76): set basePath to the root path when it
is absent or falsy, and return the document. -/
def applyDefaults (spec : List (String × J)) : List (String × J) :=
  if truthyOpt (jget spec "basePath") then spec
  else setField spec "basePath" (.str "/")

/-- Embeds getOperationProperty (lines 161-163):
(pathInfo and pathInfo[prop]) chooses pathInfo[prop] when pathInfo is present
and the looked-up value is truthy, and spec[prop] otherwise. -/
def getOperationProperty (prop : String) (pathInfo : Option (List (String × J)))
    (spec : List (String × J)) : Option J :=
  match pathInfo with
  | none => jget spec prop
  | some pinfo =>
    match jget pinfo prop with
    | some v => if truthyJ v then some v else jget spec prop
    | none => jget spec prop

/-- A parameter declaration (data model of the spec, section 3): name, the
location field (spelled in in the source, a keyword in Lean), and the
required flag. -/
structure Param where
  name : String
  loc : Option String := none
  required : Bool := false
deriving Repr, DecidableEq

/-- The fixed parameter-location list PARAM_GROUPS (lines 19-29). -/
def PARAM_GROUPS : List String := ["header", "path", "query", "body", "formData"]

/-- The object schema createParamsSchema builds for one location. -/
structure ParamsSchema where
  type : String
  properties : List (String × Param)
  required : List String
deriving Repr, DecidableEq

/-- JavaScript property assignment for the properties accumulator of
createParamsSchema: overwrite in place or append. -/
def upsertProp : List (String × Param) → String → Param → List (String × Param)
  | [], key, p => [(key, p)]
  | f :: fs, key, p => if f.1 == key then (f.1, p) :: fs else f :: upsertProp fs key p

/-- Embeds createParamsSchema (lines 178-189).  The source stores a shallow
copy of each parameter object; values here are immutable so the parameter
itself stands for its copy. -/
def createParamsSchema (params : List Param) : ParamsSchema :=
  { type := "object"
  , properties := params.foldl (fun props p => upsertProp props p.name p) []
  , required := (params.filter (fun p => p.required)).map (fun p => p.name) }

/-- Embeds createParamGroupSchemas (lines 165-176): one schema per fixed
location, keeping only locations whose schema has at least one property. -/
def createParamGroupSchemas (parameters : List Param) :
    List (String × ParamsSchema) :=
  (PARAM_GROUPS.map (fun loc =>
      (loc, createParamsSchema (parameters.filter (fun p => p.loc == some loc)))))
    |>.filter (fun g => g.2.properties.length != 0)

/-- A response header declaration: a schema-like object with a required flag. -/
structure HeaderDecl where
  required : Bool := false
deriving Repr, DecidableEq

/-- A response declaration: optional body schema, optional header map. -/
structure Response where
  schema : Option J := none
  headers : Option (List (String × HeaderDecl)) := none
deriving Repr

/-- The header schema createResponseHeadersSchema builds. -/
structure HeadersSchema where
  type : String
  properties : List (String × HeaderDecl)
  required : List String
deriving Repr, DecidableEq

/-- One entry of the responseSchemas map: id, bodySchema, headersSchema. -/
structure ResponseSchema where
  id : String
  bodySchema : Option J
  headersSchema : Option HeadersSchema
deriving Repr

/-- Embeds createResponseHeadersSchema (lines 204-212): absent headers give an
absent schema; declared headers (an empty map included, it is truthy) give an
object schema with the headers as properties and the required names. -/
def createResponseHeadersSchema (headers : Option (List (String × HeaderDecl))) :
    Option HeadersSchema :=
  match headers with
  | none => none
  | some hs => some
    { type := "object"
    , properties := hs
    , required := (hs.filter (fun h => h.2.required)).map (fun h => h.1) }

/-- Embeds createResponseSchemas (lines 191-202): each declared response key
maps to an object carrying the id, the declared body schema, and the derived
headers schema. -/
def createResponseSchemas (responses : List (String × Response)) :
    List (String × ResponseSchema) :=
  responses.map (fun r => (r.1,
    { id := r.1
    , bodySchema := r.2.schema
    , headersSchema := createResponseHeadersSchema r.2.headers }))

/-- Split a character list at every occurrence of a separator, keeping empty
pieces, as the JavaScript string split method does. -/
def splitOnChar (c : Char) : List Char → List (List Char)
  | [] => [[]]
  | x :: xs =>
    match splitOnChar c xs, decide (x = c) with
    | r, true => [] :: r
    | [], false => [[x]]
    | y :: ys, false => (x :: y) :: ys

/-- Split a string on slashes (structurally recursive so concrete instances
evaluate in the kernel). -/
def splitSlash (s : String) : List String :=
  (splitOnChar '/' s.data).map (fun cs => String.mk cs)

/-- Whether a string ends with a slash. -/
def endsWithSlash (s : String) : Bool := s.data.getLast? == some '/'

/-- Modelled from the Node standard library: path.normalize (POSIX) restricted
to the absolute paths this module builds (the argument always starts with a
slash): empty and single-dot segments are dropped, a double-dot segment
removes the segment before it, and a trailing slash is kept when any segment
remains. -/
def posixNormalize (p : String) : String :=
  let core := (splitSlash p).foldl (fun acc seg =>
    if seg = "" || seg = "." then acc
    else if seg = ".." then acc.dropLast
    else acc ++ [seg]) []
  let base := "/" ++ String.intercalate "/" core
  if endsWithSlash p && core != [] then base ++ "/" else base

/-- The tagged path item handed to createPathOperation: the path template. -/
structure PathInfoL where
  path : String
deriving Repr, DecidableEq

/-- The document fields createPathOperation reads. -/
structure SpecL where
  basePath : String := "/"
  consumes : Option J := none
  produces : Option J := none
deriving Repr

/-- The operation node after reference resolution and after the structural
defaults of lines 107-108 (parameters and responses present). -/
structure OperationNode where
  operationId : Option String := none
  consumes : Option J := none
  produces : Option J := none
  parameters : List Param := []
  responses : List (String × Response) := []
deriving Repr

/-- The computed fields of the operation descriptor (lines 109-118). -/
structure PathOperation where
  id : Option String
  path : String
  fullPath : String
  consumes : Option J
  produces : Option J
  paramGroupSchemas : List (String × ParamsSchema)
  responseSchemas : List (String × ResponseSchema)
  method : String
deriving Repr

/-- getOperationProperty with its two field lookups already performed (the
structured operation node and document carry the fields directly). -/
def getOpProp (opVal : Option J) (specVal : Option J) : Option J :=
  match opVal with
  | some v => if truthyJ v then some v else specVal
  | none => specVal

/-- Embeds the computed-field assembly of createPathOperation (lines 105-121)
over an operation node that has already been through reference resolution
(line 106 is the heap machine resolveRefs below). -/
def createPathOperation (method : String) (pathInfo : PathInfoL)
    (operationInfo : OperationNode) (spec : SpecL) : PathOperation :=
  { id := operationInfo.operationId
  , path := pathInfo.path
  , fullPath := posixNormalize ("/" ++ spec.basePath ++ "/" ++ pathInfo.path)
  , consumes := getOpProp operationInfo.consumes spec.consumes
  , produces := getOpProp operationInfo.produces spec.produces
  , paramGroupSchemas := createParamGroupSchemas operationInfo.parameters
  , responseSchemas := createResponseSchemas operationInfo.responses
  , method := method }

example : posixNormalize "//api//users/{id}" = "/api/users/{id}" := by decide

/-! Helper lemmas about association-list lookup and update. -/

theorem alookup_eq_none_of_not_mem {α : Type} (fs : List (String × α)) (k : String)
    (h : k ∉ fs.map (fun f => f.1)) : alookup fs k = none := by
  induction fs with
  | nil => rfl
  | cons f fs ih =>
    simp only [List.map_cons, List.mem_cons, not_or] at h
    have hne : (f.1 == k) = false := by
      simp only [beq_eq_false_iff_ne, ne_eq]
      exact fun hk => h.1 hk.symm
    simp only [alookup, hne, Bool.false_eq_true, if_false]
    exact ih h.2

theorem jget_setField_self (fs : List (String × J)) (k : String) (v : J) :
    jget (setField fs k v) k = some v := by
  induction fs with
  | nil => simp [setField, jget, alookup]
  | cons f fs ih =>
    by_cases h : f.1 = k
    · simp [setField, jget, alookup, h]
    · simp only [jget] at ih
      simp [setField, jget, alookup, h, ih]

theorem jget_setField_other (fs : List (String × J)) (k k' : String) (v : J)
    (h : k' ≠ k) : jget (setField fs k v) k' = jget fs k' := by
  induction fs with
  | nil => simp [setField, jget, alookup, Ne.symm h]
  | cons f fs ih =>
    by_cases hf : f.1 = k
    · subst hf
      simp [setField, jget, alookup, Ne.symm h]
    · simp only [jget] at ih
      simp [setField, jget, alookup, hf, ih]

/-- C9: applyDefaults sets basePath to the root path exactly when basePath is
absent or falsy, leaves basePath unchanged otherwise, leaves every other field
of the document unchanged, and returns the (possibly updated) document. -/
theorem applyDefaults_basePath_default (spec : List (String × J)) :
    (truthyOpt (jget spec "basePath") = false →
      jget (applyDefaults spec) "basePath" = some (.str "/")) ∧
    (truthyOpt (jget spec "basePath") = true → applyDefaults spec = spec) ∧
    (∀ k, k ≠ "basePath" → jget (applyDefaults spec) k = jget spec k) := by
  by_cases h : truthyOpt (jget spec "basePath") = true
  · refine ⟨fun hf => ?_, fun _ => ?_, fun k _ => ?_⟩
    · rw [h] at hf; cases hf
    · simp [applyDefaults, h]
    · simp [applyDefaults, h]
  · have h' : truthyOpt (jget spec "basePath") = false := by
      cases hb : truthyOpt (jget spec "basePath")
      · rfl
      · exact absurd hb h
    refine ⟨fun _ => ?_, fun ht => absurd ht h, fun k hk => ?_⟩
    · simp only [applyDefaults, h', Bool.false_eq_true, if_false]
      exact jget_setField_self spec "basePath" (.str "/")
    · simp only [applyDefaults, h', Bool.false_eq_true, if_false]
      exact jget_setField_other spec "basePath" k (.str "/") hk

/-- Witness for C9: a document without basePath gets the root path; a document
with a truthy basePath is returned unchanged. -/
theorem applyDefaults_basePath_default_witness :
    jget (applyDefaults [("paths", J.obj [])]) "basePath" = some (.str "/") ∧
    applyDefaults [("basePath", J.str "/v1")] = [("basePath", J.str "/v1")] :=
  ⟨(applyDefaults_basePath_default [("paths", J.obj [])]).1 rfl,
   (applyDefaults_basePath_default [("basePath", J.str "/v1")]).2.1 rfl⟩

/-- C5 counterexample: an operation whose consumes field is a present but
empty list keeps its own empty list (an empty array is truthy in JavaScript),
while the claim requires falling back to the document-level list. -/
theorem getOperationProperty_empty_list_counterexample :
    getOperationProperty "consumes" (some [("consumes", .arr [])])
        [("consumes", .arr [.str "application/json"])] = some (.arr []) ∧
    (J.arr []) ≠ (J.arr [.str "application/json"]) := by
  constructor
  · rfl
  · intro h
    injection h with h2
    cases h2

/-- C5 amended: the consumes (and produces) value is the operation-level value
whenever that value is present and truthy (any present array, an empty one
included, is truthy and wins), and the document-level value otherwise; in
particular an operation without the field inherits the document-level value
verbatim. -/
theorem getOperationProperty_precedence (prop : String)
    (pinfo : List (String × J)) (spec : List (String × J)) :
    (∀ v, jget pinfo prop = some v → truthyJ v = true →
        getOperationProperty prop (some pinfo) spec = some v) ∧
    (∀ v, jget pinfo prop = some v → truthyJ v = false →
        getOperationProperty prop (some pinfo) spec = jget spec prop) ∧
    (jget pinfo prop = none →
        getOperationProperty prop (some pinfo) spec = jget spec prop) ∧
    (∀ xs, jget pinfo prop = some (.arr xs) →
        getOperationProperty prop (some pinfo) spec = some (.arr xs)) := by
  refine ⟨fun v hv ht => ?_, fun v hv ht => ?_, fun hv => ?_, fun xs hv => ?_⟩
  · simp [getOperationProperty, hv, ht]
  · simp [getOperationProperty, hv, ht]
  · simp [getOperationProperty, hv]
  · simp [getOperationProperty, hv, truthyJ]

/-- Witness for C5 amended: an operation without consumes inherits the
document-level list verbatim. -/
theorem getOperationProperty_precedence_witness :
    getOperationProperty "consumes" (some [])
      [("consumes", .arr [.str "application/json"])] =
      some (.arr [.str "application/json"]) := by
  have h := (getOperationProperty_precedence "consumes" []
    [("consumes", .arr [.str "application/json"])]).2.2.1 rfl
  rw [h]; rfl

/-- Lookup after a key-preserving map: the transform of the first match. -/
theorem alookup_map_keyed {α β : Type} (g : String → α → β)
    (rs : List (String × α)) (k : String) :
    alookup (rs.map (fun r => (r.1, g r.1 r.2))) k =
      (alookup rs k).map (fun v => g k v) := by
  induction rs with
  | nil => rfl
  | cons r rs ih =>
    by_cases h : r.1 = k
    · subst h
      simp [alookup]
    · have hne : (r.1 == k) = false := by
        simp [beq_eq_false_iff_ne, h]
      simp only [List.map_cons, alookup, hne, Bool.false_eq_true, if_false]
      exact ih

/-- C6: createResponseSchemas maps each declared status key to an entry whose
bodySchema is the declared body schema and whose headersSchema is absent
exactly when no headers are declared, and otherwise is an object schema with
the headers verbatim as properties and the required header names. -/
theorem createResponseSchemas_shape (rs : List (String × Response)) (k : String)
    (r : Response) (h : alookup rs k = some r) :
    alookup (createResponseSchemas rs) k = some
      { id := k
      , bodySchema := r.schema
      , headersSchema := createResponseHeadersSchema r.headers } ∧
    (r.headers = none → createResponseHeadersSchema r.headers = none) ∧
    (∀ hs, r.headers = some hs → createResponseHeadersSchema r.headers = some
      { type := "object"
      , properties := hs
      , required := (hs.filter (fun x => x.2.required)).map (fun x => x.1) }) := by
  refine ⟨?_, fun hn => ?_, fun hs hh => ?_⟩
  · have := alookup_map_keyed
      (fun id r => ({ id := id, bodySchema := r.schema
                    , headersSchema := createResponseHeadersSchema r.headers } : ResponseSchema))
      rs k
    rw [createResponseSchemas, this, h]
    rfl
  · rw [hn]; rfl
  · rw [hh]; rfl

/-- Witness for C6: the response with one required header and no body schema
from the specification produces exactly the documented pair of schemas. -/
theorem createResponseSchemas_shape_witness :
    alookup (createResponseSchemas
        [("200", { schema := none
                 , headers := some [("X-Rate", { required := true })] })]) "200" =
      some { id := "200"
           , bodySchema := none
           , headersSchema := some { type := "object"
                                   , properties := [("X-Rate", { required := true })]
                                   , required := ["X-Rate"] } } :=
  (createResponseSchemas_shape
    [("200", { schema := none, headers := some [("X-Rate", { required := true })] })]
    "200" _ rfl).1

/-! Helper lemmas about the properties accumulator of createParamsSchema. -/

theorem mem_keys_upsertProp (props : List (String × Param)) (key : String)
    (p : Param) (k : String) :
    k ∈ (upsertProp props key p).map (fun f => f.1) ↔
      k ∈ props.map (fun f => f.1) ∨ k = key := by
  induction props with
  | nil => simp [upsertProp, eq_comm]
  | cons f fs ih =>
    by_cases h : f.1 = key
    · subst h
      simp only [upsertProp, beq_self_eq_true, if_true, List.map_cons, List.mem_cons]
      constructor
      · rintro (rfl | hk)
        · exact Or.inl (Or.inl rfl)
        · exact Or.inl (Or.inr hk)
      · rintro ((rfl | hk) | rfl)
        · exact Or.inl rfl
        · exact Or.inr hk
        · exact Or.inl rfl
    · have hb : (f.1 == key) = false := by simp [h]
      simp only [upsertProp, hb, Bool.false_eq_true, if_false, List.map_cons,
        List.mem_cons, ih]
      tauto

theorem upsertProp_ne_nil (props : List (String × Param)) (key : String) (p : Param) :
    upsertProp props key p ≠ [] := by
  cases props with
  | nil => simp [upsertProp]
  | cons f fs =>
    by_cases h : f.1 = key
    · simp [upsertProp, h]
    · have hb : (f.1 == key) = false := by simp [h]
      simp [upsertProp, hb]

theorem foldl_upsertProp_ne_nil (ps : List Param) (acc : List (String × Param))
    (h : acc ≠ []) :
    ps.foldl (fun a q => upsertProp a q.name q) acc ≠ [] := by
  induction ps generalizing acc with
  | nil => exact h
  | cons q ps ih =>
    simp only [List.foldl_cons]
    exact ih _ (upsertProp_ne_nil acc q.name q)

theorem mem_keys_foldl_upsertProp_mono (ps : List Param) (acc : List (String × Param))
    (k : String) (h : k ∈ acc.map (fun f => f.1)) :
    k ∈ (ps.foldl (fun a q => upsertProp a q.name q) acc).map (fun f => f.1) := by
  induction ps generalizing acc with
  | nil => exact h
  | cons q ps ih =>
    simp only [List.foldl_cons]
    exact ih _ ((mem_keys_upsertProp acc q.name q k).2 (Or.inl h))

theorem name_mem_keys_foldl_upsertProp (ps : List Param) (acc : List (String × Param))
    (p : Param) (hp : p ∈ ps) :
    p.name ∈ (ps.foldl (fun a q => upsertProp a q.name q) acc).map (fun f => f.1) := by
  induction ps generalizing acc with
  | nil => cases hp
  | cons q ps ih =>
    simp only [List.foldl_cons]
    rcases List.mem_cons.1 hp with rfl | hp'
    · exact mem_keys_foldl_upsertProp_mono ps _ p.name
        ((mem_keys_upsertProp acc p.name p p.name).2 (Or.inr rfl))
    · exact ih _ hp'

theorem createParamsSchema_required_sub (params : List Param) (n : String)
    (hn : n ∈ (createParamsSchema params).required) :
    n ∈ (createParamsSchema params).properties.map (fun f => f.1) := by
  simp only [createParamsSchema, List.mem_map, List.mem_filter] at hn
  obtain ⟨p, ⟨hp, _⟩, rfl⟩ := hn
  exact name_mem_keys_foldl_upsertProp params [] p hp

theorem createParamsSchema_properties_ne_nil (params : List Param)
    (h : params ≠ []) : (createParamsSchema params).properties ≠ [] := by
  cases params with
  | nil => cases h rfl
  | cons p ps =>
    simp only [createParamsSchema, List.foldl_cons]
    exact foldl_upsertProp_ne_nil ps _ (upsertProp_ne_nil [] p.name p)

/-! Helper lemmas about lookups in the filtered location map of
createParamGroupSchemas. -/

theorem alookup_filter_map_none {β : Type} (f : String → β) (pred : β → Bool)
    (L : List String) (k : String) (hk : k ∉ L) :
    alookup ((L.map (fun l => (l, f l))).filter (fun g => pred g.2)) k = none := by
  induction L with
  | nil => rfl
  | cons a L ih =>
    simp only [List.mem_cons, not_or] at hk
    have hne : (a == k) = false := by
      simp [Ne.symm hk.1]
    simp only [List.map_cons, List.filter_cons]
    cases hpa : pred (f a) with
    | true =>
      simp only [if_true, alookup, hne, Bool.false_eq_true, if_false]
      exact ih hk.2
    | false =>
      simp only [Bool.false_eq_true, if_false]
      exact ih hk.2

theorem alookup_filter_map {β : Type} (f : String → β) (pred : β → Bool)
    (L : List String) (k : String) (hnd : L.Nodup) (hk : k ∈ L) :
    alookup ((L.map (fun l => (l, f l))).filter (fun g => pred g.2)) k =
      if pred (f k) then some (f k) else none := by
  induction L with
  | nil => cases hk
  | cons a L ih =>
    rcases List.nodup_cons.1 hnd with ⟨hna, hndL⟩
    rcases List.mem_cons.1 hk with rfl | hkL
    · simp only [List.map_cons, List.filter_cons]
      cases hpa : pred (f k) with
      | true => simp [alookup]
      | false =>
        simp only [Bool.false_eq_true, if_false]
        exact alookup_filter_map_none f pred L k hna
    · have hne : (a == k) = false := by
        simp only [beq_eq_false_iff_ne, ne_eq]
        intro h
        subst h
        exact hna hkL
      simp only [List.map_cons, List.filter_cons]
      cases hpa : pred (f a) with
      | true =>
        simp only [if_true, alookup, hne, Bool.false_eq_true, if_false]
        exact ih hndL hkL
      | false =>
        simp only [Bool.false_eq_true, if_false]
        exact ih hndL hkL

theorem alookup_mem_keys {α : Type} (fs : List (String × α)) (k : String) (v : α)
    (h : alookup fs k = some v) : k ∈ fs.map (fun f => f.1) := by
  by_contra hk
  rw [alookup_eq_none_of_not_mem fs k hk] at h
  cases h

theorem keys_createParamGroupSchemas_sub (parameters : List Param) (loc : String)
    (h : loc ∈ (createParamGroupSchemas parameters).map (fun g => g.1)) :
    loc ∈ PARAM_GROUPS := by
  obtain ⟨g, hg, rfl⟩ := List.mem_map.1 h
  have hg' := List.mem_of_mem_filter hg
  obtain ⟨l, hl, rfl⟩ := List.mem_map.1 hg'
  exact hl

theorem foldl_upsertProp_nil : ([] : List Param).foldl
    (fun a q => upsertProp a q.name q) [] = [] := rfl

/-- C7: paramGroupSchemas contains only the five fixed locations, a location
key is present exactly when at least one parameter has that location, the
required list of every schema is a subset of its own properties keys, and
required lists exactly the names of the required parameters of the location. -/
theorem createParamGroupSchemas_invariants (parameters : List Param) :
    (∀ loc, loc ∈ (createParamGroupSchemas parameters).map (fun g => g.1) →
      loc ∈ PARAM_GROUPS) ∧
    (∀ loc, loc ∈ PARAM_GROUPS →
      ((alookup (createParamGroupSchemas parameters) loc).isSome = true ↔
        ∃ p ∈ parameters, p.loc = some loc)) ∧
    (∀ loc sch, alookup (createParamGroupSchemas parameters) loc = some sch →
      (∀ n ∈ sch.required, n ∈ sch.properties.map (fun f => f.1)) ∧
      sch.required = ((parameters.filter (fun p => p.loc == some loc)).filter
        (fun p => p.required)).map (fun p => p.name)) := by
  have hnd : PARAM_GROUPS.Nodup := by decide
  have hchar : ∀ loc, loc ∈ PARAM_GROUPS →
      alookup (createParamGroupSchemas parameters) loc =
        if (createParamsSchema (parameters.filter
              (fun p => p.loc == some loc))).properties.length != 0
        then some (createParamsSchema (parameters.filter (fun p => p.loc == some loc)))
        else none := by
    intro loc hloc
    exact alookup_filter_map
      (fun l => createParamsSchema (parameters.filter (fun p => p.loc == some l)))
      (fun sch => sch.properties.length != 0) PARAM_GROUPS loc hnd hloc
  have hne_iff : ∀ loc,
      ((parameters.filter (fun p => p.loc == some loc)) ≠ [] ↔
        ∃ p ∈ parameters, p.loc = some loc) := by
    intro loc
    rw [ne_eq, List.filter_eq_nil_iff]
    push_neg
    constructor
    · rintro ⟨p, hp, hl⟩
      exact ⟨p, hp, by simpa using hl⟩
    · rintro ⟨p, hp, hl⟩
      exact ⟨p, hp, by simpa using hl⟩
  have hprop_iff : ∀ loc,
      ((createParamsSchema
          (parameters.filter (fun p => p.loc == some loc))).properties.length != 0)
        = true ↔
        (parameters.filter (fun p => p.loc == some loc)) ≠ [] := by
    intro loc
    rw [bne_iff_ne, ne_eq, List.length_eq_zero, ← ne_eq]
    constructor
    · intro hne hcon
      apply hne
      rw [hcon]
      rfl
    · intro hne
      exact createParamsSchema_properties_ne_nil _ hne
  refine ⟨keys_createParamGroupSchemas_sub parameters, fun loc hloc => ?_, ?_⟩
  · rw [hchar loc hloc]
    by_cases hp : ((createParamsSchema (parameters.filter
        (fun p => p.loc == some loc))).properties.length != 0) = true
    · rw [if_pos hp]
      simp only [Option.isSome_some, true_iff]
      exact (hne_iff loc).1 ((hprop_iff loc).1 hp)
    · rw [if_neg hp]
      simp only [Option.isSome_none, Bool.false_eq_true, false_iff]
      intro hex
      exact hp ((hprop_iff loc).2 ((hne_iff loc).2 hex))
  · intro loc sch hsch
    have hloc : loc ∈ PARAM_GROUPS :=
      keys_createParamGroupSchemas_sub parameters loc
        (alookup_mem_keys _ loc sch hsch)
    rw [hchar loc hloc] at hsch
    by_cases hp : ((createParamsSchema (parameters.filter
        (fun p => p.loc == some loc))).properties.length != 0) = true
    · rw [if_pos hp] at hsch
      cases hsch
      exact ⟨createParamsSchema_required_sub _, rfl⟩
    · rw [if_neg hp] at hsch
      cases hsch

/-- Witness for C7: a path parameter and a query parameter give exactly the
keys path and query, with required listing exactly the path parameter. -/
theorem createParamGroupSchemas_invariants_witness :
    ((alookup (createParamGroupSchemas
        [{ name := "id", loc := some "path", required := true },
         { name := "q", loc := some "query" }]) "path").isSome = true ↔
      ∃ p ∈ [({ name := "id", loc := some "path", required := true } : Param),
             { name := "q", loc := some "query" }], p.loc = some "path") :=
  (createParamGroupSchemas_invariants
      [{ name := "id", loc := some "path", required := true },
       { name := "q", loc := some "query" }]).2.1 "path" (by decide)

/-- C8: the descriptor's fullPath is the POSIX path-normalization of slash,
document basePath, slash, path template; basePath /api with template
/users/{id} yields /api/users/{id} with the duplicate slashes collapsed. -/
theorem createPathOperation_fullPath (method : String) (pathInfo : PathInfoL)
    (op : OperationNode) (spec : SpecL) :
    (createPathOperation method pathInfo op spec).fullPath =
      posixNormalize ("/" ++ spec.basePath ++ "/" ++ pathInfo.path) ∧
    (spec.basePath = "/api" → pathInfo.path = "/users/{id}" →
      (createPathOperation method pathInfo op spec).fullPath = "/api/users/{id}") := by
  refine ⟨rfl, fun h1 h2 => ?_⟩
  show posixNormalize ("/" ++ spec.basePath ++ "/" ++ pathInfo.path) = _
  rw [h1, h2]
  decide

/-- Witness for C8: the documented example instance. -/
theorem createPathOperation_fullPath_witness :
    (createPathOperation "get" { path := "/users/{id}" } {}
      { basePath := "/api" }).fullPath = "/api/users/{id}" :=
  (createPathOperation_fullPath "get" { path := "/users/{id}" } {}
    { basePath := "/api" }).2 rfl rfl

/-!
The heap machine for resolveRefs / resolveRef (lines 123-159).

JavaScript objects are reference values: the resolver mutates nodes in
place (delete data.$ref, data[name] = ...), tracks visited nodes by
identity in the process-wide set dataCache, and resolveRef returns an alias
of a node inside the document, not a copy.  To represent identity,
aliasing and destructive update exactly, nodes live in an explicit heap of
addressed cells and the resolver is a state transition, indexed by fuel so
that it is total; running out of fuel returns none, a thrown assertion
returns an error.
-/

/-- A heap address (a JavaScript object identity). -/
abbrev Addr := Nat

/-- A heap cell: a scalar, an array of addresses, or an object whose fields
hold addresses. -/
inductive HVal where
  | null
  | bool (b : Bool)
  | num (n : Int)
  | str (s : String)
  | arr (elems : List Addr)
  | obj (fields : List (String × Addr))
deriving Repr, DecidableEq

/-- JavaScript truthiness of a heap value. -/
def truthyH : HVal → Bool
  | .null => false
  | .bool b => b
  | .num n => n != 0
  | .str s => s != ""
  | .arr _ => true
  | .obj _ => true

/-- Truthiness of a possibly-absent heap value. -/
def truthyOptH : Option HVal → Bool
  | none => false
  | some v => truthyH v

/-- The machine state: the heap, the identity memo set dataCache (line 124),
and the next fresh address. -/
structure St where
  heap : List (Addr × HVal)
  cache : List Addr
  next : Addr
deriving Repr, DecidableEq

/-- First-match lookup in the heap list. -/
def hfind : List (Addr × HVal) → Addr → Option HVal
  | [], _ => none
  | e :: es, a => if e.1 == a then some e.2 else hfind es a

/-- Read a heap cell. -/
def heapGet (s : St) (a : Addr) : Option HVal := hfind s.heap a

/-- Overwrite the first cell at an address (append when absent, which the
machine never does on a live address). -/
def hset : List (Addr × HVal) → Addr → HVal → List (Addr × HVal)
  | [], a, v => [(a, v)]
  | e :: es, a, v => if e.1 == a then (a, v) :: es else e :: hset es a v

/-- Write a heap cell in place. -/
def heapSet (s : St) (a : Addr) (v : HVal) : St :=
  { s with heap := hset s.heap a v }

/-- Allocate a fresh cell. -/
def allocSt (s : St) (v : HVal) : Addr × St :=
  (s.next, { s with heap := s.heap ++ [(s.next, v)], next := s.next + 1 })

/-- The two named assertion failures of resolveRef plus the runtime type
error a truthy non-string reference value raises at ref.split. -/
inductive JsErr where
  | invalidReferenceFormat
  | invalidReference
  | typeError
deriving Repr, DecidableEq

/-- Decimal digits to a number. -/
def digitsToNat : List Char → Nat → Nat
  | [], acc => acc
  | c :: cs, acc => digitsToNat cs (acc * 10 + (c.toNat - 48))

/-- A JavaScript array-index property name: digits with no leading zero. -/
def parseIndex (key : String) : Option Nat :=
  match key.data with
  | [] => none
  | c :: cs =>
    if (c :: cs).all (fun d => d.isDigit) && (c != '0' || cs.isEmpty) then
      some (digitsToNat (c :: cs) 0)
    else none

/-- JavaScript property read value[key]: a field of an object, an index of an
array, absent on scalars. -/
def propGet (s : St) (a : Addr) (key : String) : Option Addr :=
  match heapGet s a with
  | some (.obj fs) => alookup fs key
  | some (.arr xs) =>
    match parseIndex key with
    | some i => xs.get? i
    | none => none
  | _ => none

/-- The lookup loop of resolveRef (lines 152-156): follow each path segment by
property read and assert that the value read is truthy. -/
def walkRef (s : St) (specA : Addr) : List String → Addr → Except JsErr Addr
  | [], a => .ok a
  | p :: ps, a =>
    match propGet s a p with
    | none => .error .invalidReference
    | some b =>
      if truthyOptH (heapGet s b) then walkRef s specA ps b
      else .error .invalidReference

/-- Embeds resolveRef (lines 146-159): split the reference on slashes, require
the leading local-root marker, then walk the document by successive property
lookup, asserting every intermediate value truthy.  The returned address is an
alias into the document, not a copy.  The write-only string-keyed refCache of
line 157 has no observable effect and is not modelled. -/
def resolveRef (ref : String) (s : St) (specA : Addr) : Except JsErr Addr :=
  match splitSlash ref with
  | [] => .error .invalidReferenceFormat
  | p :: ps =>
    if p = "#" then walkRef s specA ps specA
    else .error .invalidReferenceFormat

/-- Outcome of the reference-field test on an object (line 132): no truthy
reference value, a truthy string reference, or a truthy non-string reference
(which ref.split would crash on). -/
inductive RefCheck where
  | noRef
  | refStr (ref : String)
  | refErr (e : JsErr)
deriving Repr, DecidableEq

/-- Test the reference field of an object node. -/
def refVal (s : St) (fs : List (String × Addr)) : RefCheck :=
  match alookup fs "$ref" with
  | none => .noRef
  | some r =>
    match heapGet s r with
    | none => .noRef
    | some v =>
      if truthyH v = false then .noRef
      else
        match v with
        | .str str => .refStr str
        | _ => .refErr .typeError

/-- Remove the first field with the given key (the delete of line 134). -/
def removeField : List (String × Addr) → String → List (String × Addr)
  | [], _ => []
  | f :: fs, key => if f.1 == key then fs else f :: removeField fs key

/-- JavaScript property assignment on object fields: overwrite in place when
the key exists, append otherwise. -/
def upsertA : List (String × Addr) → String → Addr → List (String × Addr)
  | [], key, v => [(key, v)]
  | f :: fs, key, v => if f.1 == key then (f.1, v) :: fs else f :: upsertA fs key v

/-- The field list Object.assign copies from a source value: an object gives
its fields, an array its indexed elements, a string its indexed characters
(freshly allocated), other primitives nothing. -/
def assignSrcFields (s : St) (t : Addr) : List (String × Addr) × St :=
  match heapGet s t with
  | some (.obj fs) => (fs, s)
  | some (.arr xs) => (xs.enum.map (fun e => (toString e.1, e.2)), s)
  | some (.str str) =>
    (str.data.enum).foldl (fun acc ic =>
      let bs := allocSt acc.2 (.str (String.mk [ic.2]))
      (acc.1 ++ [(toString ic.1, bs.1)], bs.2)) ([], s)
  | _ => ([], s)

/-- Fold a second field list over a first, as Object.assign does with a later
source: existing keys keep their position and take the later value, new keys
append. -/
def objAssign (base over : List (String × Addr)) : List (String × Addr) :=
  over.foldl (fun acc f => upsertA acc f.1 f.2) base

/-- One step of the for-in loop of lines 139-141, parameterised by the
recursive resolver for the field value: read the field (skipping a key no
longer present), resolve it, and write the result back in place. -/
def fieldStep (rec : Addr → St → Option (Except JsErr (Addr × St))) (a : Addr)
    (acc : Option (Except JsErr St)) (name : String) : Option (Except JsErr St) :=
  match acc with
  | none => none
  | some (.error e) => some (.error e)
  | some (.ok s) =>
    match heapGet s a with
    | some (.obj fs) =>
      match alookup fs name with
      | none => some (.ok s)
      | some child =>
        match rec child s with
        | none => none
        | some (.error e) => some (.error e)
        | some (.ok (c, s1)) =>
          match heapGet s1 a with
          | some (.obj fs1) => some (.ok (heapSet s1 a (.obj (upsertA fs1 name c))))
          | _ => some (.ok s1)
    | _ => some (.ok s)

/-- One step of the array map of line 130, parameterised by the recursive
resolver: resolve the element and append the result. -/
def elemStep (rec : Addr → St → Option (Except JsErr (Addr × St)))
    (acc : Option (Except JsErr (List Addr × St))) (x : Addr) :
    Option (Except JsErr (List Addr × St)) :=
  match acc with
  | none => none
  | some (.error e) => some (.error e)
  | some (.ok (ys, s)) =>
    match rec x s with
    | none => none
    | some (.error e) => some (.error e)
    | some (.ok (y, s1)) => some (.ok (ys ++ [y], s1))

/-- Embeds resolveRefs (lines 126-144) as a fuel-indexed heap transition.
A falsy or memoized node returns unchanged.  An array maps its elements into
a fresh array.  An object with a truthy string reference field resolves it,
deletes the reference field from the node, merges the resolved target's
fields under the node's remaining fields into a fresh object, memoizes the
merged node, and resolves its fields in place; an object without one is
memoized and has its fields resolved in place.  none means the fuel ran out;
an error is a thrown assertion. -/
def resolveRefs : Nat → Addr → Addr → St → Option (Except JsErr (Addr × St))
  | 0, _, _, _ => none
  | fuel+1, a, specA, s =>
    match heapGet s a with
    | none => some (.ok (a, s))
    | some v =>
      if truthyH v = false then some (.ok (a, s))
      else if s.cache.contains a then some (.ok (a, s))
      else
        match v with
        | .null => some (.ok (a, s))
        | .bool _ => some (.ok (a, s))
        | .num _ => some (.ok (a, s))
        | .str _ => some (.ok (a, s))
        | .arr xs =>
          match xs.foldl (elemStep (fun c st => resolveRefs fuel c specA st))
              (some (.ok ([], s))) with
          | none => none
          | some (.error e) => some (.error e)
          | some (.ok (ys, s1)) =>
            let bs := allocSt s1 (.arr ys)
            some (.ok (bs.1, bs.2))
        | .obj fs =>
          match refVal s fs with
          | .refErr e => some (.error e)
          | .refStr refStr =>
            match resolveRef refStr s specA with
            | .error e => some (.error e)
            | .ok target =>
              let s1 := heapSet s a (.obj (removeField fs "$ref"))
              let srcs := assignSrcFields s1 target
              let merged := objAssign srcs.1 (removeField fs "$ref")
              let ms := allocSt srcs.2 (.obj merged)
              let s2 := { ms.2 with cache := ms.1 :: ms.2.cache }
              match (merged.map (fun f => f.1)).foldl
                  (fieldStep (fun c st => resolveRefs fuel c specA st) ms.1)
                  (some (.ok s2)) with
              | none => none
              | some (.error e) => some (.error e)
              | some (.ok s3) => some (.ok (ms.1, s3))
          | .noRef =>
            let s1 : St := { s with cache := a :: s.cache }
            match (fs.map (fun f => f.1)).foldl
                (fieldStep (fun c st => resolveRefs fuel c specA st) a)
                (some (.ok s1)) with
            | none => none
            | some (.error e) => some (.error e)
            | some (.ok s2) => some (.ok (a, s2))

/-! Claims about resolveRef (C2 and C10). -/

/-- The walk of resolveRef as a partial function: the located address when
every property lookup succeeds and every value read is truthy. -/
def walkOk (s : St) : List String → Addr → Option Addr
  | [], a => some a
  | p :: ps, a =>
    match propGet s a p with
    | none => none
    | some b =>
      if truthyOptH (heapGet s b) then walkOk s ps b else none

theorem walkRef_eq_walkOk (s : St) (specA : Addr) (ps : List String) (a : Addr) :
    walkRef s specA ps a =
      (match walkOk s ps a with
       | some b => .ok b
       | none => .error .invalidReference) := by
  induction ps generalizing a with
  | nil => rfl
  | cons p ps ih =>
    simp only [walkRef, walkOk]
    cases propGet s a p with
    | none => rfl
    | some b =>
      by_cases ht : truthyOptH (heapGet s b) = true
      · simp only [ht, if_true]
        exact ih b
      · have ht' : truthyOptH (heapGet s b) = false := by
          cases h : truthyOptH (heapGet s b)
          · rfl
          · exact absurd h ht
        simp only [ht', Bool.false_eq_true, if_false]

theorem walkOk_append (s : St) (qs rs : List String) (a : Addr) :
    walkOk s (qs ++ rs) a =
      (match walkOk s qs a with
       | some c => walkOk s rs c
       | none => none) := by
  induction qs generalizing a with
  | nil => rfl
  | cons q qs ih =>
    simp only [List.cons_append, walkOk]
    cases propGet s a q with
    | none => rfl
    | some b =>
      by_cases ht : truthyOptH (heapGet s b) = true
      · simp only [ht, if_true]
        exact ih b
      · have ht' : truthyOptH (heapGet s b) = false := by
          cases h : truthyOptH (heapGet s b)
          · rfl
          · exact absurd h ht
        simp only [ht', Bool.false_eq_true, if_false]

/-- C2 counterexample: in a document whose field a holds false, the reference
path has every key present (no lookup is absent), yet resolveRef fails with
InvalidReference, because the assertion rejects any falsy value, not only
absent ones. -/
theorem resolveRef_falsy_counterexample :
    resolveRef "#/a"
        { heap := [(0, .obj [("a", 1)]), (1, .bool false)], cache := [], next := 2 } 0 =
      .error .invalidReference ∧
    propGet { heap := [(0, .obj [("a", 1)]), (1, .bool false)], cache := [], next := 2 }
        0 "a" = some 1 := by
  exact ⟨rfl, rfl⟩

theorem resolveRef_cons (ref : String) (s : St) (specA : Addr) (p : String)
    (ps : List String) (h : splitSlash ref = p :: ps) :
    resolveRef ref s specA =
      (if p = "#" then walkRef s specA ps specA
       else .error .invalidReferenceFormat) := by
  simp only [resolveRef, h]

/-- C2 amended: resolveRef fails with InvalidReferenceFormat exactly when the
first slash-separated segment is not the root marker; when the first segment
is the root marker, it fails with InvalidReference exactly when some
successive lookup from the document root yields an absent or falsy value, and
otherwise returns the located value. -/
theorem resolveRef_characterization (ref : String) (s : St) (specA : Addr) :
    (resolveRef ref s specA = .error .invalidReferenceFormat ↔
      (splitSlash ref).head? ≠ some "#") ∧
    (∀ ps, splitSlash ref = "#" :: ps →
      resolveRef ref s specA =
        (match walkOk s ps specA with
         | some b => .ok b
         | none => .error .invalidReference)) := by
  constructor
  · cases hsp : splitSlash ref with
    | nil => simp [resolveRef, hsp]
    | cons p ps =>
      by_cases hp : p = "#"
      · subst hp
        rw [resolveRef_cons ref s specA "#" ps hsp, if_pos rfl, walkRef_eq_walkOk]
        simp only [hsp, List.head?_cons, ne_eq, not_true_eq_false, iff_false]
        cases walkOk s ps specA with
        | none => simp
        | some b => simp
      · rw [resolveRef_cons ref s specA p ps hsp, if_neg hp]
        simp [hsp, hp]
  · intro ps hsp
    rw [resolveRef_cons ref s specA "#" ps hsp, if_pos rfl]
    exact walkRef_eq_walkOk s specA ps specA

/-- Witness for C2 amended: a reference without the root marker fails with
the format error; a dangling reference under the root marker fails with
InvalidReference; a healthy reference locates its target. -/
theorem resolveRef_characterization_witness :
    resolveRef "other/x"
        { heap := [(0, .obj [("a", 1)]), (1, .num 1)], cache := [], next := 2 } 0 =
      .error .invalidReferenceFormat ∧
    resolveRef "#/b"
        { heap := [(0, .obj [("a", 1)]), (1, .num 1)], cache := [], next := 2 } 0 =
      .error .invalidReference ∧
    resolveRef "#/a"
        { heap := [(0, .obj [("a", 1)]), (1, .num 1)], cache := [], next := 2 } 0 =
      .ok 1 := by
  refine ⟨?_, ?_, ?_⟩
  · exact (resolveRef_characterization "other/x"
      { heap := [(0, .obj [("a", 1)]), (1, .num 1)], cache := [], next := 2 } 0).1.mpr
      (by decide)
  · have h := (resolveRef_characterization "#/b"
      { heap := [(0, .obj [("a", 1)]), (1, .num 1)], cache := [], next := 2 } 0).2
      ["b"] (by decide)
    rw [h]
    rfl
  · have h := (resolveRef_characterization "#/a"
      { heap := [(0, .obj [("a", 1)]), (1, .num 1)], cache := [], next := 2 } 0).2
      ["a"] (by decide)
    rw [h]
    rfl

theorem walkOk_truthy (s : St) (qs : List String) (a c : Addr)
    (h : walkOk s qs a = some c) (hne : qs ≠ []) :
    truthyOptH (heapGet s c) = true := by
  induction qs generalizing a with
  | nil => cases hne rfl
  | cons q qs ih =>
    simp only [walkOk] at h
    cases hp : propGet s a q with
    | none =>
      simp only [hp] at h
      exact Option.noConfusion h
    | some b =>
      simp only [hp] at h
      by_cases ht : truthyOptH (heapGet s b) = true
      · simp only [ht, if_true] at h
        cases qs with
        | nil =>
          simp only [walkOk, Option.some.injEq] at h
          subst h
          exact ht
        | cons q' qs' => exact ih b h (by simp)
      · have ht' : truthyOptH (heapGet s b) = false := by
          cases hx : truthyOptH (heapGet s b)
          · rfl
          · exact absurd hx ht
        simp only [ht', Bool.false_eq_true, if_false] at h
        exact Option.noConfusion h

/-- C10: resolveRef raises InvalidReference whenever a traversed value is
falsy even if the property exists (first part), and when it succeeds, every
value reached along the walk is truthy (second part). -/
theorem resolveRef_requires_truthy (ref : String) (s : St) (specA : Addr)
    (ps : List String) (hsp : splitSlash ref = "#" :: ps) :
    (∀ qs p rest c b, ps = qs ++ p :: rest →
      walkOk s qs specA = some c →
      propGet s c p = some b →
      truthyOptH (heapGet s b) = false →
      resolveRef ref s specA = .error .invalidReference) ∧
    (∀ b, resolveRef ref s specA = .ok b →
      ∀ qs rest, ps = qs ++ rest →
        ∃ c, walkOk s qs specA = some c ∧
          (qs ≠ [] → truthyOptH (heapGet s c) = true)) := by
  have hres : resolveRef ref s specA =
      (match walkOk s ps specA with
       | some b => .ok b
       | none => .error .invalidReference) := by
    simp only [resolveRef, hsp, if_true]
    exact walkRef_eq_walkOk s specA ps specA
  constructor
  · intro qs p rest c b hps hwalk hprop hfalsy
    rw [hres, hps, walkOk_append]
    rw [hwalk]
    simp only [walkOk, hprop, hfalsy, Bool.false_eq_true, if_false]
  · intro b hok qs rest hps
    rw [hres] at hok
    cases hw : walkOk s ps specA with
    | none => rw [hw] at hok; cases hok
    | some b' =>
      rw [hps, walkOk_append] at hw
      cases hq : walkOk s qs specA with
      | none => rw [hq] at hw; cases hw
      | some c =>
        exact ⟨c, rfl, fun hne => walkOk_truthy s qs specA c hq hne⟩

/-- Witness for C10: a present but falsy value (false) along the walk makes
resolveRef fail, applying the theorem at a concrete document. -/
theorem resolveRef_requires_truthy_witness :
    resolveRef "#/flags/off"
        { heap := [(0, .obj [("flags", 1)]), (1, .obj [("off", 2)]), (2, .bool false)]
        , cache := [], next := 3 } 0 = .error .invalidReference :=
  (resolveRef_requires_truthy "#/flags/off"
      { heap := [(0, .obj [("flags", 1)]), (1, .obj [("off", 2)]), (2, .bool false)]
      , cache := [], next := 3 } 0 ["flags", "off"] (by decide)).1
    ["flags"] "off" [] 1 2 rfl rfl rfl rfl

/-! C1: the merge performed on a node carrying a reference field. -/

/-- The mutually-referential document of the C1 counterexample: definitions.A
is a node referencing definitions.B, and definitions.B references
definitions.A and declares a field a. -/
def c1St : St :=
  { heap := [ (0, .obj [("definitions", 1)])
            , (1, .obj [("A", 2), ("B", 4)])
            , (2, .obj [("$ref", 3)])
            , (3, .str "#/definitions/B")
            , (4, .obj [("$ref", 5), ("a", 6)])
            , (5, .str "#/definitions/A")
            , (6, .num 1) ]
  , cache := []
  , next := 7 }

/-- C1 counterexample: resolving the node definitions.A, whose reference
target definitions.B itself carries a reference field, produces a merged
node that still carries the reference field, contradicting the claim that
the merged node carries no reference field. -/
theorem resolveRefs_merged_keeps_ref_counterexample :
    (match resolveRefs 10 2 0 c1St with
     | some (.ok (a, s)) => some (a, s.heap, s.cache, s.next)
     | _ => none) =
      some (7,
        [ ((0 : Addr), HVal.obj [("definitions", 1)])
        , (1, .obj [("A", 2), ("B", 4)])
        , (2, .obj [])
        , (3, .str "#/definitions/B")
        , (4, .obj [("$ref", 5), ("a", 6)])
        , (5, .str "#/definitions/A")
        , (6, .num 1)
        , (7, .obj [("$ref", 5), ("a", 6)]) ],
        [7], 8) ∧
    (alookup [(("$ref" : String), (5 : Addr)), ("a", 6)] "$ref" = some 5) := by
  exact ⟨by decide, rfl⟩

/-!
Invariants of the machine.

WfSt is well-formedness of a state: heap addresses are distinct and below
the allocation counter, every address stored in a cell or memoized is below
the counter, and array cells only point at strictly smaller addresses.  A
heap built from a parsed document tree satisfies all of it (children are
allocated before their parents), and the machine preserves it: the resolver
mutates only object cells and always allocates fresh arrays, so no array
cycle can ever arise, while object cycles (the self- and mutual references
the claims are about) are unrestricted.

mU counts unmemoized object cells, mR unmemoized object cells carrying a
reference field; the pair never increases along a run and strictly
decreases whenever an object is processed, which is what bounds the
recursion.

Evolve s t records how a run transforms the state: the counter and memo
set grow, memoized cells are frozen, array and scalar cells are immutable,
object cells stay objects, absent cells stay absent, and the measure pair
does not increase.  EvolveAt w is the same except that the cell w itself
may be rewritten (the for-in loop writes resolved fields back into the node
it iterates over after memoizing it).
-/

/-- Scalar heap values (everything except arrays and objects). -/
def scalarH : HVal → Bool
  | .arr _ => false
  | .obj _ => false
  | _ => true

/-- The addresses stored in a heap value. -/
def addrsOf : HVal → List Addr
  | .arr xs => xs
  | .obj fs => fs.map (fun f => f.2)
  | _ => []

/-- Well-formed machine states. -/
structure WfSt (s : St) : Prop where
  nodupKeys : (s.heap.map (fun e => e.1)).Nodup
  closedKey : ∀ e ∈ s.heap, e.1 < s.next
  closedVal : ∀ e ∈ s.heap, ∀ b ∈ addrsOf e.2, b < s.next
  cacheClosed : ∀ x, s.cache.contains x = true → x < s.next
  arrDown : ∀ e ∈ s.heap, ∀ xs, e.2 = HVal.arr xs → ∀ y ∈ xs, y < e.1

/-- An unmemoized object cell. -/
def isUncachedObj (s : St) (e : Addr × HVal) : Bool :=
  (match e.2 with | .obj _ => true | _ => false) && !(s.cache.contains e.1)

/-- An unmemoized object cell carrying a reference field. -/
def isUncachedRefObj (s : St) (e : Addr × HVal) : Bool :=
  (match e.2 with | .obj fs => (alookup fs "$ref").isSome | _ => false)
    && !(s.cache.contains e.1)

/-- Number of unmemoized object cells. -/
def mU (s : St) : Nat := (s.heap.filter (isUncachedObj s)).length

/-- Number of unmemoized object cells with a reference field. -/
def mR (s : St) : Nat := (s.heap.filter (isUncachedRefObj s)).length

/-- Number of reference fields in a field list (duplicates included). -/
def refCount (fs : List (String × Addr)) : Nat :=
  (fs.filter (fun f => f.1 == "$ref")).length

/-- Weight of a heap cell towards the termination measure: an unmemoized
object cell counts one plus its number of reference fields. -/
def cellW (s : St) (e : Addr × HVal) : Nat :=
  match e.2 with
  | .obj fs => if s.cache.contains e.1 then 0 else 1 + refCount fs
  | _ => 0

/-- The termination measure: the total weight of unmemoized object cells.
Memoizing an object cell and deleting a reference field each strictly
decrease it, and no resolver step increases it. -/
def mW (s : St) : Nat := (s.heap.map (cellW s)).sum

/-- How one resolver run may transform the state. -/
structure Evolve (s t : St) : Prop where
  next_le : s.next ≤ t.next
  cache_sub : ∀ x, s.cache.contains x = true → t.cache.contains x = true
  frozen : ∀ x, s.cache.contains x = true → heapGet t x = heapGet s x
  keep_arr : ∀ x xs, heapGet s x = some (.arr xs) → heapGet t x = some (.arr xs)
  keep_obj : ∀ x fs, heapGet s x = some (.obj fs) → ∃ fs2, heapGet t x = some (.obj fs2)
  keep_scalar : ∀ x v, heapGet s x = some v → scalarH v = true → heapGet t x = some v
  keep_none : ∀ x, x < s.next → heapGet s x = none → heapGet t x = none
  u_le : mU t ≤ mU s
  r_le : mR t ≤ mR s
  w_le : mW t ≤ mW s

/-- Like Evolve, except that the cell w may additionally be rewritten (it
stays an object if it was one). -/
structure EvolveAt (w : Addr) (s t : St) : Prop where
  next_le : s.next ≤ t.next
  cache_sub : ∀ x, s.cache.contains x = true → t.cache.contains x = true
  frozen : ∀ x, x ≠ w → s.cache.contains x = true → heapGet t x = heapGet s x
  keep_arr : ∀ x xs, x ≠ w → heapGet s x = some (.arr xs) → heapGet t x = some (.arr xs)
  keep_obj : ∀ x fs, heapGet s x = some (.obj fs) → ∃ fs2, heapGet t x = some (.obj fs2)
  keep_scalar : ∀ x v, x ≠ w → heapGet s x = some v → scalarH v = true →
    heapGet t x = some v
  keep_none : ∀ x, x ≠ w → x < s.next → heapGet s x = none → heapGet t x = none
  u_le : mU t ≤ mU s
  r_le : mR t ≤ mR s
  w_le : mW t ≤ mW s

theorem Evolve.refl (s : St) : Evolve s s :=
  ⟨le_refl _, fun _ h => h, fun _ _ => rfl, fun _ _ h => h, fun _ fs h => ⟨fs, h⟩,
   fun _ _ h _ => h, fun _ _ h => h, le_refl _, le_refl _, le_refl _⟩

theorem Evolve.trans {s t u : St} (h1 : Evolve s t) (h2 : Evolve t u) : Evolve s u := by
  refine ⟨le_trans h1.next_le h2.next_le,
    fun x hx => h2.cache_sub x (h1.cache_sub x hx),
    fun x hx => (h2.frozen x (h1.cache_sub x hx)).trans (h1.frozen x hx),
    fun x xs hx => h2.keep_arr x xs (h1.keep_arr x xs hx),
    fun x fs hx => ?_,
    fun x v hx hv => h2.keep_scalar x v (h1.keep_scalar x v hx hv) hv,
    fun x hx hn => h2.keep_none x (lt_of_lt_of_le hx h1.next_le) (h1.keep_none x hx hn),
    le_trans h2.u_le h1.u_le,
    le_trans h2.r_le h1.r_le,
    le_trans h2.w_le h1.w_le⟩
  obtain ⟨fs2, h2'⟩ := h1.keep_obj x fs hx
  exact h2.keep_obj x fs2 h2'

theorem Evolve.toAt {s t : St} (w : Addr) (h : Evolve s t) : EvolveAt w s t :=
  ⟨h.next_le, h.cache_sub, fun x _ => h.frozen x, fun x xs _ => h.keep_arr x xs,
   h.keep_obj, fun x v _ => h.keep_scalar x v, fun x _ => h.keep_none x,
   h.u_le, h.r_le, h.w_le⟩

theorem EvolveAt.transAt {w : Addr} {s t u : St} (h1 : EvolveAt w s t)
    (h2 : EvolveAt w t u) : EvolveAt w s u := by
  refine ⟨le_trans h1.next_le h2.next_le,
    fun x hx => h2.cache_sub x (h1.cache_sub x hx),
    fun x hw hx => (h2.frozen x hw (h1.cache_sub x hx)).trans (h1.frozen x hw hx),
    fun x xs hw hx => h2.keep_arr x xs hw (h1.keep_arr x xs hw hx),
    fun x fs hx => ?_,
    fun x v hw hx hv => h2.keep_scalar x v hw (h1.keep_scalar x v hw hx hv) hv,
    fun x hw hx hn =>
      h2.keep_none x hw (lt_of_lt_of_le hx h1.next_le) (h1.keep_none x hw hx hn),
    le_trans h2.u_le h1.u_le,
    le_trans h2.r_le h1.r_le,
    le_trans h2.w_le h1.w_le⟩
  obtain ⟨fs2, h2'⟩ := h1.keep_obj x fs hx
  exact h2.keep_obj x fs2 h2'

/-- An EvolveAt whose written cell started as an unmemoized object and is
still an object is a full Evolve. -/
theorem EvolveAt.toEvolve {w : Addr} {s t : St} (h : EvolveAt w s t)
    (hw : s.cache.contains w = false)
    (hobj : ∃ fs, heapGet s w = some (.obj fs)) : Evolve s t := by
  obtain ⟨fs0, hfs0⟩ := hobj
  refine ⟨h.next_le, h.cache_sub, fun x hx => ?_, fun x xs hx => ?_, h.keep_obj,
    fun x v hx hv => ?_, fun x hx hn => ?_, h.u_le, h.r_le, h.w_le⟩
  · refine h.frozen x (fun he => ?_) hx
    subst he
    rw [hx] at hw
    cases hw
  · refine h.keep_arr x xs (fun he => ?_) hx
    subst he
    rw [hfs0] at hx
    cases hx
  · refine h.keep_scalar x v (fun he => ?_) hx hv
    subst he
    rw [hfs0] at hx
    cases hx
    cases hv
  · refine h.keep_none x (fun he => ?_) hx hn
    subst he
    rw [hfs0] at hn
    cases hn

/-! Primitive lemmas about heap lookup, update and allocation. -/

theorem hfind_mem {l : List (Addr × HVal)} {a : Addr} {v : HVal}
    (h : hfind l a = some v) : (a, v) ∈ l := by
  induction l with
  | nil => cases h
  | cons e l ih =>
    simp only [hfind] at h
    by_cases he : e.1 = a
    · simp only [he, beq_self_eq_true, if_true, Option.some.injEq] at h
      subst h
      rw [← he]
      exact List.mem_cons_self e l
    · have hb : (e.1 == a) = false := by simp [he]
      rw [hb] at h
      simp only [Bool.false_eq_true, if_false] at h
      exact List.mem_cons_of_mem e (ih h)

theorem hfind_none_of_not_mem {l : List (Addr × HVal)} {a : Addr}
    (h : a ∉ l.map (fun e => e.1)) : hfind l a = none := by
  induction l with
  | nil => rfl
  | cons e l ih =>
    simp only [List.map_cons, List.mem_cons, not_or] at h
    have hb : (e.1 == a) = false := by
      simp only [beq_eq_false_iff_ne, ne_eq]
      exact fun hc => h.1 hc.symm
    simp only [hfind, hb, Bool.false_eq_true, if_false]
    exact ih h.2

theorem hfind_append (l l' : List (Addr × HVal)) (a : Addr) :
    hfind (l ++ l') a =
      (match hfind l a with
       | some v => some v
       | none => hfind l' a) := by
  induction l with
  | nil => rfl
  | cons e l ih =>
    simp only [List.cons_append, hfind]
    by_cases he : (e.1 == a) = true
    · simp [he]
    · have hb : (e.1 == a) = false := by
        cases hx : (e.1 == a)
        · rfl
        · exact absurd hx he
      simp only [hb, Bool.false_eq_true, if_false]
      exact ih

theorem hfind_hset_self (l : List (Addr × HVal)) (a : Addr) (v : HVal) :
    hfind (hset l a v) a = some v := by
  induction l with
  | nil => simp [hset, hfind]
  | cons e l ih =>
    by_cases he : e.1 = a
    · simp [hset, hfind, he]
    · have hb : (e.1 == a) = false := by simp [he]
      simp only [hset, hb, Bool.false_eq_true, if_false, hfind]
      exact ih

theorem hfind_hset_other (l : List (Addr × HVal)) (a b : Addr) (v : HVal)
    (h : b ≠ a) : hfind (hset l a v) b = hfind l b := by
  induction l with
  | nil =>
    have hb : (a == b) = false := by
      simp only [beq_eq_false_iff_ne, ne_eq]
      exact fun hc => h hc.symm
    simp [hset, hfind, hb]
  | cons e l ih =>
    by_cases he : e.1 = a
    · subst he
      have hb : (e.1 == b) = false := by
        simp only [beq_eq_false_iff_ne, ne_eq]
        exact fun hc => h hc.symm
      simp [hset, hfind, hb]
    · have hb : (e.1 == a) = false := by simp [he]
      simp only [hset, hb, Bool.false_eq_true, if_false, hfind]
      by_cases heb : (e.1 == b) = true
      · simp [heb]
      · have hb2 : (e.1 == b) = false := by
          cases hx : (e.1 == b)
          · rfl
          · exact absurd hx heb
        simp only [hb2, Bool.false_eq_true, if_false]
        exact ih

theorem keys_hset_of_mem (l : List (Addr × HVal)) (a : Addr) (v : HVal)
    (h : a ∈ l.map (fun e => e.1)) :
    (hset l a v).map (fun e => e.1) = l.map (fun e => e.1) := by
  induction l with
  | nil => cases h
  | cons e l ih =>
    by_cases he : e.1 = a
    · subst he
      simp [hset]
    · have hb : (e.1 == a) = false := by simp [he]
      simp only [hset, hb, Bool.false_eq_true, if_false, List.map_cons]
      simp only [List.map_cons, List.mem_cons] at h
      rcases h with h | h
    -- h : a = e.1 contradicts he
      · exact absurd h.symm he
      · rw [ih h]

theorem heapGet_heapSet_self (s : St) (a : Addr) (v : HVal) :
    heapGet (heapSet s a v) a = some v :=
  hfind_hset_self s.heap a v

theorem heapGet_heapSet_other (s : St) (a b : Addr) (v : HVal) (h : b ≠ a) :
    heapGet (heapSet s a v) b = heapGet s b :=
  hfind_hset_other s.heap a b v h

theorem heapGet_alloc_of_some (s : St) (v w : HVal) (x : Addr)
    (h : heapGet s x = some w) : heapGet (allocSt s v).2 x = some w := by
  simp only [heapGet, allocSt] at *
  rw [hfind_append, h]

theorem heapGet_alloc_of_none_ne (s : St) (v : HVal) (x : Addr)
    (h : heapGet s x = none) (hx : x ≠ s.next) :
    heapGet (allocSt s v).2 x = none := by
  simp only [heapGet, allocSt] at *
  rw [hfind_append, h]
  have hb : (s.next == x) = false := by
    simp only [beq_eq_false_iff_ne, ne_eq]
    exact fun hc => hx hc.symm
  simp [hfind, hb]

theorem heapGet_next_none {s : St} (hw : WfSt s) : heapGet s s.next = none := by
  cases h : heapGet s s.next with
  | none => rfl
  | some w =>
    have hm := hfind_mem h
    have := hw.closedKey _ hm
    simp at this

theorem heapGet_alloc_self {s : St} (hw : WfSt s) (v : HVal) :
    heapGet (allocSt s v).2 (allocSt s v).1 = some v := by
  have hn := heapGet_next_none hw
  simp only [heapGet] at hn
  simp only [heapGet, allocSt]
  rw [hfind_append, hn]
  simp [hfind]

theorem contains_cons_iff (c : List Addr) (a x : Addr) :
    ((a :: c).contains x = true) ↔ (x = a ∨ c.contains x = true) := by
  simp [List.contains_cons]

/-! Counting lemmas for the measures. -/

theorem length_filter_le_of_imp {α : Type} (l : List α) (p q : α → Bool)
    (h : ∀ e ∈ l, q e = true → p e = true) :
    (l.filter q).length ≤ (l.filter p).length := by
  induction l with
  | nil => exact le_refl _
  | cons e l ih =>
    have ih' := ih (fun x hx => h x (List.mem_cons_of_mem e hx))
    simp only [List.filter_cons]
    cases hq : q e with
    | true =>
      rw [h e (List.mem_cons_self e l) hq]
      simpa using Nat.succ_le_succ ih'
    | false =>
      cases hp : p e with
      | true => simpa using Nat.le_succ_of_le ih'
      | false => simpa using ih'

theorem length_filter_hset_le (l : List (Addr × HVal)) (a : Addr) (v' : HVal)
    (p : Addr × HVal → Bool) (hmem : a ∈ l.map (fun e => e.1))
    (himp : p (a, v') = true → ∀ w, hfind l a = some w → p (a, w) = true) :
    ((hset l a v').filter p).length ≤ (l.filter p).length := by
  induction l with
  | nil => cases hmem
  | cons e l ih =>
    by_cases he : e.1 = a
    · subst he
      have hfw : hfind (e :: l) e.1 = some e.2 := by simp [hfind]
      simp only [hset, beq_self_eq_true, if_true, List.filter_cons]
      cases hq : p (e.1, v') with
      | true =>
        have hpe : p e = true := himp hq e.2 hfw
        simp only [hq, hpe, if_true, List.length_cons]
        exact le_refl _
      | false =>
        simp only [hq, Bool.false_eq_true, if_false]
        cases hp : p e with
        | true =>
          simp only [if_true, List.length_cons]
          exact Nat.le_succ _
        | false =>
          simp only [Bool.false_eq_true, if_false]
          exact le_refl _
    · have hb : (e.1 == a) = false := by simp [he]
      simp only [List.map_cons, List.mem_cons] at hmem
      rcases hmem with hmem | hmem
      · exact absurd hmem.symm he
      · have himp' : p (a, v') = true → ∀ w, hfind l a = some w → p (a, w) = true := by
          intro hq w hw
          refine himp hq w ?_
          simp only [hfind, hb, Bool.false_eq_true, if_false]
          exact hw
        have ih' := ih hmem himp'
        simp only [hset, hb, Bool.false_eq_true, if_false, List.filter_cons]
        cases hp : p e with
        | true => simpa using Nat.succ_le_succ ih'
        | false => simpa using ih'

theorem length_filter_hset_lt (l : List (Addr × HVal)) (a : Addr) (v' w : HVal)
    (p : Addr × HVal → Bool) (hnd : (l.map (fun e => e.1)).Nodup)
    (hfw : hfind l a = some w) (hpw : p (a, w) = true) (hpv : p (a, v') = false) :
    ((hset l a v').filter p).length < (l.filter p).length := by
  induction l with
  | nil => cases hfw
  | cons e l ih =>
    rw [List.map_cons] at hnd
    rcases List.nodup_cons.1 hnd with ⟨hna, hndl⟩
    by_cases he : e.1 = a
    · subst he
      simp only [hfind, beq_self_eq_true, if_true, Option.some.injEq] at hfw
      have hpe : p e = true := by
        rw [← hfw] at hpw
        exact hpw
      simp only [hset, beq_self_eq_true, if_true, List.filter_cons, hpv, hpe,
        Bool.false_eq_true, if_false, if_true, List.length_cons]
      exact Nat.lt_succ_of_le (le_refl _)
    · have hb : (e.1 == a) = false := by simp [he]
      simp only [hfind, hb, Bool.false_eq_true, if_false] at hfw
      have ih' := ih hndl hfw
      simp only [hset, hb, Bool.false_eq_true, if_false, List.filter_cons]
      cases hp : p e with
      | true =>
        simp only [hp, if_true, List.length_cons]
        exact Nat.succ_lt_succ ih'
      | false =>
        simp only [hp, Bool.false_eq_true, if_false]
        exact ih'

theorem sum_map_hset_le (l : List (Addr × HVal)) (a : Addr) (v' : HVal)
    (f : Addr × HVal → Nat) (hmem : a ∈ l.map (fun e => e.1))
    (himp : ∀ w, hfind l a = some w → f (a, v') ≤ f (a, w)) :
    ((hset l a v').map f).sum ≤ (l.map f).sum := by
  induction l with
  | nil => cases hmem
  | cons e l ih =>
    by_cases he : e.1 = a
    · subst he
      have hfw : hfind (e :: l) e.1 = some e.2 := by simp [hfind]
      simp only [hset, beq_self_eq_true, if_true, List.map_cons, List.sum_cons]
      exact Nat.add_le_add_right (himp e.2 hfw) _
    · have hb : (e.1 == a) = false := by simp [he]
      simp only [List.map_cons, List.mem_cons] at hmem
      rcases hmem with hmem | hmem
      · exact absurd hmem.symm he
      · have himp2 : ∀ w, hfind l a = some w → f (a, v') ≤ f (a, w) := by
          intro w hw
          refine himp w ?_
          simp only [hfind, hb, Bool.false_eq_true, if_false]
          exact hw
        simp only [hset, hb, Bool.false_eq_true, if_false, List.map_cons,
          List.sum_cons]
        exact Nat.add_le_add_left (ih hmem himp2) _

theorem sum_map_hset_lt (l : List (Addr × HVal)) (a : Addr) (v' w : HVal)
    (f : Addr × HVal → Nat) (hfw : hfind l a = some w)
    (hlt : f (a, v') < f (a, w)) :
    ((hset l a v').map f).sum < (l.map f).sum := by
  induction l with
  | nil => cases hfw
  | cons e l ih =>
    by_cases he : e.1 = a
    · subst he
      simp only [hfind, beq_self_eq_true, if_true, Option.some.injEq] at hfw
      simp only [hset, beq_self_eq_true, if_true, List.map_cons, List.sum_cons]
      refine Nat.add_lt_add_right ?_ _
      rw [← hfw] at hlt
      exact hlt
    · have hb : (e.1 == a) = false := by simp [he]
      simp only [hfind, hb, Bool.false_eq_true, if_false] at hfw
      simp only [hset, hb, Bool.false_eq_true, if_false, List.map_cons,
        List.sum_cons]
      exact Nat.add_lt_add_left (ih hfw) _

/-- A cell weighs no more after the memo set grows. -/
theorem cellW_cache_sub {s t : St}
    (hsub : ∀ x, s.cache.contains x = true → t.cache.contains x = true)
    (e : Addr × HVal) : cellW t e ≤ cellW s e := by
  obtain ⟨y, v⟩ := e
  cases v with
  | obj fs =>
    simp only [cellW]
    by_cases hc : s.cache.contains y = true
    · rw [if_pos hc, if_pos (hsub y hc)]
    · rw [if_neg hc]
      by_cases hc2 : t.cache.contains y = true
      · rw [if_pos hc2]
        exact Nat.zero_le _
      · rw [if_neg hc2]
  | null => exact le_refl _
  | bool b => exact le_refl _
  | num n => exact le_refl _
  | str t2 => exact le_refl _
  | arr xs => exact le_refl _

theorem mW_cachePush_le (s : St) (x : Addr) :
    mW { s with cache := x :: s.cache } ≤ mW s := by
  refine List.sum_le_sum (fun e _ => ?_)
  refine cellW_cache_sub (fun y hy => ?_) e
  exact (contains_cons_iff _ _ _).2 (Or.inr hy)

/-- Memoizing an unmemoized object cell strictly shrinks the measure. -/
theorem mW_cachePush_lt {s : St} {a : Addr} {fs : List (String × Addr)}
    (hg : heapGet s a = some (.obj fs)) (hnc : s.cache.contains a = false) :
    mW { s with cache := a :: s.cache } < mW s := by
  refine List.sum_lt_sum _ _ (fun e _ => ?_) ⟨(a, .obj fs), hfind_mem hg, ?_⟩
  · refine cellW_cache_sub (fun y hy => (contains_cons_iff _ _ _).2 (Or.inr hy)) e
  · show cellW { s with cache := a :: s.cache } (a, .obj fs) < cellW s (a, .obj fs)
    simp only [cellW]
    rw [if_pos ((contains_cons_iff _ _ _).2 (Or.inl rfl))]
    rw [if_neg (fun hcc => by rw [hnc] at hcc; cases hcc)]
    omega

theorem mW_heapSet_le {s : St} {a : Addr} {fs fs' : List (String × Addr)}
    (hget : heapGet s a = some (.obj fs)) (hrc : refCount fs' ≤ refCount fs) :
    mW (heapSet s a (.obj fs')) ≤ mW s := by
  have hmem : a ∈ s.heap.map (fun e => e.1) :=
    List.mem_map.2 ⟨(a, HVal.obj fs), hfind_mem hget, rfl⟩
  have heq : cellW (heapSet s a (.obj fs')) = cellW s := by
    funext e
    rfl
  show ((hset s.heap a (.obj fs')).map (cellW (heapSet s a (.obj fs')))).sum ≤ mW s
  rw [heq]
  refine sum_map_hset_le s.heap a (.obj fs') (cellW s) hmem ?_
  intro w hw
  have hget2 : hfind s.heap a = some (HVal.obj fs) := hget
  rw [hget2] at hw
  cases hw
  simp only [cellW]
  by_cases hc : s.cache.contains a = true
  · rw [if_pos hc]
    exact Nat.zero_le _
  · rw [if_neg hc, if_neg hc]
    exact Nat.add_le_add_left hrc _

theorem mW_heapSet_cached_le {s : St} {a : Addr} {fs fs' : List (String × Addr)}
    (hget : heapGet s a = some (.obj fs)) (hc : s.cache.contains a = true) :
    mW (heapSet s a (.obj fs')) ≤ mW s := by
  have hmem : a ∈ s.heap.map (fun e => e.1) :=
    List.mem_map.2 ⟨(a, HVal.obj fs), hfind_mem hget, rfl⟩
  have heq : cellW (heapSet s a (.obj fs')) = cellW s := by
    funext e
    rfl
  show ((hset s.heap a (.obj fs')).map (cellW (heapSet s a (.obj fs')))).sum ≤ mW s
  rw [heq]
  refine sum_map_hset_le s.heap a (.obj fs') (cellW s) hmem ?_
  intro w hw
  show cellW s (a, .obj fs') ≤ cellW s (a, w)
  have h0 : cellW s (a, .obj fs') = 0 := by
    simp only [cellW]
    rw [if_pos hc]
  rw [h0]
  exact Nat.zero_le _

theorem refCount_removeField_le (fs : List (String × Addr)) (k : String) :
    refCount (removeField fs k) ≤ refCount fs := by
  induction fs with
  | nil => exact le_refl _
  | cons f fs ih =>
    simp only [removeField]
    by_cases hk : (f.1 == k) = true
    · rw [if_pos hk]
      simp only [refCount, List.filter_cons]
      by_cases hr : (f.1 == "$ref") = true
      · rw [if_pos hr]
        exact Nat.le_succ _
      · rw [if_neg hr]
    · rw [if_neg hk]
      simp only [refCount, List.filter_cons]
      by_cases hr : (f.1 == "$ref") = true
      · rw [if_pos hr, if_pos hr]
        exact Nat.succ_le_succ ih
      · rw [if_neg hr, if_neg hr]
        exact ih

/-- Deleting a present reference field strictly shrinks the reference count. -/
theorem refCount_removeField_lt (fs : List (String × Addr))
    (h : (alookup fs "$ref").isSome = true) :
    refCount (removeField fs "$ref") < refCount fs := by
  induction fs with
  | nil => cases h
  | cons f fs ih =>
    by_cases hk : (f.1 == "$ref") = true
    · simp only [removeField, hk, if_true, refCount, List.filter_cons, hk]
      exact Nat.lt_succ_of_le (le_refl _)
    · have h2 : (alookup fs "$ref").isSome = true := by
        simp only [alookup, hk, Bool.false_eq_true, if_false] at h
        exact h
      simp only [removeField, hk, Bool.false_eq_true, if_false, refCount,
        List.filter_cons, hk]
      exact ih h2

/-- Deleting the reference field of an unmemoized object cell strictly
shrinks the measure. -/
theorem mW_heapSet_refDelete_lt {s : St} {a : Addr} {fs : List (String × Addr)}
    (hg : heapGet s a = some (.obj fs)) (hnc : s.cache.contains a = false)
    (href : (alookup fs "$ref").isSome = true) :
    mW (heapSet s a (.obj (removeField fs "$ref"))) < mW s := by
  have heq : cellW (heapSet s a (.obj (removeField fs "$ref"))) = cellW s := by
    funext e
    rfl
  show ((hset s.heap a (.obj (removeField fs "$ref"))).map
    (cellW (heapSet s a (.obj (removeField fs "$ref"))))).sum < mW s
  rw [heq]
  refine sum_map_hset_lt s.heap a (.obj (removeField fs "$ref")) (.obj fs)
    (cellW s) hg ?_
  simp only [cellW]
  rw [if_neg (fun hcc => by rw [hnc] at hcc; cases hcc)]
  rw [if_neg (fun hcc => by rw [hnc] at hcc; cases hcc)]
  exact Nat.add_lt_add_left (refCount_removeField_lt fs href) _

theorem mW_alloc_le (s : St) (v : HVal) (hv : cellW s (s.next, v) = 0) :
    mW (allocSt s v).2 ≤ mW s := by
  have heq : cellW (allocSt s v).2 = cellW s := by
    funext e
    rfl
  show ((s.heap ++ [(s.next, v)]).map (cellW (allocSt s v).2)).sum ≤ mW s
  rw [heq, List.map_append, List.sum_append]
  simp only [List.map_cons, List.map_nil, List.sum_cons, List.sum_nil, hv]
  exact le_refl _

/-! Field-list lemmas. -/

theorem alookup_isSome_iff {α : Type} (fs : List (String × α)) (k : String) :
    (alookup fs k).isSome = true ↔ k ∈ fs.map (fun f => f.1) := by
  induction fs with
  | nil => simp [alookup]
  | cons f fs ih =>
    by_cases h : f.1 = k
    · subst h
      simp [alookup]
    · have hb : (f.1 == k) = false := by simp [h]
      simp only [alookup, hb, Bool.false_eq_true, if_false, List.map_cons,
        List.mem_cons, ih]
      constructor
      · exact Or.inr
      · rintro (rfl | hk)
        · exact absurd rfl h
        · exact hk

theorem alookup_mem_values {α : Type} (fs : List (String × α)) (k : String) (v : α)
    (h : alookup fs k = some v) : v ∈ fs.map (fun f => f.2) := by
  induction fs with
  | nil => cases h
  | cons f fs ih =>
    simp only [alookup] at h
    by_cases hf : (f.1 == k) = true
    · rw [hf, if_pos rfl] at h
      cases h
      simp
    · have hb : (f.1 == k) = false := by
        cases hx : (f.1 == k)
        · rfl
        · exact absurd hx hf
      rw [hb] at h
      simp only [Bool.false_eq_true, if_false] at h
      simp only [List.map_cons, List.mem_cons]
      exact Or.inr (ih h)

theorem mem_keys_removeField (fs : List (String × Addr)) (k x : String)
    (h : x ∈ (removeField fs k).map (fun f => f.1)) :
    x ∈ fs.map (fun f => f.1) := by
  induction fs with
  | nil => simpa [removeField] using h
  | cons f fs ih =>
    simp only [removeField] at h
    by_cases hf : (f.1 == k) = true
    · rw [hf, if_pos rfl] at h
      simp only [List.map_cons, List.mem_cons]
      exact Or.inr h
    · have hb : (f.1 == k) = false := by
        cases hx : (f.1 == k)
        · rfl
        · exact absurd hx hf
      rw [hb] at h
      simp only [Bool.false_eq_true, if_false, List.map_cons, List.mem_cons] at h ⊢
      rcases h with h | h
      · exact Or.inl h
      · exact Or.inr (ih h)

theorem mem_values_removeField (fs : List (String × Addr)) (k : String) (b : Addr)
    (h : b ∈ (removeField fs k).map (fun f => f.2)) :
    b ∈ fs.map (fun f => f.2) := by
  induction fs with
  | nil => simpa [removeField] using h
  | cons f fs ih =>
    simp only [removeField] at h
    by_cases hf : (f.1 == k) = true
    · rw [hf, if_pos rfl] at h
      simp only [List.map_cons, List.mem_cons]
      exact Or.inr h
    · have hb : (f.1 == k) = false := by
        cases hx : (f.1 == k)
        · rfl
        · exact absurd hx hf
      rw [hb] at h
      simp only [Bool.false_eq_true, if_false, List.map_cons, List.mem_cons] at h ⊢
      rcases h with h | h
      · exact Or.inl h
      · exact Or.inr (ih h)

theorem keys_upsertA_of_mem (fs : List (String × Addr)) (k : String) (c : Addr)
    (h : k ∈ fs.map (fun f => f.1)) :
    (upsertA fs k c).map (fun f => f.1) = fs.map (fun f => f.1) := by
  induction fs with
  | nil => cases h
  | cons f fs ih =>
    by_cases hf : f.1 = k
    · subst hf
      simp [upsertA]
    · have hb : (f.1 == k) = false := by simp [hf]
      simp only [upsertA, hb, Bool.false_eq_true, if_false, List.map_cons]
      simp only [List.map_cons, List.mem_cons] at h
      rcases h with h | h
      · exact absurd h.symm hf
      · rw [ih h]

theorem mem_values_upsertA (fs : List (String × Addr)) (k : String) (c b : Addr)
    (h : b ∈ (upsertA fs k c).map (fun f => f.2)) :
    b ∈ fs.map (fun f => f.2) ∨ b = c := by
  induction fs with
  | nil =>
    simp only [upsertA, List.map_cons, List.map_nil, List.mem_cons,
      List.not_mem_nil, or_false] at h
    exact Or.inr h
  | cons f fs ih =>
    simp only [upsertA] at h
    by_cases hf : (f.1 == k) = true
    · rw [hf, if_pos rfl] at h
      simp only [List.map_cons, List.mem_cons] at h
      rcases h with h | h
      · exact Or.inr h
      · exact Or.inl (by simp [h])
    · have hb : (f.1 == k) = false := by
        cases hx : (f.1 == k)
        · rfl
        · exact absurd hx hf
      rw [hb] at h
      simp only [Bool.false_eq_true, if_false, List.map_cons, List.mem_cons] at h
      rcases h with h | h
      · exact Or.inl (by simp [h])
      · rcases ih h with h2 | h2
        · exact Or.inl (by simp only [List.map_cons, List.mem_cons]; exact Or.inr h2)
        · exact Or.inr h2

theorem mem_values_objAssign (base over : List (String × Addr)) (b : Addr)
    (h : b ∈ (objAssign base over).map (fun f => f.2)) :
    b ∈ base.map (fun f => f.2) ∨ b ∈ over.map (fun f => f.2) := by
  induction over generalizing base with
  | nil => exact Or.inl h
  | cons f over ih =>
    simp only [objAssign, List.foldl_cons] at h
    rcases ih (upsertA base f.1 f.2) h with h2 | h2
    · rcases mem_values_upsertA base f.1 f.2 b h2 with h3 | h3
      · exact Or.inl h3
      · exact Or.inr (by simp [h3])
    · exact Or.inr (by simp only [List.map_cons, List.mem_cons]; exact Or.inr h2)

theorem mem_hset (l : List (Addr × HVal)) (a : Addr) (v : HVal) (e : Addr × HVal)
    (h : e ∈ hset l a v) : e ∈ l ∨ e = (a, v) := by
  induction l with
  | nil =>
    simp only [hset, List.mem_cons, List.not_mem_nil, or_false] at h
    exact Or.inr h
  | cons f l ih =>
    simp only [hset] at h
    by_cases hf : (f.1 == a) = true
    · rw [hf, if_pos rfl] at h
      simp only [List.mem_cons] at h
      rcases h with h | h
      · exact Or.inr h
      · exact Or.inl (List.mem_cons_of_mem f h)
    · have hb : (f.1 == a) = false := by
        cases hx : (f.1 == a)
        · rfl
        · exact absurd hx hf
      rw [hb] at h
      simp only [Bool.false_eq_true, if_false, List.mem_cons] at h
      rcases h with h | h
      · exact Or.inl (by simp [h])
      · rcases ih h with h2 | h2
        · exact Or.inl (List.mem_cons_of_mem f h2)
        · exact Or.inr h2

/-! Evolve and WfSt preservation for the primitive transitions. -/

theorem isUncachedObj_cachePush {s : St} {x : Addr} {c : List Addr}
    (hc : s.cache = c) (e : Addr × HVal)
    (h : isUncachedObj { s with cache := x :: c } e = true) :
    isUncachedObj s e = true := by
  simp only [isUncachedObj, Bool.and_eq_true, Bool.not_eq_true] at h ⊢
  refine ⟨h.1, ?_⟩
  cases hm : s.cache.contains e.1
  · rfl
  · exfalso
    have : (x :: c).contains e.1 = true := by
      rw [contains_cons_iff]
      right
      rw [← hc]
      exact hm
    rw [this] at h
    cases h.2

theorem isUncachedRefObj_cachePush {s : St} {x : Addr} {c : List Addr}
    (hc : s.cache = c) (e : Addr × HVal)
    (h : isUncachedRefObj { s with cache := x :: c } e = true) :
    isUncachedRefObj s e = true := by
  simp only [isUncachedRefObj, Bool.and_eq_true, Bool.not_eq_true] at h ⊢
  refine ⟨h.1, ?_⟩
  cases hm : s.cache.contains e.1
  · rfl
  · exfalso
    have : (x :: c).contains e.1 = true := by
      rw [contains_cons_iff]
      right
      rw [← hc]
      exact hm
    rw [this] at h
    cases h.2

theorem evolve_cachePush (s : St) (x : Addr) :
    Evolve s { s with cache := x :: s.cache } := by
  refine ⟨le_refl _, fun y hy => ?_, fun y _ => rfl, fun y ys h => h,
    fun y fs h => ⟨fs, h⟩, fun y v h _ => h, fun y _ h => h, ?_, ?_,
    mW_cachePush_le s x⟩
  · rw [contains_cons_iff]
    exact Or.inr hy
  · exact length_filter_le_of_imp _ _ _
      (fun e _ => isUncachedObj_cachePush rfl e)
  · exact length_filter_le_of_imp _ _ _
      (fun e _ => isUncachedRefObj_cachePush rfl e)

theorem wf_cachePush {s : St} (hw : WfSt s) (x : Addr) (hx : x < s.next) :
    WfSt { s with cache := x :: s.cache } := by
  refine ⟨hw.nodupKeys, hw.closedKey, hw.closedVal, fun y hy => ?_, hw.arrDown⟩
  rw [contains_cons_iff] at hy
  rcases hy with rfl | hy
  · exact hx
  · exact hw.cacheClosed y hy

theorem heapGet_cache_irrel (s : St) (c : List Addr) (x : Addr) :
    heapGet { s with cache := c } x = heapGet s x := rfl

theorem mU_heapSet_le {s : St} {a : Addr} {fs fs' : List (String × Addr)}
    (hget : heapGet s a = some (.obj fs)) :
    mU (heapSet s a (.obj fs')) ≤ mU s := by
  have hmem : a ∈ s.heap.map (fun e => e.1) := by
    have := hfind_mem hget
    exact List.mem_map.2 ⟨(a, HVal.obj fs), this, rfl⟩
  have heq : isUncachedObj (heapSet s a (.obj fs')) = isUncachedObj s := by
    funext e
    rfl
  show ((hset s.heap a (.obj fs')).filter (isUncachedObj (heapSet s a (.obj fs')))).length
      ≤ mU s
  rw [heq]
  refine length_filter_hset_le s.heap a (.obj fs') (isUncachedObj s) hmem ?_
  intro hq w hw
  have hget' : hfind s.heap a = some (HVal.obj fs) := hget
  rw [hget'] at hw
  cases hw
  simpa [isUncachedObj] using hq

theorem mR_heapSet_le {s : St} {a : Addr} {fs fs' : List (String × Addr)}
    (hget : heapGet s a = some (.obj fs))
    (hsub : (alookup fs' "$ref").isSome = true → (alookup fs "$ref").isSome = true) :
    mR (heapSet s a (.obj fs')) ≤ mR s := by
  have hmem : a ∈ s.heap.map (fun e => e.1) := by
    have := hfind_mem hget
    exact List.mem_map.2 ⟨(a, HVal.obj fs), this, rfl⟩
  have heq : isUncachedRefObj (heapSet s a (.obj fs')) = isUncachedRefObj s := by
    funext e
    rfl
  show ((hset s.heap a (.obj fs')).filter
      (isUncachedRefObj (heapSet s a (.obj fs')))).length ≤ mR s
  rw [heq]
  refine length_filter_hset_le s.heap a (.obj fs') (isUncachedRefObj s) hmem ?_
  intro hq w hw
  have hget' : hfind s.heap a = some (HVal.obj fs) := hget
  rw [hget'] at hw
  cases hw
  simp only [isUncachedRefObj, Bool.and_eq_true] at hq ⊢
  exact ⟨hsub hq.1, hq.2⟩

/-- Rewriting an object cell: a full Evolve when the new field list has no new
reference field. -/
theorem evolve_heapSet_obj {s : St} {a : Addr} {fs fs' : List (String × Addr)}
    (hget : heapGet s a = some (.obj fs)) (hnc : s.cache.contains a = false)
    (hsub : (alookup fs' "$ref").isSome = true → (alookup fs "$ref").isSome = true)
    (hrc : refCount fs' ≤ refCount fs) :
    Evolve s (heapSet s a (.obj fs')) := by
  refine ⟨le_refl _, fun x hx => hx, fun x hx => ?_, fun x xs hx => ?_,
    fun x gs hx => ?_, fun x v hx hv => ?_, fun x _ hn => ?_,
    mU_heapSet_le hget, mR_heapSet_le hget hsub, mW_heapSet_le hget hrc⟩
  · have hxa : x ≠ a := by
      intro he
      subst he
      rw [hx] at hnc
      cases hnc
    exact heapGet_heapSet_other s a x _ hxa
  · have hxa : x ≠ a := by
      intro he
      subst he
      rw [hget] at hx
      cases hx
    rw [heapGet_heapSet_other s a x _ hxa]
    exact hx
  · by_cases hxa : x = a
    · subst hxa
      exact ⟨fs', heapGet_heapSet_self s x _⟩
    · rw [heapGet_heapSet_other s a x _ hxa]
      exact ⟨gs, hx⟩
  · have hxa : x ≠ a := by
      intro he
      subst he
      rw [hget] at hx
      cases hx
      cases hv
    rw [heapGet_heapSet_other s a x _ hxa]
    exact hx
  · have hxa : x ≠ a := by
      intro he
      subst he
      rw [hget] at hn
      cases hn
    rw [heapGet_heapSet_other s a x _ hxa]
    exact hn

/-- Rewriting a memoized object cell: an EvolveAt at that cell. -/
theorem evolveAt_heapSet_cached {s : St} {a : Addr} {fs fs' : List (String × Addr)}
    (hget : heapGet s a = some (.obj fs)) (hc : s.cache.contains a = true) :
    EvolveAt a s (heapSet s a (.obj fs')) := by
  have hmem : a ∈ s.heap.map (fun e => e.1) := by
    have := hfind_mem hget
    exact List.mem_map.2 ⟨(a, HVal.obj fs), this, rfl⟩
  refine ⟨le_refl _, fun x hx => hx, fun x hxa _ => heapGet_heapSet_other s a x _ hxa,
    fun x xs hxa hx => by rw [heapGet_heapSet_other s a x _ hxa]; exact hx,
    fun x gs hx => ?_,
    fun x v hxa hx hv => by rw [heapGet_heapSet_other s a x _ hxa]; exact hx,
    fun x hxa _ hn => by rw [heapGet_heapSet_other s a x _ hxa]; exact hn,
    mU_heapSet_le hget, ?_, mW_heapSet_cached_le hget hc⟩
  · by_cases hxa : x = a
    · subst hxa
      exact ⟨fs', heapGet_heapSet_self s x _⟩
    · rw [heapGet_heapSet_other s a x _ hxa]
      exact ⟨gs, hx⟩
  · have heq : isUncachedRefObj (heapSet s a (.obj fs')) = isUncachedRefObj s := by
      funext e
      rfl
    show ((hset s.heap a (.obj fs')).filter
        (isUncachedRefObj (heapSet s a (.obj fs')))).length ≤ mR s
    rw [heq]
    refine length_filter_hset_le s.heap a (.obj fs') (isUncachedRefObj s) hmem ?_
    intro hq w hw
    exfalso
    simp only [isUncachedRefObj, Bool.and_eq_true, Bool.not_eq_true] at hq
    rw [hc] at hq
    cases hq.2

/-- WfSt is preserved by rewriting an object cell whose new fields stay below
the allocation counter. -/
theorem wf_heapSet_obj {s : St} (hw : WfSt s) {a : Addr} {fs fs' : List (String × Addr)}
    (hget : heapGet s a = some (.obj fs))
    (hvals : ∀ b ∈ fs'.map (fun f => f.2), b < s.next) :
    WfSt (heapSet s a (.obj fs')) := by
  have hmem : a ∈ s.heap.map (fun e => e.1) := by
    have := hfind_mem hget
    exact List.mem_map.2 ⟨(a, HVal.obj fs), this, rfl⟩
  have hka : a < s.next := hw.closedKey _ (hfind_mem hget)
  refine ⟨?_, ?_, ?_, hw.cacheClosed, ?_⟩
  · show ((hset s.heap a (.obj fs')).map (fun e => e.1)).Nodup
    rw [keys_hset_of_mem s.heap a _ hmem]
    exact hw.nodupKeys
  · intro e he
    rcases mem_hset s.heap a _ e he with h | h
    · exact hw.closedKey e h
    · rw [h]
      exact hka
  · intro e he b hb
    rcases mem_hset s.heap a _ e he with h | h
    · exact hw.closedVal e h b hb
    · rw [h] at hb
      exact hvals b hb
  · intro e he xs hxs y hy
    rcases mem_hset s.heap a _ e he with h | h
    · exact hw.arrDown e h xs hxs y hy
    · rw [h] at hxs
      cases hxs

/-- WfSt is preserved by allocation of a cell whose stored addresses are below
the counter. -/
theorem wf_alloc {s : St} (hw : WfSt s) {v : HVal}
    (hvals : ∀ b ∈ addrsOf v, b < s.next) :
    WfSt (allocSt s v).2 := by
  refine ⟨?_, ?_, ?_, ?_, ?_⟩
  · show ((s.heap ++ [(s.next, v)]).map (fun e => e.1)).Nodup
    rw [List.map_append]
    rw [List.nodup_append]
    refine ⟨hw.nodupKeys, by simp, ?_⟩
    intro x hx
    have : x < s.next := by
      obtain ⟨e, he, rfl⟩ := List.mem_map.1 hx
      exact hw.closedKey e he
    simp only [List.map_cons, List.map_nil, List.mem_singleton]
    intro hc
    subst hc
    exact lt_irrefl _ this
  · intro e he
    rcases List.mem_append.1 he with h | h
    · exact lt_trans (hw.closedKey e h) (Nat.lt_succ_self _)
    · simp only [List.mem_singleton] at h
      rw [h]
      exact Nat.lt_succ_self _
  · intro e he b hb
    rcases List.mem_append.1 he with h | h
    · exact lt_trans (hw.closedVal e h b hb) (Nat.lt_succ_self _)
    · simp only [List.mem_singleton] at h
      rw [h] at hb
      exact lt_trans (hvals b hb) (Nat.lt_succ_self _)
  · intro x hx
    exact lt_trans (hw.cacheClosed x hx) (Nat.lt_succ_self _)
  · intro e he xs hxs y hy
    rcases List.mem_append.1 he with h | h
    · exact hw.arrDown e h xs hxs y hy
    · simp only [List.mem_singleton] at h
      rw [h] at hxs ⊢
      simp only at hxs
      subst hxs
      exact hvals y hy

/-- Allocating a non-object cell is a full Evolve. -/
theorem evolve_alloc_nonObj {s : St} (hw : WfSt s) {v : HVal}
    (hv : ∀ fs, v ≠ HVal.obj fs) :
    Evolve s (allocSt s v).2 := by
  have hnone := heapGet_next_none hw
  refine ⟨Nat.le_succ _, fun x hx => hx, fun x hx => ?_, fun x xs hx => ?_,
    fun x gs hx => ?_, fun x w hx hs => ?_, fun x hlt hn => ?_, ?_, ?_,
    mW_alloc_le s v (by cases v with
      | obj fs => exact absurd rfl (hv fs)
      | null => rfl
      | bool b => rfl
      | num n => rfl
      | str t => rfl
      | arr xs => rfl)⟩
  · cases hg : heapGet s x with
    | none =>
      by_cases hxn : x = s.next
      · subst hxn
        exfalso
        exact lt_irrefl _ (hw.cacheClosed s.next hx)
      · rw [heapGet_alloc_of_none_ne s v x hg hxn]
    | some w => rw [heapGet_alloc_of_some s v w x hg]
  · exact heapGet_alloc_of_some s v _ x hx
  · exact ⟨gs, heapGet_alloc_of_some s v _ x hx⟩
  · exact heapGet_alloc_of_some s v _ x hx
  · refine heapGet_alloc_of_none_ne s v x hn ?_
    intro hc
    subst hc
    exact lt_irrefl _ hlt
  · show ((s.heap ++ [(s.next, v)]).filter (isUncachedObj (allocSt s v).2)).length ≤ mU s
    rw [List.filter_append]
    have h1 : isUncachedObj (allocSt s v).2 = isUncachedObj s := by
      funext e
      rfl
    rw [h1]
    have h2 : [(s.next, v)].filter (isUncachedObj s) = [] := by
      simp only [List.filter, isUncachedObj]
      cases v with
      | obj fs => exact absurd rfl (hv fs)
      | null => rfl
      | bool b => rfl
      | num n => rfl
      | str t => rfl
      | arr xs => rfl
    rw [h2, List.append_nil]
    exact le_refl _
  · show ((s.heap ++ [(s.next, v)]).filter (isUncachedRefObj (allocSt s v).2)).length ≤ mR s
    rw [List.filter_append]
    have h1 : isUncachedRefObj (allocSt s v).2 = isUncachedRefObj s := by
      funext e
      rfl
    rw [h1]
    have h2 : [(s.next, v)].filter (isUncachedRefObj s) = [] := by
      simp only [List.filter, isUncachedRefObj]
      cases v with
      | obj fs => exact absurd rfl (hv fs)
      | null => rfl
      | bool b => rfl
      | num n => rfl
      | str t => rfl
      | arr xs => rfl
    rw [h2, List.append_nil]
    exact le_refl _

/-- Allocating an object cell and immediately memoizing it (the merged node
of the reference branch) is a full Evolve. -/
theorem evolve_alloc_obj_cached {s : St} (hw : WfSt s) (merged : List (String × Addr)) :
    Evolve s
      { (allocSt s (.obj merged)).2 with
        cache := (allocSt s (.obj merged)).1 :: (allocSt s (.obj merged)).2.cache } := by
  set m := (allocSt s (.obj merged)).1 with hm
  have hcontains : ∀ e : Addr × HVal,
      (!(m :: s.cache).contains e.1) = true → (!s.cache.contains e.1) = true := by
    intro e he
    cases hc : s.cache.contains e.1
    · rfl
    · exfalso
      have h1 : (m :: s.cache).contains e.1 = true :=
        (contains_cons_iff _ _ _).2 (Or.inr hc)
      rw [h1] at he
      cases he
  refine ⟨Nat.le_succ _, fun x hx => (contains_cons_iff _ _ _).2 (Or.inr hx),
    fun x hx => ?_, fun x xs hx => heapGet_alloc_of_some s _ _ x hx,
    fun x gs hx => ⟨gs, heapGet_alloc_of_some s _ _ x hx⟩,
    fun x w hx _ => heapGet_alloc_of_some s _ _ x hx,
    fun x hlt hn => heapGet_alloc_of_none_ne s _ x hn (fun hc => by
      subst hc
      exact lt_irrefl _ hlt), ?_, ?_, ?_⟩
  · show heapGet (allocSt s (.obj merged)).2 x = heapGet s x
    cases hg : heapGet s x with
    | none =>
      refine heapGet_alloc_of_none_ne s _ x hg (fun hc => ?_)
      subst hc
      exact lt_irrefl _ (hw.cacheClosed s.next hx)
    | some w => exact heapGet_alloc_of_some s _ w x hg
  · show ((s.heap ++ [(s.next, HVal.obj merged)]).filter _).length ≤ mU s
    rw [List.filter_append]
    have h2 : [((s.next : Addr), HVal.obj merged)].filter
        (isUncachedObj { (allocSt s (.obj merged)).2 with
          cache := m :: (allocSt s (.obj merged)).2.cache }) = [] := by
      simp only [List.filter, isUncachedObj]
      have : (m :: s.cache).contains s.next = true :=
        (contains_cons_iff _ _ _).2 (Or.inl rfl)
      simp only [allocSt] at this ⊢
      rw [this]
      rfl
    rw [h2, List.append_nil]
    refine length_filter_le_of_imp _ _ _ (fun e _ he => ?_)
    simp only [isUncachedObj, Bool.and_eq_true] at he ⊢
    exact ⟨he.1, hcontains e he.2⟩
  · show ((s.heap ++ [(s.next, HVal.obj merged)]).filter _).length ≤ mR s
    rw [List.filter_append]
    have h2 : [((s.next : Addr), HVal.obj merged)].filter
        (isUncachedRefObj { (allocSt s (.obj merged)).2 with
          cache := m :: (allocSt s (.obj merged)).2.cache }) = [] := by
      simp only [List.filter, isUncachedRefObj]
      have : (m :: s.cache).contains s.next = true :=
        (contains_cons_iff _ _ _).2 (Or.inl rfl)
      simp only [allocSt] at this ⊢
      rw [this]
      simp
    rw [h2, List.append_nil]
    refine length_filter_le_of_imp _ _ _ (fun e _ he => ?_)
    simp only [isUncachedRefObj, Bool.and_eq_true] at he ⊢
    exact ⟨he.1, hcontains e he.2⟩
  · show ((s.heap ++ [(s.next, HVal.obj merged)]).map _).sum ≤ mW s
    rw [List.map_append, List.sum_append]
    have h2 : ([((s.next : Addr), HVal.obj merged)].map
        (cellW { (allocSt s (.obj merged)).2 with
          cache := m :: (allocSt s (.obj merged)).2.cache })).sum = 0 := by
      simp only [List.map_cons, List.map_nil, List.sum_cons, List.sum_nil, cellW]
      have : (m :: s.cache).contains s.next = true :=
        (contains_cons_iff _ _ _).2 (Or.inl rfl)
      simp only [allocSt] at this ⊢
      rw [if_pos this]
      rfl
    rw [h2, Nat.add_zero]
    refine List.sum_le_sum (fun e _ => ?_)
    refine cellW_cache_sub (fun y hy => ?_) e
    show (m :: s.cache).contains y = true
    exact (contains_cons_iff _ _ _).2 (Or.inr hy)

/-- WfSt after allocating and memoizing an object cell with closed fields. -/
theorem wf_alloc_obj_cached {s : St} (hw : WfSt s) {merged : List (String × Addr)}
    (hvals : ∀ b ∈ merged.map (fun f => f.2), b < s.next) :
    WfSt { (allocSt s (.obj merged)).2 with
      cache := (allocSt s (.obj merged)).1 :: (allocSt s (.obj merged)).2.cache } := by
  have h1 : WfSt (allocSt s (.obj merged)).2 :=
    wf_alloc hw (by simpa [addrsOf] using hvals)
  have h2 := wf_cachePush h1 (allocSt s (.obj merged)).1 (Nat.lt_succ_self _)
  exact h2

theorem map_snd_enumFrom {α : Type} (xs : List α) :
    ∀ n, (List.enumFrom n xs).map
      ((fun f => (f : String × α).2) ∘ (fun e : Nat × α => (toString e.1, e.2))) = xs := by
  induction xs with
  | nil => intro n; rfl
  | cons x xs ih =>
    intro n
    simp only [List.enumFrom, List.map_cons, Function.comp]
    rw [ih (n + 1)]

theorem map_snd_enum_comp {α : Type} (xs : List α) :
    xs.enum.map
      ((fun f => (f : String × α).2) ∘ (fun e : Nat × α => (toString e.1, e.2))) = xs :=
  map_snd_enumFrom xs 0

/-- One step of the character fold of the string case of assignSrcFields. -/
def chStep (acc : List (String × Addr) × St) (ic : Nat × Char) :
    List (String × Addr) × St :=
  let bs := allocSt acc.2 (.str (String.mk [ic.2]))
  (acc.1 ++ [(toString ic.1, bs.1)], bs.2)

theorem assignSrcFields_str (s : St) (t : Addr) (str : String)
    (hg : heapGet s t = some (.str str)) :
    assignSrcFields s t = (str.data.enum).foldl chStep ([], s) := by
  simp only [assignSrcFields, hg]
  rfl

theorem charFold_spec (cs : List (Nat × Char)) :
    ∀ (acc : List (String × Addr)) (s0 : St), WfSt s0 →
      (∀ b ∈ acc.map (fun f => f.2), b < s0.next) →
      Evolve s0 (cs.foldl chStep (acc, s0)).2 ∧
      WfSt (cs.foldl chStep (acc, s0)).2 ∧
      s0.next ≤ (cs.foldl chStep (acc, s0)).2.next ∧
      (∀ b ∈ (cs.foldl chStep (acc, s0)).1.map (fun f => f.2),
        b < (cs.foldl chStep (acc, s0)).2.next) ∧
      (∀ x, x < s0.next → heapGet (cs.foldl chStep (acc, s0)).2 x = heapGet s0 x) ∧
      (cs.foldl chStep (acc, s0)).2.cache = s0.cache := by
  induction cs with
  | nil =>
    intro acc s0 hw hacc
    exact ⟨Evolve.refl s0, hw, le_refl _, hacc, fun x _ => rfl, rfl⟩
  | cons ic cs ih =>
    intro acc s0 hw hacc
    have hstep : chStep (acc, s0) ic =
        (acc ++ [(toString ic.1, s0.next)], (allocSt s0 (.str (String.mk [ic.2]))).2) := rfl
    have hwf1 : WfSt (allocSt s0 (.str (String.mk [ic.2]))).2 :=
      wf_alloc hw (by simp [addrsOf])
    have hev1 : Evolve s0 (allocSt s0 (.str (String.mk [ic.2]))).2 :=
      evolve_alloc_nonObj hw (fun fs h => by cases h)
    have hnext1 : (allocSt s0 (.str (String.mk [ic.2]))).2.next = s0.next + 1 := rfl
    have hacc1 : ∀ b ∈ (acc ++ [(toString ic.1, s0.next)]).map (fun f => f.2),
        b < (allocSt s0 (.str (String.mk [ic.2]))).2.next := by
      intro b hb
      rw [List.map_append] at hb
      rcases List.mem_append.1 hb with hb | hb
      · exact lt_trans (hacc b hb) (by rw [hnext1]; exact Nat.lt_succ_self _)
      · simp only [List.map_cons, List.map_nil, List.mem_singleton] at hb
        rw [hb, hnext1]
        exact Nat.lt_succ_self _
    obtain ⟨e1, w1, n1, b1, p1, c1⟩ := ih (acc ++ [(toString ic.1, s0.next)])
      (allocSt s0 (.str (String.mk [ic.2]))).2 hwf1 hacc1
    rw [List.foldl_cons, hstep]
    refine ⟨Evolve.trans hev1 e1, w1, ?_, b1, ?_, ?_⟩
    · calc s0.next ≤ s0.next + 1 := Nat.le_succ _
        _ = (allocSt s0 (.str (String.mk [ic.2]))).2.next := hnext1.symm
        _ ≤ _ := n1
    · intro x hx
      have hx1 : x < (allocSt s0 (.str (String.mk [ic.2]))).2.next := by
        rw [hnext1]
        exact lt_trans hx (Nat.lt_succ_self _)
      rw [p1 x hx1]
      cases hg : heapGet s0 x with
      | none =>
        refine heapGet_alloc_of_none_ne s0 _ x hg (fun hc => ?_)
        subst hc
        exact lt_irrefl _ hx
      | some w => exact heapGet_alloc_of_some s0 _ w x hg
    · rw [c1]
      rfl

/-- The fields contributed by an Object.assign source: the state only grows
by fresh scalar cells, stays well-formed, existing cells are untouched, and
every contributed address is below the new counter. -/
theorem assignSrcFields_spec {s : St} (hw : WfSt s) (t : Addr) :
    Evolve s (assignSrcFields s t).2 ∧ WfSt (assignSrcFields s t).2 ∧
    s.next ≤ (assignSrcFields s t).2.next ∧
    (∀ b ∈ (assignSrcFields s t).1.map (fun f => f.2),
      b < (assignSrcFields s t).2.next) ∧
    (∀ x, x < s.next → heapGet (assignSrcFields s t).2 x = heapGet s x) ∧
    (assignSrcFields s t).2.cache = s.cache := by
  cases hg : heapGet s t with
  | none =>
    simp only [assignSrcFields, hg]
    exact ⟨Evolve.refl s, hw, le_refl _, by simp, by simp, by simp⟩
  | some v =>
    cases v with
    | null =>
      simp only [assignSrcFields, hg]
      exact ⟨Evolve.refl s, hw, le_refl _, by simp, by simp, by simp⟩
    | bool b =>
      simp only [assignSrcFields, hg]
      exact ⟨Evolve.refl s, hw, le_refl _, by simp, by simp, by simp⟩
    | num n =>
      simp only [assignSrcFields, hg]
      exact ⟨Evolve.refl s, hw, le_refl _, by simp, by simp, by simp⟩
    | str str =>
      rw [assignSrcFields_str s t str hg]
      exact charFold_spec str.data.enum [] s hw (by simp)
    | arr xs =>
      simp only [assignSrcFields, hg]
      refine ⟨Evolve.refl s, hw, le_refl _, ?_, by simp, by simp⟩
      intro b hb
      have hb' : b ∈ xs := by
        rw [List.map_map, map_snd_enum_comp] at hb
        exact hb
      exact hw.closedVal (t, .arr xs) (hfind_mem hg) b hb'
    | obj fs =>
      simp only [assignSrcFields, hg]
      refine ⟨Evolve.refl s, hw, le_refl _, ?_, by simp, by simp⟩
      intro b hb
      exact hw.closedVal (t, .obj fs) (hfind_mem hg) b hb

/-! The per-call contract of the resolver and the two fold lemmas. -/

/-- What a successful recursive resolution guarantees on a well-formed state:
the state evolves, stays well-formed, and the result address is live. -/
def RecOk (rec : Addr → St → Option (Except JsErr (Addr × St))) : Prop :=
  ∀ c st b st', rec c st = some (.ok (b, st')) → WfSt st → c < st.next →
    Evolve st st' ∧ WfSt st' ∧ b < st'.next

theorem foldl_fieldStep_none (rec : Addr → St → Option (Except JsErr (Addr × St)))
    (a : Addr) (names : List String) :
    names.foldl (fieldStep rec a) none = none := by
  induction names with
  | nil => rfl
  | cons name names ih => exact ih

theorem foldl_fieldStep_error (rec : Addr → St → Option (Except JsErr (Addr × St)))
    (a : Addr) (names : List String) (e : JsErr) :
    names.foldl (fieldStep rec a) (some (.error e)) = some (.error e) := by
  induction names with
  | nil => rfl
  | cons name names ih => exact ih

theorem foldl_elemStep_none (rec : Addr → St → Option (Except JsErr (Addr × St)))
    (xs : List Addr) :
    xs.foldl (elemStep rec) none = none := by
  induction xs with
  | nil => rfl
  | cons x xs ih => exact ih

theorem foldl_elemStep_error (rec : Addr → St → Option (Except JsErr (Addr × St)))
    (xs : List Addr) (e : JsErr) :
    xs.foldl (elemStep rec) (some (.error e)) = some (.error e) := by
  induction xs with
  | nil => rfl
  | cons x xs ih => exact ih

/-- An EvolveAt whose written cell is above the starting counter is a full
Evolve of a well-formed state: nothing live could be that cell. -/
theorem EvolveAt.toEvolveFresh {w : Addr} {s t : St} (h : EvolveAt w s t)
    (hw : WfSt s) (hfresh : s.next ≤ w) : Evolve s t := by
  have hne : ∀ x, x < s.next → x ≠ w := by
    intro x hx he
    subst he
    exact absurd hfresh (not_le.2 hx)
  refine ⟨h.next_le, h.cache_sub, fun x hx => ?_, fun x xs hx => ?_, h.keep_obj,
    fun x v hx hv => ?_, fun x hx hn => ?_, h.u_le, h.r_le, h.w_le⟩
  · exact h.frozen x (hne x (hw.cacheClosed x hx)) hx
  · exact h.keep_arr x xs (hne x (hw.closedKey _ (hfind_mem hx))) hx
  · exact h.keep_scalar x v (hne x (hw.closedKey _ (hfind_mem hx))) hx hv
  · exact h.keep_none x (hne x hx) hx hn

/-- The for-in loop over the (already memoized) node a: the state evolves
except at a, stays well-formed, and a keeps exactly its field names. -/
theorem fieldFold_ok (rec : Addr → St → Option (Except JsErr (Addr × St)))
    (hrec : RecOk rec) (names : List String) :
    ∀ (s t : St) (a : Addr) (fs0 : List (String × Addr)),
      heapGet s a = some (.obj fs0) → s.cache.contains a = true → WfSt s →
      names.foldl (fieldStep rec a) (some (.ok s)) = some (.ok t) →
      EvolveAt a s t ∧ WfSt t ∧
      ∃ fs1, heapGet t a = some (.obj fs1) ∧
        fs1.map (fun f => f.1) = fs0.map (fun f => f.1) ∧
        t.cache.contains a = true := by
  induction names with
  | nil =>
    intro s t a fs0 hobj hcached hw h
    simp only [List.foldl_nil, Option.some.injEq, Except.ok.injEq] at h
    subst h
    exact ⟨(Evolve.refl s).toAt a, hw, fs0, hobj, rfl, hcached⟩
  | cons name names ih =>
    intro s t a fs0 hobj hcached hw h
    rw [List.foldl_cons] at h
    have hstep : fieldStep rec a (some (.ok s)) name =
        (match alookup fs0 name with
         | none => some (.ok s)
         | some child =>
           match rec child s with
           | none => none
           | some (.error e) => some (.error e)
           | some (.ok (c, s1)) =>
             match heapGet s1 a with
             | some (.obj fs1) => some (.ok (heapSet s1 a (.obj (upsertA fs1 name c))))
             | _ => some (.ok s1)) := by
      simp only [fieldStep, hobj]
    cases halk : alookup fs0 name with
    | none =>
      rw [hstep] at h
      simp only [halk] at h
      exact ih s t a fs0 hobj hcached hw h
    | some child =>
      have hchild : child < s.next := by
        refine hw.closedVal (a, HVal.obj fs0) (hfind_mem hobj) child ?_
        simpa [addrsOf] using alookup_mem_values fs0 name child halk
      cases hr : rec child s with
      | none =>
        rw [hstep] at h
        simp only [halk, hr] at h
        rw [foldl_fieldStep_none] at h
        cases h
      | some res =>
        cases res with
        | error e =>
          rw [hstep] at h
          simp only [halk, hr] at h
          rw [foldl_fieldStep_error] at h
          cases h
        | ok cs1 =>
          obtain ⟨c, s1⟩ := cs1
          obtain ⟨hev1, hw1, hc1⟩ := hrec child s c s1 hr hw hchild
          have hget1 : heapGet s1 a = some (.obj fs0) := by
            rw [hev1.frozen a hcached]
            exact hobj
          have hcached1 : s1.cache.contains a = true := hev1.cache_sub a hcached
          rw [hstep] at h
          simp only [halk, hr, hget1] at h
          have hname : name ∈ fs0.map (fun f => f.1) := by
        -- halk gives isSome
            refine (alookup_isSome_iff fs0 name).1 ?_
            rw [halk]
            rfl
          have hobj2 : heapGet (heapSet s1 a (.obj (upsertA fs0 name c))) a =
              some (.obj (upsertA fs0 name c)) := heapGet_heapSet_self s1 a _
          have hcached2 : (heapSet s1 a (.obj (upsertA fs0 name c))).cache.contains a
              = true := hcached1
          have hw2 : WfSt (heapSet s1 a (.obj (upsertA fs0 name c))) := by
            refine wf_heapSet_obj hw1 hget1 ?_
            intro b hb
            rcases mem_values_upsertA fs0 name c b hb with hb2 | hb2
            · have : b < s.next := by
                refine hw.closedVal (a, HVal.obj fs0) (hfind_mem hobj) b ?_
                simpa [addrsOf] using hb2
              exact lt_of_lt_of_le this hev1.next_le
            · rw [hb2]
              exact hc1
          obtain ⟨hevr, hwr, fs2, hfs2, hkeys2, hcr⟩ :=
            ih _ t a (upsertA fs0 name c) hobj2 hcached2 hw2 h
          refine ⟨?_, hwr, fs2, hfs2, ?_, hcr⟩
          · exact (hev1.toAt a).transAt
              ((evolveAt_heapSet_cached hget1 hcached1).transAt hevr)
          · rw [hkeys2]
            exact keys_upsertA_of_mem fs0 name c hname

/-- The array map: the state evolves, stays well-formed, and every collected
element address is live. -/
theorem elemFold_ok (rec : Addr → St → Option (Except JsErr (Addr × St)))
    (hrec : RecOk rec) (xs : List Addr) :
    ∀ (s t : St) (ys0 ys : List Addr),
      WfSt s → (∀ x ∈ xs, x < s.next) → (∀ y ∈ ys0, y < s.next) →
      xs.foldl (elemStep rec) (some (.ok (ys0, s))) = some (.ok (ys, t)) →
      Evolve s t ∧ WfSt t ∧ (∀ y ∈ ys, y < t.next) := by
  induction xs with
  | nil =>
    intro s t ys0 ys hw hxs hys0 h
    simp only [List.foldl_nil, Option.some.injEq, Except.ok.injEq, Prod.mk.injEq] at h
    obtain ⟨h1, h2⟩ := h
    subst h1
    subst h2
    exact ⟨Evolve.refl s, hw, hys0⟩
  | cons x xs ih =>
    intro s t ys0 ys hw hxs hys0 h
    rw [List.foldl_cons] at h
    cases hr : rec x s with
    | none =>
      simp only [elemStep, hr] at h
      rw [foldl_elemStep_none] at h
      cases h
    | some res =>
      cases res with
      | error e =>
        simp only [elemStep, hr] at h
        rw [foldl_elemStep_error] at h
        cases h
      | ok ys1 =>
        obtain ⟨y, s1⟩ := ys1
        obtain ⟨hev1, hw1, hy1⟩ :=
          hrec x s y s1 hr hw (hxs x (List.mem_cons_self x xs))
        simp only [elemStep, hr] at h
        obtain ⟨hevr, hwr, hbound⟩ := ih s1 t (ys0 ++ [y]) ys hw1
          (fun z hz => lt_of_lt_of_le (hxs z (List.mem_cons_of_mem x hz)) hev1.next_le)
          (fun z hz => by
            rcases List.mem_append.1 hz with hz | hz
            · exact lt_of_lt_of_le (hys0 z hz) hev1.next_le
            · simp only [List.mem_singleton] at hz
              rw [hz]
              exact hy1) h
        exact ⟨Evolve.trans hev1 hevr, hwr, hbound⟩

/-- The resolver meets the per-call contract at every fuel: on a well-formed
state a successful run evolves the state, keeps it well-formed, and returns a
live address. -/
theorem resolveRefs_recOk : ∀ (fuel : Nat) (specA : Addr),
    RecOk (fun c st => resolveRefs fuel c specA st) := by
  intro fuel
  induction fuel with
  | zero =>
    intro specA c st b st' h
    exact Option.noConfusion h
  | succ n ih =>
    intro specA c st b st' h hw hc
    have hrec : RecOk (fun x st2 => resolveRefs n x specA st2) := ih specA
    simp only [resolveRefs] at h
    cases hg : heapGet st c with
    | none =>
      simp only [hg] at h
      simp only [Option.some.injEq, Except.ok.injEq, Prod.mk.injEq] at h
      obtain ⟨rfl, rfl⟩ := h
      exact ⟨Evolve.refl st, hw, hc⟩
    | some v =>
      cases v with
      | null =>
        simp only [hg, ite_self] at h
        simp only [Option.some.injEq, Except.ok.injEq, Prod.mk.injEq] at h
        obtain ⟨rfl, rfl⟩ := h
        exact ⟨Evolve.refl st, hw, hc⟩
      | bool b2 =>
        simp only [hg, ite_self] at h
        simp only [Option.some.injEq, Except.ok.injEq, Prod.mk.injEq] at h
        obtain ⟨rfl, rfl⟩ := h
        exact ⟨Evolve.refl st, hw, hc⟩
      | num n2 =>
        simp only [hg, ite_self] at h
        simp only [Option.some.injEq, Except.ok.injEq, Prod.mk.injEq] at h
        obtain ⟨rfl, rfl⟩ := h
        exact ⟨Evolve.refl st, hw, hc⟩
      | str s2 =>
        simp only [hg, ite_self] at h
        simp only [Option.some.injEq, Except.ok.injEq, Prod.mk.injEq] at h
        obtain ⟨rfl, rfl⟩ := h
        exact ⟨Evolve.refl st, hw, hc⟩
      | arr xs =>
        simp only [hg] at h
        rw [if_neg (by simp [truthyH])] at h
        by_cases hcch : st.cache.contains c = true
        · rw [if_pos hcch] at h
          simp only [Option.some.injEq, Except.ok.injEq, Prod.mk.injEq] at h
          obtain ⟨rfl, rfl⟩ := h
          exact ⟨Evolve.refl st, hw, hc⟩
        · rw [if_neg hcch] at h
          cases hfold : xs.foldl (elemStep (fun x st2 => resolveRefs n x specA st2))
              (some (.ok ([], st))) with
          | none =>
            rw [hfold] at h
            cases h
          | some res =>
            cases res with
            | error e =>
              rw [hfold] at h
              cases h
            | ok ys1 =>
              obtain ⟨ys, s1⟩ := ys1
              rw [hfold] at h
              simp only [Option.some.injEq, Except.ok.injEq, Prod.mk.injEq] at h
              obtain ⟨rfl, rfl⟩ := h
              have hxs : ∀ x ∈ xs, x < st.next := by
                intro x hx
                exact hw.closedVal (c, HVal.arr xs) (hfind_mem hg) x
                  (by simpa [addrsOf] using hx)
              obtain ⟨hev1, hw1, hys⟩ := elemFold_ok _ hrec xs st s1 [] ys hw hxs
                (by simp) hfold
              refine ⟨Evolve.trans hev1
                (evolve_alloc_nonObj hw1 (fun fs hfs => by cases hfs)), ?_, ?_⟩
              · exact wf_alloc hw1 (by simpa [addrsOf] using hys)
              · exact Nat.lt_succ_self _
      | obj fs =>
        simp only [hg] at h
        rw [if_neg (by simp [truthyH])] at h
        by_cases hcch : st.cache.contains c = true
        · rw [if_pos hcch] at h
          simp only [Option.some.injEq, Except.ok.injEq, Prod.mk.injEq] at h
          obtain ⟨rfl, rfl⟩ := h
          exact ⟨Evolve.refl st, hw, hc⟩
        · rw [if_neg hcch] at h
          have hnc : st.cache.contains c = false := by
            cases hx : st.cache.contains c
            · rfl
            · exact absurd hx hcch
          cases hrv : refVal st fs with
          | refErr e =>
            simp only [hrv] at h
            cases h
          | noRef =>
            simp only [hrv] at h
            cases hfold : (fs.map (fun f => f.1)).foldl
                (fieldStep (fun x st2 => resolveRefs n x specA st2) c)
                (some (.ok { st with cache := c :: st.cache })) with
            | none =>
              rw [hfold] at h
              cases h
            | some res =>
              cases res with
              | error e =>
                rw [hfold] at h
                cases h
              | ok s2 =>
                rw [hfold] at h
                simp only [Option.some.injEq, Except.ok.injEq, Prod.mk.injEq] at h
                obtain ⟨rfl, rfl⟩ := h
                have hobj1 : heapGet { st with cache := c :: st.cache } c =
                    some (.obj fs) := hg
                have hcached1 : ({ st with cache := c :: st.cache } : St).cache.contains c
                    = true := (contains_cons_iff _ _ _).2 (Or.inl rfl)
                have hw1 : WfSt { st with cache := c :: st.cache } :=
                  wf_cachePush hw c hc
                obtain ⟨hevAt, hw2, fs1, hfs1, hkeys1, hcch2⟩ :=
                  fieldFold_ok _ hrec (fs.map (fun f => f.1)) _ s2 c fs hobj1
                    hcached1 hw1 hfold
                have hevAt' : EvolveAt c st s2 :=
                  ((evolve_cachePush st c).toAt c).transAt hevAt
                refine ⟨hevAt'.toEvolve hnc ⟨fs, hg⟩, hw2, ?_⟩
                exact lt_of_lt_of_le hc hevAt'.next_le
          | refStr refStr =>
            simp only [hrv] at h
            cases hrr : resolveRef refStr st specA with
            | error e =>
              simp only [hrr] at h
              cases h
            | ok target =>
              simp only [hrr] at h
              have hsub : (alookup (removeField fs "$ref") "$ref").isSome = true →
                  (alookup fs "$ref").isSome = true := by
                intro hi
                refine (alookup_isSome_iff fs "$ref").2 ?_
                exact mem_keys_removeField fs "$ref" "$ref"
                  ((alookup_isSome_iff _ _).1 hi)
              have hvals0 : ∀ bb ∈ (removeField fs "$ref").map (fun f => f.2),
                  bb < st.next := by
                intro bb hbb
                refine hw.closedVal (c, HVal.obj fs) (hfind_mem hg) bb ?_
                simpa [addrsOf] using mem_values_removeField fs "$ref" bb hbb
              have hev1 : Evolve st (heapSet st c (.obj (removeField fs "$ref"))) :=
                evolve_heapSet_obj hg hnc hsub (refCount_removeField_le fs "$ref")
              have hw1 : WfSt (heapSet st c (.obj (removeField fs "$ref"))) :=
                wf_heapSet_obj hw hg hvals0
              obtain ⟨hev2, hw2, hn2, hbnds, hpres, hcch2⟩ :=
                assignSrcFields_spec hw1 target
              have hvalsM : ∀ bb ∈ (objAssign
                  (assignSrcFields (heapSet st c (.obj (removeField fs "$ref"))) target).1
                  (removeField fs "$ref")).map (fun f => f.2), bb <
                  (assignSrcFields (heapSet st c (.obj (removeField fs "$ref"))) target).2.next := by
                intro bb hbb
                rcases mem_values_objAssign _ (removeField fs "$ref") bb hbb
                  with hbb2 | hbb2
                · exact hbnds bb hbb2
                · exact lt_of_lt_of_le (hvals0 bb hbb2) hn2
              have hev3 := evolve_alloc_obj_cached hw2 (objAssign
                (assignSrcFields (heapSet st c (.obj (removeField fs "$ref"))) target).1
                (removeField fs "$ref"))
              have hw3 := wf_alloc_obj_cached hw2 hvalsM
              have hobjm : heapGet
                  { (allocSt (assignSrcFields (heapSet st c (HVal.obj (removeField fs "$ref"))) target).2 (HVal.obj (objAssign (assignSrcFields (heapSet st c (HVal.obj (removeField fs "$ref"))) target).1 (removeField fs "$ref")))).2 with cache := (allocSt (assignSrcFields (heapSet st c (HVal.obj (removeField fs "$ref"))) target).2 (HVal.obj (objAssign (assignSrcFields (heapSet st c (HVal.obj (removeField fs "$ref"))) target).1 (removeField fs "$ref")))).1 :: (allocSt (assignSrcFields (heapSet st c (HVal.obj (removeField fs "$ref"))) target).2 (HVal.obj (objAssign (assignSrcFields (heapSet st c (HVal.obj (removeField fs "$ref"))) target).1 (removeField fs "$ref")))).2.cache } (allocSt (assignSrcFields (heapSet st c (HVal.obj (removeField fs "$ref"))) target).2 (HVal.obj (objAssign (assignSrcFields (heapSet st c (HVal.obj (removeField fs "$ref"))) target).1 (removeField fs "$ref")))).1 =
                  some (HVal.obj (objAssign (assignSrcFields (heapSet st c (HVal.obj (removeField fs "$ref"))) target).1 (removeField fs "$ref"))) :=
                heapGet_alloc_self hw2 _
              cases hfold : ((objAssign
                  (assignSrcFields (heapSet st c (.obj (removeField fs "$ref"))) target).1
                  (removeField fs "$ref")).map (fun f => f.1)).foldl
                  (fieldStep (fun x st2 => resolveRefs n x specA st2)
                    (allocSt
                      (assignSrcFields (heapSet st c (.obj (removeField fs "$ref"))) target).2
                      (.obj (objAssign
                        (assignSrcFields (heapSet st c (.obj (removeField fs "$ref"))) target).1
                        (removeField fs "$ref")))).1)
                  (some (.ok
                    { (allocSt
                        (assignSrcFields (heapSet st c (.obj (removeField fs "$ref"))) target).2
                        (.obj (objAssign
                          (assignSrcFields (heapSet st c (.obj (removeField fs "$ref"))) target).1
                          (removeField fs "$ref")))).2 with
                      cache := (allocSt
                        (assignSrcFields (heapSet st c (.obj (removeField fs "$ref"))) target).2
                        (.obj (objAssign
                          (assignSrcFields (heapSet st c (.obj (removeField fs "$ref"))) target).1
                          (removeField fs "$ref")))).1 ::
                        (allocSt
                          (assignSrcFields (heapSet st c (.obj (removeField fs "$ref"))) target).2
                          (.obj (objAssign
                            (assignSrcFields (heapSet st c (.obj (removeField fs "$ref"))) target).1
                            (removeField fs "$ref")))).2.cache })) with
              | none =>
                rw [hfold] at h
                cases h
              | some res =>
                cases res with
                | error e =>
                  rw [hfold] at h
                  cases h
                | ok s3 =>
                  rw [hfold] at h
                  simp only [Option.some.injEq, Except.ok.injEq, Prod.mk.injEq] at h
                  obtain ⟨rfl, rfl⟩ := h
                  obtain ⟨hevAt, hw4, fs4, hfs4, hkeys4, hcch4⟩ :=
                    fieldFold_ok _ hrec _ _ s3 _ _ hobjm
                      ((contains_cons_iff _ _ _).2 (Or.inl rfl)) hw3 hfold
                  have hevPre := (hev1.trans hev2).trans hev3
                  have hevAt' := (hevPre.toAt (allocSt
                    (assignSrcFields (heapSet st c (.obj (removeField fs "$ref"))) target).2
                    (.obj (objAssign
                      (assignSrcFields (heapSet st c (.obj (removeField fs "$ref"))) target).1
                      (removeField fs "$ref")))).1).transAt hevAt
                  have hfresh : st.next ≤ (allocSt
                      (assignSrcFields (heapSet st c (.obj (removeField fs "$ref"))) target).2
                      (.obj (objAssign
                        (assignSrcFields (heapSet st c (.obj (removeField fs "$ref"))) target).1
                        (removeField fs "$ref")))).1 := hn2
                  refine ⟨hevAt'.toEvolveFresh hw hfresh, hw4, ?_⟩
                  exact lt_of_lt_of_le (Nat.lt_succ_self _) hevAt.next_le

/-! Overlay lemmas for the Object.assign merge. -/

theorem alookup_eq_none_iff {α : Type} (fs : List (String × α)) (k : String) :
    alookup fs k = none ↔ k ∉ fs.map (fun f => f.1) := by
  constructor
  · intro h hk
    have := (alookup_isSome_iff fs k).2 hk
    rw [h] at this
    cases this
  · intro hk
    cases h : alookup fs k with
    | none => rfl
    | some v =>
      exfalso
      refine hk ((alookup_isSome_iff fs k).1 ?_)
      rw [h]
      rfl

theorem alookup_upsertA_self (fs : List (String × Addr)) (k : String) (v : Addr) :
    alookup (upsertA fs k v) k = some v := by
  induction fs with
  | nil => simp [upsertA, alookup]
  | cons f fs ih =>
    by_cases h : f.1 = k
    · simp [upsertA, alookup, h]
    · have hb : (f.1 == k) = false := by simp [h]
      simp only [upsertA, hb, Bool.false_eq_true, if_false, alookup]
      exact ih

theorem alookup_upsertA_other (fs : List (String × Addr)) (k k' : String) (v : Addr)
    (h : k' ≠ k) : alookup (upsertA fs k v) k' = alookup fs k' := by
  induction fs with
  | nil =>
    have hb : (k == k') = false := by
      simp only [beq_eq_false_iff_ne, ne_eq]
      exact fun hc => h hc.symm
    simp [upsertA, alookup, hb]
  | cons f fs ih =>
    by_cases hf : f.1 = k
    · subst hf
      have hb : (f.1 == k') = false := by
        simp only [beq_eq_false_iff_ne, ne_eq]
        exact fun hc => h hc.symm
      simp [upsertA, alookup, hb]
    · have hb : (f.1 == k) = false := by simp [hf]
      simp only [upsertA, hb, Bool.false_eq_true, if_false, alookup]
      by_cases hfk : (f.1 == k') = true
      · simp [hfk]
      · have hb2 : (f.1 == k') = false := by
          cases hx : (f.1 == k')
          · rfl
          · exact absurd hx hfk
        simp only [hb2, Bool.false_eq_true, if_false]
        exact ih

theorem mem_keys_upsertA (fs : List (String × Addr)) (k : String) (v : Addr)
    (x : String) :
    x ∈ (upsertA fs k v).map (fun f => f.1) ↔
      x ∈ fs.map (fun f => f.1) ∨ x = k := by
  induction fs with
  | nil => simp [upsertA, eq_comm]
  | cons f fs ih =>
    by_cases h : f.1 = k
    · subst h
      simp only [upsertA, beq_self_eq_true, if_true, List.map_cons, List.mem_cons]
      constructor
      · rintro (rfl | hk)
        · exact Or.inl (Or.inl rfl)
        · exact Or.inl (Or.inr hk)
      · rintro ((rfl | hk) | rfl)
        · exact Or.inl rfl
        · exact Or.inr hk
        · exact Or.inl rfl
    · have hb : (f.1 == k) = false := by simp [h]
      simp only [upsertA, hb, Bool.false_eq_true, if_false, List.map_cons,
        List.mem_cons, ih]
      tauto

theorem mem_keys_objAssign (base over : List (String × Addr)) (x : String) :
    x ∈ (objAssign base over).map (fun f => f.1) ↔
      x ∈ base.map (fun f => f.1) ∨ x ∈ over.map (fun f => f.1) := by
  induction over generalizing base with
  | nil => simp [objAssign]
  | cons f over ih =>
    simp only [objAssign, List.foldl_cons] at *
    rw [ih (upsertA base f.1 f.2), mem_keys_upsertA]
    simp only [List.map_cons, List.mem_cons]
    tauto

/-- The merge precedence of Object.assign: a key takes the overriding list's
value when the key is there, and the base value otherwise. -/
theorem alookup_objAssign (base over : List (String × Addr))
    (hnd : (over.map (fun f => f.1)).Nodup) (k : String) :
    alookup (objAssign base over) k =
      (match alookup over k with
       | some v => some v
       | none => alookup base k) := by
  induction over generalizing base with
  | nil => simp [objAssign, alookup]
  | cons f over ih =>
    rw [List.map_cons] at hnd
    rcases List.nodup_cons.1 hnd with ⟨hna, hndl⟩
    simp only [objAssign, List.foldl_cons] at *
    rw [ih (upsertA base f.1 f.2) hndl]
    by_cases h : f.1 = k
    · subst h
      have hover : alookup over f.1 = none :=
        (alookup_eq_none_iff over f.1).2 hna
      simp only [alookup, beq_self_eq_true, if_true, hover]
      exact alookup_upsertA_self base f.1 f.2
    · have hb : (f.1 == k) = false := by simp [h]
      simp only [alookup, hb, Bool.false_eq_true, if_false]
      cases ho : alookup over k with
      | some v => rfl
      | none => exact alookup_upsertA_other base f.1 k f.2 (fun hc => h hc.symm)

theorem removeField_sublist (fs : List (String × Addr)) (k : String) :
    (removeField fs k).Sublist fs := by
  induction fs with
  | nil => simp [removeField]
  | cons f fs ih =>
    simp only [removeField]
    by_cases h : (f.1 == k) = true
    · rw [h, if_pos rfl]
      exact List.sublist_cons_of_sublist f (List.Sublist.refl fs)
    · have hb : (f.1 == k) = false := by
        cases hx : (f.1 == k)
        · rfl
        · exact absurd hx h
      rw [hb]
      simp only [Bool.false_eq_true, if_false]
      exact List.Sublist.cons₂ f ih

theorem keys_removeField_nodup (fs : List (String × Addr)) (k : String)
    (hnd : (fs.map (fun f => f.1)).Nodup) :
    ((removeField fs k).map (fun f => f.1)).Nodup :=
  List.Nodup.sublist (List.Sublist.map _ (removeField_sublist fs k)) hnd

theorem not_mem_keys_removeField_self (fs : List (String × Addr)) (k : String)
    (hnd : (fs.map (fun f => f.1)).Nodup) :
    k ∉ (removeField fs k).map (fun f => f.1) := by
  induction fs with
  | nil => simp [removeField]
  | cons f fs ih =>
    rw [List.map_cons] at hnd
    rcases List.nodup_cons.1 hnd with ⟨hna, hndl⟩
    simp only [removeField]
    by_cases h : (f.1 == k) = true
    · rw [h, if_pos rfl]
      rw [(beq_iff_eq ..).1 h] at hna
      exact hna
    · have hb : (f.1 == k) = false := by
        cases hx : (f.1 == k)
        · rfl
        · exact absurd hx h
      rw [hb]
      simp only [Bool.false_eq_true, if_false, List.map_cons, List.mem_cons, not_or]
      refine ⟨?_, ih hndl⟩
      intro hc
      subst hc
      simp at hb

theorem mem_of_contains {l : List Addr} {x : Addr} (h : l.contains x = true) :
    x ∈ l := by
  induction l with
  | nil => cases h
  | cons a l ih =>
    rw [contains_cons_iff] at h
    rcases h with rfl | h
    · exact List.mem_cons_self _ _
    · exact List.mem_cons_of_mem a (ih h)

/-- The array elements of a heap value (empty for everything else). -/
def arrElems : HVal → List Addr
  | .arr xs => xs
  | _ => []

/-- Build well-formedness from decidable list-quantified facts. -/
theorem wfSt_mk (s : St)
    (h1 : (s.heap.map (fun e => e.1)).Nodup)
    (h2 : ∀ e ∈ s.heap, e.1 < s.next)
    (h3 : ∀ e ∈ s.heap, ∀ b ∈ addrsOf e.2, b < s.next)
    (h4 : ∀ x ∈ s.cache, x < s.next)
    (h5 : ∀ e ∈ s.heap, ∀ y ∈ arrElems e.2, y < e.1) : WfSt s := by
  refine ⟨h1, h2, h3, fun x hx => h4 x (mem_of_contains hx), ?_⟩
  intro e he xs hxs y hy
  refine h5 e he y ?_
  rw [show arrElems e.2 = xs from by rw [hxs]; rfl]
  exact hy

/-- C1 amended: a keyed node carrying a truthy string reference field whose
target resolves to a keyed node produces a fresh merged node whose fields are
the target's fields (as they stand after the reference field is deleted from
the referencing node) overlaid by the node's remaining sibling fields, a
same-named sibling taking precedence; the merged node carries no reference
field provided the resolved target itself carries none (with mutually
referential nodes the target may still carry one, and the merged node then
retains it).  The recursive field resolution afterwards rewrites the merged
node's field values in place but keeps exactly its field names. -/
theorem resolveRefs_merge (n : Nat) (specA c : Addr) (s : St)
    (fs tfs : List (String × Addr)) (r : String) (target b : Addr) (s' : St)
    (hw : WfSt s) (hc : c < s.next)
    (hg : heapGet s c = some (.obj fs))
    (hfs_nd : (fs.map (fun f => f.1)).Nodup)
    (hnc : s.cache.contains c = false)
    (hrv : refVal s fs = .refStr r)
    (hrr : resolveRef r s specA = .ok target)
    (htf : heapGet (heapSet s c (.obj (removeField fs "$ref"))) target =
      some (.obj tfs))
    (h : resolveRefs (n+1) c specA s = some (.ok (b, s'))) :
    b = s.next ∧
    (∀ k, alookup (objAssign tfs (removeField fs "$ref")) k =
      (match alookup (removeField fs "$ref") k with
       | some v => some v
       | none => alookup tfs k)) ∧
    ∃ mfs, heapGet s' b = some (.obj mfs) ∧
      mfs.map (fun f => f.1) =
        (objAssign tfs (removeField fs "$ref")).map (fun f => f.1) ∧
      (alookup tfs "$ref" = none → alookup mfs "$ref" = none) := by
  have hrec : RecOk (fun x st2 => resolveRefs n x specA st2) := resolveRefs_recOk n specA
  simp only [resolveRefs] at h
  simp only [hg] at h
  rw [if_neg (by simp [truthyH])] at h
  rw [if_neg (show ¬(s.cache.contains c = true) from fun hx => by
    rw [hnc] at hx; cases hx)] at h
  simp only [hrv, hrr] at h
  have hsrcs : assignSrcFields (heapSet s c (.obj (removeField fs "$ref"))) target =
      (tfs, heapSet s c (.obj (removeField fs "$ref"))) := by
    simp only [assignSrcFields, htf]
  simp only [hsrcs] at h
  have hsub : (alookup (removeField fs "$ref") "$ref").isSome = true →
      (alookup fs "$ref").isSome = true := by
    intro hi
    refine (alookup_isSome_iff fs "$ref").2 ?_
    exact mem_keys_removeField fs "$ref" "$ref" ((alookup_isSome_iff _ _).1 hi)
  have hvals0 : ∀ bb ∈ (removeField fs "$ref").map (fun f => f.2), bb < s.next := by
    intro bb hbb
    refine hw.closedVal (c, HVal.obj fs) (hfind_mem hg) bb ?_
    simpa [addrsOf] using mem_values_removeField fs "$ref" bb hbb
  have hw1 : WfSt (heapSet s c (.obj (removeField fs "$ref"))) :=
    wf_heapSet_obj hw hg hvals0
  have hvalsT : ∀ bb ∈ tfs.map (fun f => f.2), bb < s.next := by
    intro bb hbb
    have := hw1.closedVal (target, HVal.obj tfs) (hfind_mem htf) bb
      (by simpa [addrsOf] using hbb)
    exact this
  have hvalsM : ∀ bb ∈ (objAssign tfs (removeField fs "$ref")).map (fun f => f.2),
      bb < (heapSet s c (.obj (removeField fs "$ref"))).next := by
    intro bb hbb
    rcases mem_values_objAssign tfs (removeField fs "$ref") bb hbb with hbb2 | hbb2
    · exact hvalsT bb hbb2
    · exact hvals0 bb hbb2
  have hw3 := wf_alloc_obj_cached hw1 hvalsM
  have hobjm : heapGet
      { (allocSt (heapSet s c (.obj (removeField fs "$ref")))
          (.obj (objAssign tfs (removeField fs "$ref")))).2 with
        cache := (allocSt (heapSet s c (.obj (removeField fs "$ref")))
          (.obj (objAssign tfs (removeField fs "$ref")))).1 ::
          (allocSt (heapSet s c (.obj (removeField fs "$ref")))
            (.obj (objAssign tfs (removeField fs "$ref")))).2.cache }
      (allocSt (heapSet s c (.obj (removeField fs "$ref")))
        (.obj (objAssign tfs (removeField fs "$ref")))).1 =
      some (HVal.obj (objAssign tfs (removeField fs "$ref"))) :=
    heapGet_alloc_self hw1 _
  cases hfold : ((objAssign tfs (removeField fs "$ref")).map (fun f => f.1)).foldl
      (fieldStep (fun x st2 => resolveRefs n x specA st2)
        (allocSt (heapSet s c (.obj (removeField fs "$ref")))
          (.obj (objAssign tfs (removeField fs "$ref")))).1)
      (some (.ok
        { (allocSt (heapSet s c (.obj (removeField fs "$ref")))
            (.obj (objAssign tfs (removeField fs "$ref")))).2 with
          cache := (allocSt (heapSet s c (.obj (removeField fs "$ref")))
            (.obj (objAssign tfs (removeField fs "$ref")))).1 ::
            (allocSt (heapSet s c (.obj (removeField fs "$ref")))
              (.obj (objAssign tfs (removeField fs "$ref")))).2.cache })) with
  | none =>
    rw [hfold] at h
    cases h
  | some res =>
    cases res with
    | error e =>
      rw [hfold] at h
      cases h
    | ok s3 =>
      rw [hfold] at h
      simp only [Option.some.injEq, Except.ok.injEq, Prod.mk.injEq] at h
      obtain ⟨rfl, rfl⟩ := h
      obtain ⟨hevAt, hw4, mfs, hmfs, hkeys, hcch4⟩ :=
        fieldFold_ok _ hrec _ _ s3 _ _ hobjm
          ((contains_cons_iff _ _ _).2 (Or.inl rfl)) hw3 hfold
      refine ⟨rfl, ?_, mfs, hmfs, hkeys, ?_⟩
      · intro k
        exact alookup_objAssign tfs (removeField fs "$ref")
          (keys_removeField_nodup fs "$ref" hfs_nd) k
      · intro hnone
        refine (alookup_eq_none_iff mfs "$ref").2 ?_
        intro hmem
        rw [hkeys] at hmem
        rcases (mem_keys_objAssign tfs (removeField fs "$ref") "$ref").1 hmem
          with h2 | h2
        · exact absurd h2 ((alookup_eq_none_iff tfs "$ref").1 hnone)
        · exact absurd h2 (not_mem_keys_removeField_self fs "$ref" hfs_nd)

/-- The plainly-merging document of the specification's own example: target
definitions.T = (a:1, b:2), referencing node with the reference and b:3. -/
def mergeSt : St :=
  { heap := [ (0, .obj [("definitions", 1)])
            , (1, .obj [("T", 2)])
            , (2, .obj [("a", 3), ("b", 4)])
            , (3, .num 1)
            , (4, .num 2)
            , (5, .obj [("$ref", 6), ("b", 7)])
            , (6, .str "#/definitions/T")
            , (7, .num 3) ]
  , cache := []
  , next := 8 }

/-- The state after resolving the referencing node of mergeSt. -/
def mergeStOut : St :=
  { heap := [ (0, .obj [("definitions", 1)])
            , (1, .obj [("T", 2)])
            , (2, .obj [("a", 3), ("b", 4)])
            , (3, .num 1)
            , (4, .num 2)
            , (5, .obj [("b", 7)])
            , (6, .str "#/definitions/T")
            , (7, .num 3)
            , (8, .obj [("a", 3), ("b", 7)]) ]
  , cache := [8]
  , next := 9 }

/-- Witness for C1 amended, at the specification's merge example: the merged
node keeps the target's keys with the sibling override and carries no
reference field (it holds a:1 overlaid with the sibling b:3). -/
theorem resolveRefs_merge_witness :
    ∃ mfs, heapGet mergeStOut 8 = some (HVal.obj mfs) ∧
      mfs.map (fun f => f.1) =
        (objAssign [("a", 3), ("b", 4)]
          (removeField [("$ref", 6), ("b", 7)] "$ref")).map (fun f => f.1) ∧
      (alookup ([("a", 3), ("b", 4)] : List (String × Addr)) "$ref" = none →
        alookup mfs "$ref" = none) :=
  (resolveRefs_merge 9 0 5 mergeSt [("$ref", 6), ("b", 7)] [("a", 3), ("b", 4)]
    "#/definitions/T" 2 8 mergeStOut
    (wfSt_mk mergeSt (by decide) (by decide) (by decide) (by decide) (by decide))
    (by decide) rfl (by decide) rfl rfl rfl rfl rfl).2.2

/-!
Idempotence (C3).

After a successful resolution every node reachable from the result without
entering a memoized object is either absent, falsy, a truthy scalar, a
memoized cell, or an array of such nodes: ArrRes.  A second resolution of
such a node changes no existing cell (it can only allocate fresh arrays)
and returns a structurally identical node.
-/

/-- A fully resolved node: second resolution will not rewrite anything. -/
inductive ArrRes (s : St) : Addr → Prop where
  | missing (a : Addr) : heapGet s a = none → ArrRes s a
  | falsy (a : Addr) (v : HVal) : heapGet s a = some v → truthyH v = false →
      ArrRes s a
  | scalar (a : Addr) (v : HVal) : heapGet s a = some v → scalarH v = true →
      ArrRes s a
  | cached (a : Addr) (v : HVal) : heapGet s a = some v →
      s.cache.contains a = true → ArrRes s a
  | arr (a : Addr) (xs : List Addr) : heapGet s a = some (.arr xs) →
      (∀ x ∈ xs, ArrRes s x) → ArrRes s a

theorem falsy_scalar {v : HVal} (h : truthyH v = false) : scalarH v = true := by
  cases v with
  | arr xs => cases h
  | obj fs => cases h
  | null => rfl
  | bool b => rfl
  | num n => rfl
  | str t => rfl

/-- ArrRes is stable along any evolution of a well-formed state. -/
theorem ArrRes.mono {s t : St} (hw : WfSt s) (hev : Evolve s t) :
    ∀ a, a < s.next → ArrRes s a → ArrRes t a := by
  intro a ha h
  induction h with
  | missing a hg => exact ArrRes.missing a (hev.keep_none a ha hg)
  | falsy a v hg hf =>
    exact ArrRes.falsy a v (hev.keep_scalar a v hg (falsy_scalar hf)) hf
  | scalar a v hg hs => exact ArrRes.scalar a v (hev.keep_scalar a v hg hs) hs
  | cached a v hg hc =>
    refine ArrRes.cached a v ?_ (hev.cache_sub a hc)
    rw [hev.frozen a hc]
    exact hg
  | arr a xs hg hxs ih =>
    refine ArrRes.arr a xs (hev.keep_arr a xs hg) ?_
    intro x hx
    refine ih x hx ?_
    exact hw.closedVal (a, HVal.arr xs) (hfind_mem hg) x (by simpa [addrsOf] using hx)

/-- Hmm placeholder note. -/
theorem arrRes_elem_lt {s : St} (hw : WfSt s) {a : Addr} {xs : List Addr}
    (hg : heapGet s a = some (.arr xs)) {x : Addr} (hx : x ∈ xs) : x < s.next :=
  hw.closedVal (a, HVal.arr xs) (hfind_mem hg) x (by simpa [addrsOf] using hx)

/-- The element results of the array fold are resolved. -/
theorem elemFold_resolved (rec : Addr → St → Option (Except JsErr (Addr × St)))
    (hrec : RecOk rec)
    (hres : ∀ c st b st', rec c st = some (.ok (b, st')) → WfSt st →
      c < st.next → ArrRes st' b ∧ b < st'.next)
    (xs : List Addr) :
    ∀ (s t : St) (ys0 ys : List Addr),
      WfSt s → (∀ x ∈ xs, x < s.next) →
      (∀ y ∈ ys0, ArrRes s y ∧ y < s.next) →
      xs.foldl (elemStep rec) (some (.ok (ys0, s))) = some (.ok (ys, t)) →
      ∀ y ∈ ys, ArrRes t y ∧ y < t.next := by
  induction xs with
  | nil =>
    intro s t ys0 ys hw hxs hys0 h
    simp only [List.foldl_nil, Option.some.injEq, Except.ok.injEq, Prod.mk.injEq] at h
    obtain ⟨h1, h2⟩ := h
    subst h1
    subst h2
    exact hys0
  | cons x xs ih =>
    intro s t ys0 ys hw hxs hys0 h
    rw [List.foldl_cons] at h
    cases hr : rec x s with
    | none =>
      simp only [elemStep, hr] at h
      rw [foldl_elemStep_none] at h
      cases h
    | some res =>
      cases res with
      | error e =>
        simp only [elemStep, hr] at h
        rw [foldl_elemStep_error] at h
        cases h
      | ok ys1 =>
        obtain ⟨y, s1⟩ := ys1
        obtain ⟨hev1, hw1, hy1⟩ := hrec x s y s1 hr hw (hxs x (List.mem_cons_self x xs))
        obtain ⟨hresY, _⟩ := hres x s y s1 hr hw (hxs x (List.mem_cons_self x xs))
        simp only [elemStep, hr] at h
        refine ih s1 t (ys0 ++ [y]) ys hw1
          (fun z hz => lt_of_lt_of_le (hxs z (List.mem_cons_of_mem x hz)) hev1.next_le)
          (fun z hz => ?_) h
        rcases List.mem_append.1 hz with hz | hz
        · obtain ⟨hz1, hz2⟩ := hys0 z hz
          exact ⟨ArrRes.mono hw hev1 z hz2 hz1, lt_of_lt_of_le hz2 hev1.next_le⟩
        · simp only [List.mem_singleton] at hz
          subst hz
          exact ⟨hresY, hy1⟩

/-- After a successful resolution the result node is fully resolved. -/
theorem resolveRefs_resolved : ∀ (fuel : Nat) (specA c : Addr) (st : St) (b : Addr)
    (st' : St), resolveRefs fuel c specA st = some (.ok (b, st')) → WfSt st →
    c < st.next → ArrRes st' b ∧ b < st'.next := by
  intro fuel
  induction fuel with
  | zero =>
    intro specA c st b st' h
    exact Option.noConfusion h
  | succ n ih =>
    intro specA c st b st' h hw hc
    have hrec : RecOk (fun x st2 => resolveRefs n x specA st2) := resolveRefs_recOk n specA
    have hres : ∀ c2 st2 b2 st2', resolveRefs n c2 specA st2 = some (.ok (b2, st2')) →
        WfSt st2 → c2 < st2.next → ArrRes st2' b2 ∧ b2 < st2'.next :=
      fun c2 st2 b2 st2' h2 hw2 hc2 => ih specA c2 st2 b2 st2' h2 hw2 hc2
    simp only [resolveRefs] at h
    cases hg : heapGet st c with
    | none =>
      simp only [hg] at h
      simp only [Option.some.injEq, Except.ok.injEq, Prod.mk.injEq] at h
      obtain ⟨rfl, rfl⟩ := h
      exact ⟨ArrRes.missing c hg, hc⟩
    | some v =>
      by_cases ht : truthyH v = false
      · simp only [hg] at h
        rw [if_pos ht] at h
        simp only [Option.some.injEq, Except.ok.injEq, Prod.mk.injEq] at h
        obtain ⟨rfl, rfl⟩ := h
        exact ⟨ArrRes.falsy c v hg ht, hc⟩
      · by_cases hcch : st.cache.contains c = true
        · simp only [hg] at h
          rw [if_neg ht, if_pos hcch] at h
          simp only [Option.some.injEq, Except.ok.injEq, Prod.mk.injEq] at h
          obtain ⟨rfl, rfl⟩ := h
          exact ⟨ArrRes.cached c v hg hcch, hc⟩
        · cases v with
          | null => exact absurd rfl ht
          | bool b2 =>
            simp only [hg, ite_self] at h
            simp only [Option.some.injEq, Except.ok.injEq, Prod.mk.injEq] at h
            obtain ⟨rfl, rfl⟩ := h
            exact ⟨ArrRes.scalar c (HVal.bool b2) hg rfl, hc⟩
          | num n2 =>
            simp only [hg, ite_self] at h
            simp only [Option.some.injEq, Except.ok.injEq, Prod.mk.injEq] at h
            obtain ⟨rfl, rfl⟩ := h
            exact ⟨ArrRes.scalar c (HVal.num n2) hg rfl, hc⟩
          | str s2 =>
            simp only [hg, ite_self] at h
            simp only [Option.some.injEq, Except.ok.injEq, Prod.mk.injEq] at h
            obtain ⟨rfl, rfl⟩ := h
            exact ⟨ArrRes.scalar c (HVal.str s2) hg rfl, hc⟩
          | arr xs =>
            simp only [hg] at h
            rw [if_neg (by simp [truthyH])] at h
            rw [if_neg hcch] at h
            cases hfold : xs.foldl (elemStep (fun x st2 => resolveRefs n x specA st2))
                (some (.ok ([], st))) with
            | none =>
              rw [hfold] at h
              cases h
            | some res =>
              cases res with
              | error e =>
                rw [hfold] at h
                cases h
              | ok ys1 =>
                obtain ⟨ys, s1⟩ := ys1
                rw [hfold] at h
                simp only [Option.some.injEq, Except.ok.injEq, Prod.mk.injEq] at h
                obtain ⟨rfl, rfl⟩ := h
                have hxs : ∀ x ∈ xs, x < st.next := fun x hx => arrRes_elem_lt hw hg hx
                obtain ⟨hev1, hw1, hys⟩ := elemFold_ok _ hrec xs st s1 [] ys hw hxs
                  (by simp) hfold
                have hresolved := elemFold_resolved _ hrec hres xs st s1 [] ys hw hxs
                  (by simp) hfold
                refine ⟨?_, Nat.lt_succ_self _⟩
                refine ArrRes.arr _ ys (heapGet_alloc_self hw1 _) ?_
                intro y hy
                obtain ⟨hy1, hy2⟩ := hresolved y hy
                exact ArrRes.mono hw1
                  (evolve_alloc_nonObj hw1 (fun fs hfs => by cases hfs)) y hy2 hy1
          | obj fs =>
            simp only [hg] at h
            rw [if_neg (by simp [truthyH])] at h
            rw [if_neg hcch] at h
            have hnc : st.cache.contains c = false := by
              cases hx : st.cache.contains c
              · rfl
              · exact absurd hx hcch
            cases hrv : refVal st fs with
            | refErr e =>
              simp only [hrv] at h
              cases h
            | noRef =>
              simp only [hrv] at h
              cases hfold : (fs.map (fun f => f.1)).foldl
                  (fieldStep (fun x st2 => resolveRefs n x specA st2) c)
                  (some (.ok { st with cache := c :: st.cache })) with
              | none =>
                rw [hfold] at h
                cases h
              | some res =>
                cases res with
                | error e =>
                  rw [hfold] at h
                  cases h
                | ok s2 =>
                  rw [hfold] at h
                  simp only [Option.some.injEq, Except.ok.injEq, Prod.mk.injEq] at h
                  obtain ⟨rfl, rfl⟩ := h
                  have hobj1 : heapGet { st with cache := c :: st.cache } c =
                      some (.obj fs) := hg
                  have hcached1 : ({ st with cache := c :: st.cache } : St).cache.contains c
                      = true := (contains_cons_iff _ _ _).2 (Or.inl rfl)
                  obtain ⟨hevAt, hw2, fs1, hfs1, hkeys1, hcch2⟩ :=
                    fieldFold_ok _ hrec (fs.map (fun f => f.1)) _ s2 c fs hobj1
                      hcached1 (wf_cachePush hw c hc) hfold
                  refine ⟨ArrRes.cached c (HVal.obj fs1) hfs1 hcch2, ?_⟩
                  exact lt_of_lt_of_le hc
                    (((evolve_cachePush st c).toAt c).transAt hevAt).next_le
            | refStr refStr =>
              simp only [hrv] at h
              cases hrr : resolveRef refStr st specA with
              | error e =>
                simp only [hrr] at h
                cases h
              | ok target =>
                simp only [hrr] at h
                have hsub : (alookup (removeField fs "$ref") "$ref").isSome = true →
                    (alookup fs "$ref").isSome = true := by
                  intro hi
                  refine (alookup_isSome_iff fs "$ref").2 ?_
                  exact mem_keys_removeField fs "$ref" "$ref"
                    ((alookup_isSome_iff _ _).1 hi)
                have hvals0 : ∀ bb ∈ (removeField fs "$ref").map (fun f => f.2),
                    bb < st.next := by
                  intro bb hbb
                  refine hw.closedVal (c, HVal.obj fs) (hfind_mem hg) bb ?_
                  simpa [addrsOf] using mem_values_removeField fs "$ref" bb hbb
                have hw1 : WfSt (heapSet st c (.obj (removeField fs "$ref"))) :=
                  wf_heapSet_obj hw hg hvals0
                obtain ⟨hev2, hw2, hn2, hbnds, hpres, hcch2⟩ :=
                  assignSrcFields_spec hw1 target
                have hvalsM : ∀ bb ∈ (objAssign
                    (assignSrcFields (heapSet st c (.obj (removeField fs "$ref"))) target).1
                    (removeField fs "$ref")).map (fun f => f.2), bb <
                    (assignSrcFields (heapSet st c (.obj (removeField fs "$ref"))) target).2.next := by
                  intro bb hbb
                  rcases mem_values_objAssign _ (removeField fs "$ref") bb hbb
                    with hbb2 | hbb2
                  · exact hbnds bb hbb2
                  · exact lt_of_lt_of_le (hvals0 bb hbb2) hn2
                have hw3 := wf_alloc_obj_cached hw2 hvalsM
                have hobjm : heapGet
                    { (allocSt (assignSrcFields (heapSet st c (HVal.obj (removeField fs "$ref"))) target).2
                        (HVal.obj (objAssign (assignSrcFields (heapSet st c (HVal.obj (removeField fs "$ref"))) target).1
                          (removeField fs "$ref")))).2 with
                      cache := (allocSt (assignSrcFields (heapSet st c (HVal.obj (removeField fs "$ref"))) target).2
                        (HVal.obj (objAssign (assignSrcFields (heapSet st c (HVal.obj (removeField fs "$ref"))) target).1
                          (removeField fs "$ref")))).1 ::
                        (allocSt (assignSrcFields (heapSet st c (HVal.obj (removeField fs "$ref"))) target).2
                          (HVal.obj (objAssign (assignSrcFields (heapSet st c (HVal.obj (removeField fs "$ref"))) target).1
                            (removeField fs "$ref")))).2.cache }
                    (allocSt (assignSrcFields (heapSet st c (HVal.obj (removeField fs "$ref"))) target).2
                      (HVal.obj (objAssign (assignSrcFields (heapSet st c (HVal.obj (removeField fs "$ref"))) target).1
                        (removeField fs "$ref")))).1 =
                    some (HVal.obj (objAssign (assignSrcFields (heapSet st c (HVal.obj (removeField fs "$ref"))) target).1
                      (removeField fs "$ref"))) :=
                  heapGet_alloc_self hw2 _
                cases hfold : ((objAssign
                    (assignSrcFields (heapSet st c (.obj (removeField fs "$ref"))) target).1
                    (removeField fs "$ref")).map (fun f => f.1)).foldl
                    (fieldStep (fun x st2 => resolveRefs n x specA st2)
                      (allocSt
                        (assignSrcFields (heapSet st c (.obj (removeField fs "$ref"))) target).2
                        (.obj (objAssign
                          (assignSrcFields (heapSet st c (.obj (removeField fs "$ref"))) target).1
                          (removeField fs "$ref")))).1)
                    (some (.ok
                      { (allocSt
                          (assignSrcFields (heapSet st c (.obj (removeField fs "$ref"))) target).2
                          (.obj (objAssign
                            (assignSrcFields (heapSet st c (.obj (removeField fs "$ref"))) target).1
                            (removeField fs "$ref")))).2 with
                        cache := (allocSt
                          (assignSrcFields (heapSet st c (.obj (removeField fs "$ref"))) target).2
                          (.obj (objAssign
                            (assignSrcFields (heapSet st c (.obj (removeField fs "$ref"))) target).1
                            (removeField fs "$ref")))).1 ::
                          (allocSt
                            (assignSrcFields (heapSet st c (.obj (removeField fs "$ref"))) target).2
                            (.obj (objAssign
                              (assignSrcFields (heapSet st c (.obj (removeField fs "$ref"))) target).1
                              (removeField fs "$ref")))).2.cache })) with
                | none =>
                  rw [hfold] at h
                  cases h
                | some res =>
                  cases res with
                  | error e =>
                    rw [hfold] at h
                    cases h
                  | ok s3 =>
                    rw [hfold] at h
                    simp only [Option.some.injEq, Except.ok.injEq, Prod.mk.injEq] at h
                    obtain ⟨rfl, rfl⟩ := h
                    obtain ⟨hevAt, hw4, fs4, hfs4, hkeys4, hcch4⟩ :=
                      fieldFold_ok _ hrec _ _ s3 _ _ hobjm
                        ((contains_cons_iff _ _ _).2 (Or.inl rfl)) hw3 hfold
                    refine ⟨ArrRes.cached _ (HVal.obj fs4) hfs4 hcch4, ?_⟩
                    exact lt_of_lt_of_le (Nat.lt_succ_self _) hevAt.next_le

/-! Fuel monotonicity: a successful run stays identical with more fuel. -/

theorem fieldFold_mono (rec1 rec2 : Addr → St → Option (Except JsErr (Addr × St)))
    (hsub : ∀ x st res, rec1 x st = some res → rec2 x st = some res)
    (a : Addr) (names : List String) :
    ∀ (s : St) (r : Except JsErr St),
      names.foldl (fieldStep rec1 a) (some (.ok s)) = some r →
      names.foldl (fieldStep rec2 a) (some (.ok s)) = some r := by
  induction names with
  | nil => intro s r h; exact h
  | cons name names ih =>
    intro s r h
    rw [List.foldl_cons] at h ⊢
    cases hga : heapGet s a with
    | none =>
      simp only [fieldStep, hga] at h ⊢
      exact ih s r h
    | some v =>
      cases v with
      | obj fs =>
        cases halk : alookup fs name with
        | none =>
          simp only [fieldStep, hga, halk] at h ⊢
          exact ih s r h
        | some child =>
          cases hr : rec1 child s with
          | none =>
            simp only [fieldStep, hga, halk, hr] at h
            rw [foldl_fieldStep_none] at h
            cases h
          | some res =>
            have hr2 := hsub child s res hr
            cases res with
            | error e =>
              simp only [fieldStep, hga, halk, hr] at h
              simp only [fieldStep, hga, halk, hr2]
              rw [foldl_fieldStep_error] at h ⊢
              exact h
            | ok cs1 =>
              obtain ⟨c, s1⟩ := cs1
              simp only [fieldStep, hga, halk, hr] at h
              simp only [fieldStep, hga, halk, hr2]
              cases hg1 : heapGet s1 a with
              | none =>
                rw [hg1] at h
                exact ih s1 r h
              | some w =>
                cases w with
                | obj fs1 =>
                  rw [hg1] at h
                  exact ih _ r h
                | null =>
                  rw [hg1] at h
                  exact ih s1 r h
                | bool b2 =>
                  rw [hg1] at h
                  exact ih s1 r h
                | num n2 =>
                  rw [hg1] at h
                  exact ih s1 r h
                | str t2 =>
                  rw [hg1] at h
                  exact ih s1 r h
                | arr xs2 =>
                  rw [hg1] at h
                  exact ih s1 r h
      | null =>
        simp only [fieldStep, hga] at h ⊢
        exact ih s r h
      | bool b2 =>
        simp only [fieldStep, hga] at h ⊢
        exact ih s r h
      | num n2 =>
        simp only [fieldStep, hga] at h ⊢
        exact ih s r h
      | str t2 =>
        simp only [fieldStep, hga] at h ⊢
        exact ih s r h
      | arr xs2 =>
        simp only [fieldStep, hga] at h ⊢
        exact ih s r h

theorem elemFold_mono (rec1 rec2 : Addr → St → Option (Except JsErr (Addr × St)))
    (hsub : ∀ x st res, rec1 x st = some res → rec2 x st = some res)
    (xs : List Addr) :
    ∀ (s : St) (ys0 : List Addr) (r : Except JsErr (List Addr × St)),
      xs.foldl (elemStep rec1) (some (.ok (ys0, s))) = some r →
      xs.foldl (elemStep rec2) (some (.ok (ys0, s))) = some r := by
  induction xs with
  | nil => intro s ys0 r h; exact h
  | cons x xs ih =>
    intro s ys0 r h
    rw [List.foldl_cons] at h ⊢
    cases hr : rec1 x s with
    | none =>
      simp only [elemStep, hr] at h
      rw [foldl_elemStep_none] at h
      cases h
    | some res =>
      have hr2 := hsub x s res hr
      cases res with
      | error e =>
        simp only [elemStep, hr] at h
        simp only [elemStep, hr2]
        rw [foldl_elemStep_error] at h ⊢
        exact h
      | ok ys1 =>
        obtain ⟨y, s1⟩ := ys1
        simp only [elemStep, hr] at h
        simp only [elemStep, hr2]
        exact ih s1 (ys0 ++ [y]) r h

/-- More fuel cannot change a successful result. -/
theorem resolveRefs_mono : ∀ (n m : Nat), n ≤ m →
    ∀ (a specA : Addr) (s : St) (r : Except JsErr (Addr × St)),
      resolveRefs n a specA s = some r → resolveRefs m a specA s = some r := by
  intro n
  induction n with
  | zero =>
    intro m _ a specA s r h
    exact Option.noConfusion h
  | succ n ih =>
    intro m hnm a specA s r h
    cases m with
    | zero => exact absurd hnm (by omega)
    | succ m' =>
      have hnm' : n ≤ m' := Nat.le_of_succ_le_succ hnm
      have hsub : ∀ x st res, resolveRefs n x specA st = some res →
          resolveRefs m' x specA st = some res :=
        fun x st res hx => ih m' hnm' x specA st res hx
      simp only [resolveRefs] at h ⊢
      cases hg : heapGet s a with
      | none =>
        simp only [hg] at h ⊢
        exact h
      | some v =>
        cases v with
        | null =>
          simp only [hg] at h ⊢
          exact h
        | bool b2 =>
          simp only [hg] at h ⊢
          exact h
        | num n2 =>
          simp only [hg] at h ⊢
          exact h
        | str t2 =>
          simp only [hg] at h ⊢
          exact h
        | arr xs =>
          simp only [hg] at h ⊢
          by_cases ht : truthyH (HVal.arr xs) = false
          · rw [if_pos ht] at h ⊢
            exact h
          · rw [if_neg ht] at h ⊢
            by_cases hcch : s.cache.contains a = true
            · rw [if_pos hcch] at h ⊢
              exact h
            · rw [if_neg hcch] at h ⊢
              cases hfold : xs.foldl (elemStep (fun x st2 => resolveRefs n x specA st2))
                  (some (.ok ([], s))) with
              | none =>
                rw [hfold] at h
                cases h
              | some res =>
                rw [hfold] at h
                rw [elemFold_mono _ _ hsub xs s [] res hfold]
                exact h
        | obj fs =>
          simp only [hg] at h ⊢
          by_cases ht : truthyH (HVal.obj fs) = false
          · rw [if_pos ht] at h ⊢
            exact h
          · rw [if_neg ht] at h ⊢
            by_cases hcch : s.cache.contains a = true
            · rw [if_pos hcch] at h ⊢
              exact h
            · rw [if_neg hcch] at h ⊢
              cases hrv : refVal s fs with
              | refErr e =>
                simp only [hrv] at h ⊢
                exact h
              | noRef =>
                simp only [hrv] at h ⊢
                cases hfold : (fs.map (fun f => f.1)).foldl
                    (fieldStep (fun x st2 => resolveRefs n x specA st2) a)
                    (some (.ok { s with cache := a :: s.cache })) with
                | none =>
                  rw [hfold] at h
                  cases h
                | some res =>
                  rw [hfold] at h
                  rw [fieldFold_mono _ _ hsub a _ _ res hfold]
                  exact h
              | refStr refStr =>
                simp only [hrv] at h ⊢
                cases hrr : resolveRef refStr s specA with
                | error e =>
                  simp only [hrr] at h ⊢
                  exact h
                | ok target =>
                  simp only [hrr] at h ⊢
                  cases hfold : ((objAssign
                      (assignSrcFields (heapSet s a (.obj (removeField fs "$ref"))) target).1
                      (removeField fs "$ref")).map (fun f => f.1)).foldl
                      (fieldStep (fun x st2 => resolveRefs n x specA st2)
                        (allocSt
                          (assignSrcFields (heapSet s a (.obj (removeField fs "$ref"))) target).2
                          (.obj (objAssign
                            (assignSrcFields (heapSet s a (.obj (removeField fs "$ref"))) target).1
                            (removeField fs "$ref")))).1)
                      (some (.ok
                        { (allocSt
                            (assignSrcFields (heapSet s a (.obj (removeField fs "$ref"))) target).2
                            (.obj (objAssign
                              (assignSrcFields (heapSet s a (.obj (removeField fs "$ref"))) target).1
                              (removeField fs "$ref")))).2 with
                          cache := (allocSt
                            (assignSrcFields (heapSet s a (.obj (removeField fs "$ref"))) target).2
                            (.obj (objAssign
                              (assignSrcFields (heapSet s a (.obj (removeField fs "$ref"))) target).1
                              (removeField fs "$ref")))).1 ::
                            (allocSt
                              (assignSrcFields (heapSet s a (.obj (removeField fs "$ref"))) target).2
                              (.obj (objAssign
                                (assignSrcFields (heapSet s a (.obj (removeField fs "$ref"))) target).1
                                (removeField fs "$ref")))).2.cache })) with
                  | none =>
                    rw [hfold] at h
                    cases h
                  | some res =>
                    rw [hfold] at h
                    rw [fieldFold_mono _ _ hsub _ _ _ res hfold]
                    exact h

/-- Structural identity between a node of state s and a node of state t: the
same address, or arrays whose elements are pointwise structurally identical
(a second resolution maps an array into a fresh but identical array). -/
inductive Shape (s : St) : St → Addr → Addr → Prop where
  | same (t : St) (a : Addr) : Shape s t a a
  | arr (t : St) (a b : Addr) (xs ys : List Addr)
      (hx : heapGet s a = some (.arr xs)) (hy : heapGet t b = some (.arr ys))
      (hlen : xs.length = ys.length)
      (helem : ∀ i (h1 : i < xs.length) (h2 : i < ys.length),
        Shape s t (xs.get ⟨i, h1⟩) (ys.get ⟨i, h2⟩)) : Shape s t a b

/-- Shape is stable when the result state evolves further (arrays are
immutable). -/
theorem Shape.targetMono {s t t' : St}
    (hkeep : ∀ x xs, heapGet t x = some (.arr xs) → heapGet t' x = some (.arr xs)) :
    ∀ a b, Shape s t a b → Shape s t' a b := by
  intro a b h
  induction h with
  | same a => exact Shape.same t' a
  | arr a b xs ys hx hy hlen helem ih =>
    exact Shape.arr t' a b xs ys hx (hkeep b ys hy) hlen ih

/-- Shape transports to an earlier source state that agrees on the live
heap. -/
theorem Shape.srcTransport {s s2 t : St} (hw : WfSt s)
    (hagree : ∀ z, z < s.next → heapGet s2 z = heapGet s z) :
    ∀ a b, a < s.next → Shape s2 t a b → Shape s t a b := by
  intro a b ha h
  induction h with
  | same a => exact Shape.same t a
  | arr a b xs ys hx hy hlen helem ih =>
    have hx' : heapGet s a = some (.arr xs) := by
      rw [← hagree a ha]
      exact hx
    refine Shape.arr t a b xs ys hx' hy hlen ?_
    intro i h1 h2
    refine ih i h1 h2 ?_
    refine hw.closedVal (a, HVal.arr xs) (hfind_mem hx') _ ?_
    simpa [addrsOf] using List.get_mem xs i h1

/-- The array fold of a second pass: every element is already resolved, so
the fold succeeds, changes no live cell, and yields structurally identical
elements. -/
theorem elemFold_second (specA A : Addr)
    (IH : ∀ x, x < A → ∀ s, WfSt s → ArrRes s x →
      ∃ n b s', resolveRefs n x specA s = some (.ok (b, s')) ∧
        s'.cache = s.cache ∧
        (∀ z, z < s.next → heapGet s' z = heapGet s z) ∧
        Evolve s s' ∧ WfSt s' ∧ Shape s s' x b) :
    ∀ (xs : List Addr) (s : St) (ys0 : List Addr),
      WfSt s →
      (∀ x ∈ xs, x < A ∧ ArrRes s x ∧ x < s.next) →
      ∃ n ys s', xs.foldl (elemStep (fun x st => resolveRefs n x specA st))
          (some (.ok (ys0, s))) = some (.ok (ys0 ++ ys, s')) ∧
        s'.cache = s.cache ∧
        (∀ z, z < s.next → heapGet s' z = heapGet s z) ∧
        Evolve s s' ∧ WfSt s' ∧
        (∀ y ∈ ys, y < s'.next) ∧
        xs.length = ys.length ∧
        (∀ i (h1 : i < xs.length) (h2 : i < ys.length),
          Shape s s' (xs.get ⟨i, h1⟩) (ys.get ⟨i, h2⟩)) := by
  intro xs
  induction xs with
  | nil =>
    intro s ys0 hw hxs
    refine ⟨1, [], s, ?_, rfl, fun z _ => rfl, Evolve.refl s, hw, by simp, rfl, ?_⟩
    · simp
    · intro i h1 h2
      cases h1
  | cons x xs ih =>
    intro s ys0 hw hxs
    obtain ⟨hxA, hxres, hxlt⟩ := hxs x (List.mem_cons_self x xs)
    obtain ⟨n1, b1, s1, hrun1, hcache1, hpres1, hev1, hw1, hshape1⟩ :=
      IH x hxA s hw hxres
    have hb1 : b1 < s1.next :=
      (resolveRefs_recOk n1 specA x s b1 s1 hrun1 hw hxlt).2.2
    obtain ⟨n2, ys2, s2, hrun2, hcache2, hpres2, hev2, hw2, hys2, hlen2, hshape2⟩ :=
      ih s1 (ys0 ++ [b1]) hw1 (fun z hz => by
        obtain ⟨hz1, hz2, hz3⟩ := hxs z (List.mem_cons_of_mem x hz)
        exact ⟨hz1, ArrRes.mono hw hev1 z hz3 hz2, lt_of_lt_of_le hz3 hev1.next_le⟩)
    have hn1 : n1 ≤ max n1 n2 := le_max_left _ _
    have hn2 : n2 ≤ max n1 n2 := le_max_right _ _
    refine ⟨max n1 n2, b1 :: ys2, s2, ?_, hcache2.trans hcache1, ?_,
      Evolve.trans hev1 hev2, hw2, ?_, by simp [hlen2], ?_⟩
    · rw [List.foldl_cons]
      have hrun1' : resolveRefs (max n1 n2) x specA s = some (.ok (b1, s1)) :=
        resolveRefs_mono n1 (max n1 n2) hn1 x specA s _ hrun1
      simp only [elemStep, hrun1']
      have hrun2' := elemFold_mono (fun x2 st => resolveRefs n2 x2 specA st)
        (fun x2 st => resolveRefs (max n1 n2) x2 specA st)
        (fun x2 st res hx2 => resolveRefs_mono n2 (max n1 n2) hn2 x2 specA st res hx2)
        xs s1 (ys0 ++ [b1]) _ hrun2
      rw [hrun2']
      rw [List.append_cons ys0 b1 ys2]
    · intro z hz
      rw [hpres2 z (lt_of_lt_of_le hz hev1.next_le)]
      exact hpres1 z hz
    · intro y hy
      rcases List.mem_cons.1 hy with rfl | hy
      · exact lt_of_lt_of_le hb1 hev2.next_le
      · exact hys2 y hy
    · intro i h1 h2
      cases i with
      | zero =>
        simp only [List.get]
        refine Shape.targetMono (fun z zs hz => hev2.keep_arr z zs hz) x b1 hshape1
      | succ i =>
        simp only [List.get]
        have h1' : i < xs.length := by simpa using h1
        have h2' : i < ys2.length := by simpa using h2
        refine Shape.srcTransport hw hpres1 _ _ ?_ (hshape2 i h1' h2')
        obtain ⟨_, _, hz3⟩ := hxs (xs.get ⟨i, h1'⟩)
          (List.mem_cons_of_mem x (List.get_mem xs i h1'))
        exact hz3

/-- Second resolution of a fully resolved node: it succeeds, leaves the memo
set and every live cell unchanged (it can only allocate fresh arrays), and
returns a structurally identical node. -/
theorem resolveRefs_second (specA : Addr) :
    ∀ (A : Addr) (s : St), WfSt s → ArrRes s A →
      ∃ n b s', resolveRefs n A specA s = some (.ok (b, s')) ∧
        s'.cache = s.cache ∧
        (∀ z, z < s.next → heapGet s' z = heapGet s z) ∧
        Evolve s s' ∧ WfSt s' ∧ Shape s s' A b := by
  intro A
  induction A using Nat.strong_induction_on with
  | _ A IH =>
    intro s hw hres
    cases hres with
    | missing _ hg =>
      refine ⟨1, A, s, ?_, rfl, fun z _ => rfl, Evolve.refl s, hw, Shape.same s A⟩
      simp [resolveRefs, hg]
    | falsy _ v hg hf =>
      refine ⟨1, A, s, ?_, rfl, fun z _ => rfl, Evolve.refl s, hw, Shape.same s A⟩
      simp only [resolveRefs, hg]
      rw [if_pos hf]
    | scalar _ v hg hs =>
      refine ⟨1, A, s, ?_, rfl, fun z _ => rfl, Evolve.refl s, hw, Shape.same s A⟩
      cases v with
      | arr xs => cases hs
      | obj fs => cases hs
      | null => simp [resolveRefs, hg, ite_self]
      | bool b2 => simp [resolveRefs, hg, ite_self]
      | num n2 => simp [resolveRefs, hg, ite_self]
      | str t2 => simp [resolveRefs, hg, ite_self]
    | cached _ v hg hcch =>
      refine ⟨1, A, s, ?_, rfl, fun z _ => rfl, Evolve.refl s, hw, Shape.same s A⟩
      simp only [resolveRefs, hg, hcch]
      by_cases hf : truthyH v = false
      · rw [if_pos hf]
      · rw [if_neg hf]
        simp
    | arr _ xs hg hxs =>
      by_cases hcch : s.cache.contains A = true
      · refine ⟨1, A, s, ?_, rfl, fun z _ => rfl, Evolve.refl s, hw, Shape.same s A⟩
        simp only [resolveRefs, hg, hcch]
        rw [if_neg (by simp [truthyH])]
        simp
      · have hxlt : ∀ x ∈ xs, x < s.next := fun x hx => arrRes_elem_lt hw hg hx
        have hxA : ∀ x ∈ xs, x < A := by
          intro x hx
          exact hw.arrDown (A, HVal.arr xs) (hfind_mem hg) xs rfl x hx
        obtain ⟨n0, ys, s1, hfold, hcache1, hpres1, hev1, hw1, hys, hlen, hshapes⟩ :=
          elemFold_second specA A IH xs s [] hw
            (fun x hx => ⟨hxA x hx, hxs x hx, hxlt x hx⟩)
        refine ⟨n0 + 1, (allocSt s1 (.arr ys)).1, (allocSt s1 (.arr ys)).2, ?_,
          hcache1, ?_, ?_, ?_, ?_⟩
        · simp only [resolveRefs, hg]
          rw [if_neg (by simp [truthyH]), if_neg hcch]
          simp only [List.nil_append] at hfold
          rw [hfold]
        · intro z hz
          have hz1 : z < s1.next := lt_of_lt_of_le hz hev1.next_le
          rw [← hpres1 z hz]
          cases hg2 : heapGet s1 z with
          | none =>
            refine heapGet_alloc_of_none_ne s1 _ z hg2 (fun hc => ?_)
            subst hc
            exact lt_irrefl _ hz1
          | some w => exact heapGet_alloc_of_some s1 _ w z hg2
        · exact Evolve.trans hev1 (evolve_alloc_nonObj hw1 (fun fs hfs => by cases hfs))
        · exact wf_alloc hw1 (by simpa [addrsOf] using hys)
        · refine Shape.arr _ A _ xs ys hg (heapGet_alloc_self hw1 _) hlen ?_
          intro i h1 h2
          refine Shape.targetMono (fun z zs hz =>
            (evolve_alloc_nonObj hw1 (fun fs hfs => by cases hfs)).keep_arr z zs hz)
            _ _ (hshapes i h1 h2)

/-- C3: resolveRefs is idempotent: a second application to the result of a
first application leaves the memo set and every existing node unchanged (it
can only allocate fresh array cells) and returns a structurally identical
node (the same address except for arrays, which map to fresh arrays of
structurally identical elements). -/
theorem resolveRefs_idempotent (fuel : Nat) (specA a : Addr) (s : St) (b : Addr)
    (s' : St) (hw : WfSt s) (ha : a < s.next)
    (h : resolveRefs fuel a specA s = some (.ok (b, s'))) :
    ∃ n b2 s2, resolveRefs n b specA s' = some (.ok (b2, s2)) ∧
      s2.cache = s'.cache ∧
      (∀ x, x < s'.next → heapGet s2 x = heapGet s' x) ∧
      Shape s' s2 b b2 := by
  obtain ⟨hev, hw', hb⟩ := resolveRefs_recOk fuel specA a s b s' h hw ha
  obtain ⟨hres, _⟩ := resolveRefs_resolved fuel specA a s b s' h hw ha
  obtain ⟨n, b2, s2, hrun, hcache, hpres, hev2, hw2, hshape⟩ :=
    resolveRefs_second specA b s' hw' hres
  exact ⟨n, b2, s2, hrun, hcache, hpres, hshape⟩

/-- Witness for C3: the resolved merge example resolves a second time with
no change to the memo set or any existing node, and an identical structure. -/
theorem resolveRefs_idempotent_witness :
    ∃ n b2 s2, resolveRefs n 8 0 mergeStOut = some (.ok (b2, s2)) ∧
      s2.cache = mergeStOut.cache ∧
      (∀ x, x < mergeStOut.next → heapGet s2 x = heapGet mergeStOut x) ∧
      Shape mergeStOut s2 8 b2 :=
  resolveRefs_idempotent 10 0 5 mergeSt 8 mergeStOut
    (wfSt_mk mergeSt (by decide) (by decide) (by decide) (by decide) (by decide))
    (by decide) rfl

/-- The for-in fold of a second kind of caller: whenever every recursive call
on a live child of a state satisfying P returns within some fuel, the whole
field fold does. -/
theorem fieldFold_total (specA : Addr) (P : St → Prop)
    (step : ∀ (st : St) (x : Addr), WfSt st → x < st.next → P st →
      ∃ n r2, resolveRefs n x specA st = some r2)
    (Pmono : ∀ st st2 : St, mW st2 ≤ mW st → P st → P st2) :
    ∀ (names : List String) (b : Addr) (s : St) (fs0 : List (String × Addr)),
      heapGet s b = some (.obj fs0) → s.cache.contains b = true → WfSt s → P s →
      ∃ n r2, names.foldl (fieldStep (fun c st => resolveRefs n c specA st) b)
        (some (.ok s)) = some r2 := by
  intro names
  induction names with
  | nil =>
    intro b s fs0 hobj hcached hw hP
    exact ⟨1, .ok s, rfl⟩
  | cons name names ih =>
    intro b s fs0 hobj hcached hw hP
    cases halk : alookup fs0 name with
    | none =>
      obtain ⟨n, r2, hfold⟩ := ih b s fs0 hobj hcached hw hP
      refine ⟨n, r2, ?_⟩
      rw [List.foldl_cons]
      have hstep : fieldStep (fun c st => resolveRefs n c specA st) b
          (some (.ok s)) name = some (.ok s) := by
        simp only [fieldStep, hobj, halk]
      rw [hstep]
      exact hfold
    | some child =>
      have hchild : child < s.next := by
        refine hw.closedVal (b, HVal.obj fs0) (hfind_mem hobj) child ?_
        simpa [addrsOf] using alookup_mem_values fs0 name child halk
      obtain ⟨n1, r1, hr1⟩ := step s child hw hchild hP
      cases r1 with
      | error e =>
        refine ⟨n1, .error e, ?_⟩
        rw [List.foldl_cons]
        have hstep : fieldStep (fun c st => resolveRefs n1 c specA st) b
            (some (.ok s)) name = some (.error e) := by
          simp only [fieldStep, hobj, halk, hr1]
        rw [hstep]
        exact foldl_fieldStep_error _ b names e
      | ok cs1 =>
        obtain ⟨c, s1⟩ := cs1
        obtain ⟨hev1, hw1, hc1⟩ :=
          resolveRefs_recOk n1 specA child s c s1 hr1 hw hchild
        have hget1 : heapGet s1 b = some (.obj fs0) := by
          rw [hev1.frozen b hcached]
          exact hobj
        have hcached1 : s1.cache.contains b = true := hev1.cache_sub b hcached
        have hw2 : WfSt (heapSet s1 b (.obj (upsertA fs0 name c))) := by
          refine wf_heapSet_obj hw1 hget1 ?_
          intro bb hbb
          rcases mem_values_upsertA fs0 name c bb hbb with hb2 | hb2
          · have hbs : bb < s.next := by
              refine hw.closedVal (b, HVal.obj fs0) (hfind_mem hobj) bb ?_
              simpa [addrsOf] using hb2
            exact lt_of_lt_of_le hbs hev1.next_le
          · rw [hb2]
            exact hc1
        have hobj2 : heapGet (heapSet s1 b (.obj (upsertA fs0 name c))) b =
            some (.obj (upsertA fs0 name c)) := heapGet_heapSet_self s1 b _
        have hcached2 : (heapSet s1 b (.obj (upsertA fs0 name c))).cache.contains b
            = true := hcached1
        have hP2 : P (heapSet s1 b (.obj (upsertA fs0 name c))) := by
          refine Pmono s _ ?_ hP
          exact le_trans (mW_heapSet_cached_le hget1 hcached1) hev1.w_le
        obtain ⟨n2, r2, hfold2⟩ := ih b _ (upsertA fs0 name c) hobj2 hcached2 hw2 hP2
        refine ⟨max n1 n2, r2, ?_⟩
        rw [List.foldl_cons]
        have hr1m : resolveRefs (max n1 n2) child specA s = some (.ok (c, s1)) :=
          resolveRefs_mono n1 (max n1 n2) (le_max_left _ _) child specA s _ hr1
        have hstep : fieldStep (fun c2 st => resolveRefs (max n1 n2) c2 specA st) b
            (some (.ok s)) name =
            some (.ok (heapSet s1 b (.obj (upsertA fs0 name c)))) := by
          simp only [fieldStep, hobj, halk, hr1m, hget1]
        rw [hstep]
        exact fieldFold_mono _ _
          (fun x st res hx =>
            resolveRefs_mono n2 (max n1 n2) (le_max_right _ _) x specA st res hx)
          b names _ r2 hfold2

/-- The array-map fold: whenever every recursive call on a live element of a
state satisfying P returns within some fuel, the whole element fold does. -/
theorem elemFold_total (specA : Addr) (P : St → Addr → Prop)
    (step : ∀ (st : St) (x : Addr), WfSt st → x < st.next → P st x →
      ∃ n r2, resolveRefs n x specA st = some r2)
    (Pmono : ∀ (st st2 : St) (x : Addr), mW st2 ≤ mW st → P st x → P st2 x) :
    ∀ (xs : List Addr) (s : St) (ys0 : List Addr), WfSt s →
      (∀ x ∈ xs, x < s.next ∧ P s x) →
      ∃ n r2, xs.foldl (elemStep (fun c st => resolveRefs n c specA st))
        (some (.ok (ys0, s))) = some r2 := by
  intro xs
  induction xs with
  | nil =>
    intro s ys0 hw hxs
    exact ⟨1, .ok (ys0, s), rfl⟩
  | cons x xs ih =>
    intro s ys0 hw hxs
    obtain ⟨hxlt, hxP⟩ := hxs x (List.mem_cons_self x xs)
    obtain ⟨n1, r1, hr1⟩ := step s x hw hxlt hxP
    cases r1 with
    | error e =>
      refine ⟨n1, .error e, ?_⟩
      rw [List.foldl_cons]
      have hstep : elemStep (fun c st => resolveRefs n1 c specA st)
          (some (.ok (ys0, s))) x = some (.error e) := by
        simp only [elemStep, hr1]
      rw [hstep]
      exact foldl_elemStep_error _ xs e
    | ok ys1 =>
      obtain ⟨y, s1⟩ := ys1
      obtain ⟨hev1, hw1, hy1⟩ := resolveRefs_recOk n1 specA x s y s1 hr1 hw hxlt
      obtain ⟨n2, r2, hfold2⟩ := ih s1 (ys0 ++ [y]) hw1 (fun z hz => by
        obtain ⟨hz1, hz2⟩ := hxs z (List.mem_cons_of_mem x hz)
        exact ⟨lt_of_lt_of_le hz1 hev1.next_le, Pmono s s1 z hev1.w_le hz2⟩)
      refine ⟨max n1 n2, r2, ?_⟩
      rw [List.foldl_cons]
      have hr1m : resolveRefs (max n1 n2) x specA s = some (.ok (y, s1)) :=
        resolveRefs_mono n1 (max n1 n2) (le_max_left _ _) x specA s _ hr1
      have hstep : elemStep (fun c st => resolveRefs (max n1 n2) c specA st)
          (some (.ok (ys0, s))) x = some (.ok (ys0 ++ [y], s1)) := by
        simp only [elemStep, hr1m]
      rw [hstep]
      exact elemFold_mono _ _
        (fun x2 st res hx2 =>
          resolveRefs_mono n2 (max n1 n2) (le_max_right _ _) x2 specA st res hx2)
        xs s1 (ys0 ++ [y]) r2 hfold2

/-- Totality of the resolver, by strong induction on the lexicographic pair
of the measure mW and the node address: memoizing an object and deleting a
reference field each strictly decrease mW, and array elements sit at strictly
smaller addresses with mW unchanged. -/
theorem resolveRefs_total_aux (specA : Addr) :
    ∀ (W A : Nat) (s : St) (a : Addr), WfSt s → a < s.next → mW s = W → a = A →
      ∃ n res, resolveRefs n a specA s = some res := by
  intro W
  induction W using Nat.strong_induction_on with
  | _ W IHW =>
    intro A
    induction A using Nat.strong_induction_on with
    | _ A IHA =>
      intro s a hw ha hWeq hAeq
      subst hWeq
      subst hAeq
      have step1 : ∀ (st : St) (x : Addr), WfSt st → x < st.next →
          mW st < mW s → ∃ n res, resolveRefs n x specA st = some res := by
        intro st x hwst hxst hlt
        exact IHW (mW st) hlt x st x hwst hxst rfl rfl
      have step2 : ∀ (st : St) (x : Addr), WfSt st → x < st.next →
          mW st ≤ mW s → x < a → ∃ n res, resolveRefs n x specA st = some res := by
        intro st x hwst hxst hle hxa
        rcases lt_or_eq_of_le hle with hlt | heq2
        · exact step1 st x hwst hxst hlt
        · exact IHA x hxa st x hwst hxst heq2 rfl
      cases hgv : heapGet s a with
      | none => exact ⟨1, .ok (a, s), by simp [resolveRefs, hgv]⟩
      | some v =>
        cases v with
        | null => exact ⟨1, .ok (a, s), by simp [resolveRefs, hgv, ite_self]⟩
        | bool b2 => exact ⟨1, .ok (a, s), by simp [resolveRefs, hgv, ite_self]⟩
        | num n2 => exact ⟨1, .ok (a, s), by simp [resolveRefs, hgv, ite_self]⟩
        | str t2 => exact ⟨1, .ok (a, s), by simp [resolveRefs, hgv, ite_self]⟩
        | arr xs =>
          by_cases hcch : s.cache.contains a = true
          · refine ⟨1, .ok (a, s), ?_⟩
            simp only [resolveRefs, hgv, hcch]
            rw [if_neg (by simp [truthyH])]
            simp
          · have hxlt : ∀ x ∈ xs, x < s.next := by
              intro x hx
              exact hw.closedVal (a, HVal.arr xs) (hfind_mem hgv) x
                (by simpa [addrsOf] using hx)
            have hxA : ∀ x ∈ xs, x < a := by
              intro x hx
              exact hw.arrDown (a, HVal.arr xs) (hfind_mem hgv) xs rfl x hx
            obtain ⟨n0, r2, hfold⟩ := elemFold_total specA
              (fun st x => mW st ≤ mW s ∧ x < a)
              (fun st x hwst hxst hP => step2 st x hwst hxst hP.1 hP.2)
              (fun st st2 x hle hP => ⟨le_trans hle hP.1, hP.2⟩)
              xs s [] hw (fun x hx => ⟨hxlt x hx, le_refl _, hxA x hx⟩)
            cases r2 with
            | error e =>
              refine ⟨n0 + 1, .error e, ?_⟩
              simp only [resolveRefs, hgv]
              rw [if_neg (by simp [truthyH]), if_neg hcch, hfold]
            | ok ys1 =>
              obtain ⟨ys, s1⟩ := ys1
              refine ⟨n0 + 1,
                .ok ((allocSt s1 (.arr ys)).1, (allocSt s1 (.arr ys)).2), ?_⟩
              simp only [resolveRefs, hgv]
              rw [if_neg (by simp [truthyH]), if_neg hcch, hfold]
        | obj fs =>
          by_cases hcch : s.cache.contains a = true
          · refine ⟨1, .ok (a, s), ?_⟩
            simp only [resolveRefs, hgv, hcch]
            rw [if_neg (by simp [truthyH])]
            simp
          · have hnc : s.cache.contains a = false := by
              cases hx : s.cache.contains a
              · rfl
              · exact absurd hx hcch
            cases hrv : refVal s fs with
            | refErr e =>
              refine ⟨1, .error e, ?_⟩
              simp only [resolveRefs, hgv]
              rw [if_neg (by simp [truthyH]), if_neg hcch]
              simp only [hrv]
            | noRef =>
              have hw1 : WfSt { s with cache := a :: s.cache } := wf_cachePush hw a ha
              have hlt1 : mW { s with cache := a :: s.cache } < mW s :=
                mW_cachePush_lt hgv hnc
              have hobj1 : heapGet { s with cache := a :: s.cache } a =
                  some (.obj fs) := hgv
              have hcached1 : ({ s with cache := a :: s.cache } : St).cache.contains a
                  = true := (contains_cons_iff _ _ _).2 (Or.inl rfl)
              obtain ⟨n0, r2, hfold⟩ := fieldFold_total specA (fun st => mW st < mW s)
                (fun st x hwst hxst hPst => step1 st x hwst hxst hPst)
                (fun st st2 hle hPst => lt_of_le_of_lt hle hPst)
                (fs.map (fun f => f.1)) a { s with cache := a :: s.cache } fs
                hobj1 hcached1 hw1 hlt1
              cases r2 with
              | error e =>
                refine ⟨n0 + 1, .error e, ?_⟩
                simp only [resolveRefs, hgv]
                rw [if_neg (by simp [truthyH]), if_neg hcch]
                simp only [hrv]
                rw [hfold]
              | ok s2 =>
                refine ⟨n0 + 1, .ok (a, s2), ?_⟩
                simp only [resolveRefs, hgv]
                rw [if_neg (by simp [truthyH]), if_neg hcch]
                simp only [hrv]
                rw [hfold]
            | refStr refStr =>
              cases hrr : resolveRef refStr s specA with
              | error e =>
                refine ⟨1, .error e, ?_⟩
                simp only [resolveRefs, hgv]
                rw [if_neg (by simp [truthyH]), if_neg hcch]
                simp only [hrv, hrr]
              | ok target =>
                have href : (alookup fs "$ref").isSome = true := by
                  cases halk : alookup fs "$ref" with
                  | none =>
                    simp only [refVal, halk] at hrv
                    cases hrv
                  | some rr => rfl
                have hvals0 : ∀ bb ∈ (removeField fs "$ref").map (fun f => f.2),
                    bb < s.next := by
                  intro bb hbb
                  refine hw.closedVal (a, HVal.obj fs) (hfind_mem hgv) bb ?_
                  simpa [addrsOf] using mem_values_removeField fs "$ref" bb hbb
                have hw1 : WfSt (heapSet s a (.obj (removeField fs "$ref"))) :=
                  wf_heapSet_obj hw hgv hvals0
                have hlt1 : mW (heapSet s a (.obj (removeField fs "$ref"))) < mW s :=
                  mW_heapSet_refDelete_lt hgv hnc href
                obtain ⟨hev2, hw2, hn2, hbnds, hpres, hcch2⟩ :=
                  assignSrcFields_spec hw1 target
                have hvalsM : ∀ bb ∈ (objAssign
                    (assignSrcFields (heapSet s a (.obj (removeField fs "$ref"))) target).1
                    (removeField fs "$ref")).map (fun f => f.2), bb <
                    (assignSrcFields (heapSet s a (.obj (removeField fs "$ref"))) target).2.next := by
                  intro bb hbb
                  rcases mem_values_objAssign _ (removeField fs "$ref") bb hbb
                    with hbb2 | hbb2
                  · exact hbnds bb hbb2
                  · exact lt_of_lt_of_le (hvals0 bb hbb2) hn2
                have hev3 := evolve_alloc_obj_cached hw2 (objAssign
                  (assignSrcFields (heapSet s a (.obj (removeField fs "$ref"))) target).1
                  (removeField fs "$ref"))
                have hw3 := wf_alloc_obj_cached hw2 hvalsM
                have hobjm : heapGet
                    { (allocSt (assignSrcFields (heapSet s a (HVal.obj (removeField fs "$ref"))) target).2 (HVal.obj (objAssign (assignSrcFields (heapSet s a (HVal.obj (removeField fs "$ref"))) target).1 (removeField fs "$ref")))).2 with cache := (allocSt (assignSrcFields (heapSet s a (HVal.obj (removeField fs "$ref"))) target).2 (HVal.obj (objAssign (assignSrcFields (heapSet s a (HVal.obj (removeField fs "$ref"))) target).1 (removeField fs "$ref")))).1 :: (allocSt (assignSrcFields (heapSet s a (HVal.obj (removeField fs "$ref"))) target).2 (HVal.obj (objAssign (assignSrcFields (heapSet s a (HVal.obj (removeField fs "$ref"))) target).1 (removeField fs "$ref")))).2.cache } (allocSt (assignSrcFields (heapSet s a (HVal.obj (removeField fs "$ref"))) target).2 (HVal.obj (objAssign (assignSrcFields (heapSet s a (HVal.obj (removeField fs "$ref"))) target).1 (removeField fs "$ref")))).1 =
                    some (HVal.obj (objAssign (assignSrcFields (heapSet s a (HVal.obj (removeField fs "$ref"))) target).1 (removeField fs "$ref"))) :=
                  heapGet_alloc_self hw2 _
                have hcachedm : ({ (allocSt (assignSrcFields (heapSet s a (HVal.obj (removeField fs "$ref"))) target).2 (HVal.obj (objAssign (assignSrcFields (heapSet s a (HVal.obj (removeField fs "$ref"))) target).1 (removeField fs "$ref")))).2 with cache := (allocSt (assignSrcFields (heapSet s a (HVal.obj (removeField fs "$ref"))) target).2 (HVal.obj (objAssign (assignSrcFields (heapSet s a (HVal.obj (removeField fs "$ref"))) target).1 (removeField fs "$ref")))).1 :: (allocSt (assignSrcFields (heapSet s a (HVal.obj (removeField fs "$ref"))) target).2 (HVal.obj (objAssign (assignSrcFields (heapSet s a (HVal.obj (removeField fs "$ref"))) target).1 (removeField fs "$ref")))).2.cache } : St).cache.contains (allocSt (assignSrcFields (heapSet s a (HVal.obj (removeField fs "$ref"))) target).2 (HVal.obj (objAssign (assignSrcFields (heapSet s a (HVal.obj (removeField fs "$ref"))) target).1 (removeField fs "$ref")))).1 = true :=
                  (contains_cons_iff _ _ _).2 (Or.inl rfl)
                have hlt3 : mW
                    { (allocSt (assignSrcFields (heapSet s a (HVal.obj (removeField fs "$ref"))) target).2 (HVal.obj (objAssign (assignSrcFields (heapSet s a (HVal.obj (removeField fs "$ref"))) target).1 (removeField fs "$ref")))).2 with cache := (allocSt (assignSrcFields (heapSet s a (HVal.obj (removeField fs "$ref"))) target).2 (HVal.obj (objAssign (assignSrcFields (heapSet s a (HVal.obj (removeField fs "$ref"))) target).1 (removeField fs "$ref")))).1 :: (allocSt (assignSrcFields (heapSet s a (HVal.obj (removeField fs "$ref"))) target).2 (HVal.obj (objAssign (assignSrcFields (heapSet s a (HVal.obj (removeField fs "$ref"))) target).1 (removeField fs "$ref")))).2.cache } < mW s :=
                  lt_of_le_of_lt (le_trans hev3.w_le hev2.w_le) hlt1
                obtain ⟨n0, r2, hfold⟩ := fieldFold_total specA (fun st => mW st < mW s)
                  (fun st x hwst hxst hPst => step1 st x hwst hxst hPst)
                  (fun st st2 hle hPst => lt_of_le_of_lt hle hPst)
                  ((objAssign
                    (assignSrcFields (heapSet s a (.obj (removeField fs "$ref"))) target).1
                    (removeField fs "$ref")).map (fun f => f.1))
                  (allocSt
                    (assignSrcFields (heapSet s a (.obj (removeField fs "$ref"))) target).2
                    (.obj (objAssign
                      (assignSrcFields (heapSet s a (.obj (removeField fs "$ref"))) target).1
                      (removeField fs "$ref")))).1
                  { (allocSt
                      (assignSrcFields (heapSet s a (.obj (removeField fs "$ref"))) target).2
                      (.obj (objAssign
                        (assignSrcFields (heapSet s a (.obj (removeField fs "$ref"))) target).1
                        (removeField fs "$ref")))).2 with
                    cache := (allocSt
                      (assignSrcFields (heapSet s a (.obj (removeField fs "$ref"))) target).2
                      (.obj (objAssign
                        (assignSrcFields (heapSet s a (.obj (removeField fs "$ref"))) target).1
                        (removeField fs "$ref")))).1 ::
                      (allocSt
                        (assignSrcFields (heapSet s a (.obj (removeField fs "$ref"))) target).2
                        (.obj (objAssign
                          (assignSrcFields (heapSet s a (.obj (removeField fs "$ref"))) target).1
                          (removeField fs "$ref")))).2.cache }
                  (objAssign
                    (assignSrcFields (heapSet s a (.obj (removeField fs "$ref"))) target).1
                    (removeField fs "$ref"))
                  hobjm hcachedm hw3 hlt3
                cases r2 with
                | error e =>
                  refine ⟨n0 + 1, .error e, ?_⟩
                  simp only [resolveRefs, hgv]
                  rw [if_neg (by simp [truthyH]), if_neg hcch]
                  simp only [hrv, hrr]
                  rw [hfold]
                | ok s3 =>
                  refine ⟨n0 + 1, .ok ((allocSt
                    (assignSrcFields (heapSet s a (.obj (removeField fs "$ref"))) target).2
                    (.obj (objAssign
                      (assignSrcFields (heapSet s a (.obj (removeField fs "$ref"))) target).1
                      (removeField fs "$ref")))).1, s3), ?_⟩
                  simp only [resolveRefs, hgv]
                  rw [if_neg (by simp [truthyH]), if_neg hcch]
                  simp only [hrv, hrr]
                  rw [hfold]

/-- C4: resolveRefs terminates on every well-formed input, self-referential
and mutually referential node graphs included: some finite fuel makes the
embedded resolver return (an answer or a thrown assertion, never fuel
exhaustion), and every larger fuel returns the same outcome, because a node
already memoized in the current pass is returned unchanged. -/
theorem resolveRefs_total (specA a : Addr) (s : St) (hw : WfSt s)
    (ha : a < s.next) :
    ∃ n res, resolveRefs n a specA s = some res ∧
      ∀ m, n ≤ m → resolveRefs m a specA s = some res := by
  obtain ⟨n, res, h⟩ := resolveRefs_total_aux specA (mW s) a s a hw ha rfl rfl
  exact ⟨n, res, h, fun m hm => resolveRefs_mono n m hm a specA s res h⟩

/-- Witness for C4: the mutually referential document of c1St (its nodes
definitions.A and definitions.B reference each other) resolves with some
finite fuel. -/
theorem resolveRefs_total_witness :
    ∃ n res, resolveRefs n 2 0 c1St = some res ∧
      ∀ m, n ≤ m → resolveRefs m 2 0 c1St = some res :=
  resolveRefs_total 0 2 c1St
    (wfSt_mk c1St (by decide) (by decide) (by decide) (by decide) (by decide))
    (by decide)

end SwaggerSpec
